import Mathlib

/-!
# Expr: tokenizer, shunting-yard converter and RPN evaluator

A shallow embedding of `src/Expr/main.cpp`.

* `std::string` is a list of characters (`Str`); `expr[i]` at `i = size()` is the NUL
  terminator, as the C++ standard guarantees.
* `double`, its arithmetic and the `<cmath>` / `std::stod` library calls are external to the
  repository: they are the fields of `Arith F`, and every definition is generic in it.
* The three global maps are explicit state. `std::map::operator[]` inserts a
  value-initialised entry for a missing key, so `check_priority` returns the updated
  priority table next to the difference.
* Behaviour the C++ standard leaves undefined (`top()`/`pop()` on an empty `std::stack`,
  indexing a vector out of range) and `exit(0)` are explicit `Fault`s.
* `std::stod` throws `std::out_of_range` when the value of its argument is outside the
  range of `double`. `main.cpp` has no handler, so the exception ends the process: `stod`
  is partial (`Option`) and a missing value is the fault `uncaughtException`.
* The trace output that `eval` prints when `silent` is false is not modelled; the
  diagnostic line printed on an error path is (`Diagnostic`).
-/

namespace Expr

/-- A `std::string`: a sequence of `char`. -/
abbrev Str := List Char

/-- The numeric environment: `double` with the operations `main.cpp` takes from the
language and from the C/C++ library. -/
structure Arith (F : Type) where
  /-- the library call `std::stod`: the `double` it returns, or `none` where it throws
  `std::out_of_range` (the value of the string is outside the range of `double`) -/
  stod : Str → Option F
  /-- the `double` obtained from the literal `0` in `return 0;` -/
  zero : F
  add : F → F → F
  sub : F → F → F
  mul : F → F → F
  div : F → F → F
  /-- the library call `pow` -/
  pow : F → F → F
  /-- the library call `sin` -/
  sin : F → F
  /-- the library call `cos` -/
  cos : F → F

/-- Ways in which a run leaves the defined behaviour of returning to its caller. -/
inductive Fault where
  /-- `exit(0)` after printing `Unexpected character: .` -/
  | exited
  /-- `top()` or `pop()` on an empty `std::stack`, or a vector index out of range -/
  | undefinedBehaviour
  /-- `std::stod` threw `std::out_of_range` at line 154; nothing catches it, so
  `std::terminate` ends the process -/
  | uncaughtException
  /-- the loop model ran out of fuel (never the case for `tokenize`, see
  `tokenize_ne_outOfFuel`) -/
  | outOfFuel
  deriving DecidableEq, Repr

instance {ε α : Type} [DecidableEq ε] [DecidableEq α] : DecidableEq (Except ε α)
  | .ok a, .ok b => if h : a = b then isTrue (by rw [h]) else isFalse (fun h1 => h (by cases h1; rfl))
  | .error a, .error b =>
    if h : a = b then isTrue (by rw [h]) else isFalse (fun h1 => h (by cases h1; rfl))
  | .ok _, .error _ => isFalse (fun h => by cases h)
  | .error _, .ok _ => isFalse (fun h => by cases h)

inductive TokenType where
  | None
  | Number
  | Ident
  | Operation
  | Comma
  | OpenBracket
  | CloseBracket
  deriving DecidableEq, Repr

/-- A `Token` as built by one of the three constructors of the C++ struct: `number` is
initialised only by `Token(type, double)`, `str` only by `Token(type, string)`. The
tokenizer pairs each constructor with a fixed `type`, which is the constructor name here. -/
inductive Token (F : Type) where
  | Number (number : F)
  | Ident (str : Str)
  | Operation (str : Str)
  | Comma
  | OpenBracket
  | CloseBracket
  deriving DecidableEq, Repr

namespace Token

variable {F : Type}

/-- Field `type`. -/
def type : Token F → TokenType
  | Number _ => TokenType.Number
  | Ident _ => TokenType.Ident
  | Operation _ => TokenType.Operation
  | Comma => TokenType.Comma
  | OpenBracket => TokenType.OpenBracket
  | CloseBracket => TokenType.CloseBracket

/-- Field `str`: default-constructed (empty) unless the string constructor was used. -/
def str : Token F → Str
  | Ident s => s
  | Operation s => s
  | _ => []

end Token

/-! ## Tokenizer -/

/-- `isdigit` in the C locale. -/
def isdigit (c : Char) : Bool := c.isDigit

/-- `isalpha` in the C locale. -/
def isalpha (c : Char) : Bool := c.isAlpha

/-- `isalnum` in the C locale. -/
def isalnum (c : Char) : Bool := c.isAlphanum

/-- `s.substr(pos, len)` for `pos ≤ s.size()`. -/
def substr (s : Str) (pos len : Nat) : Str := (s.drop pos).take len

/-- The local variables of `tokenize`, with the loop index `i`. -/
structure LexState (F : Type) where
  tokens : List (Token F)
  current_token : TokenType
  token_start : Nat
  hadPoint : Bool
  i : Nat

variable {F : Type}

/-- One execution of the body of the `for` loop of `tokenize` (lines 94-172), without the
increment `i++`. A `continue` and a `break` out of the `switch` both lead to the increment.
At the end of a number the call of `std::stod` (line 154) returns the value that is
pushed, or throws; the string it is given starts with a digit, so the only exception is
`std::out_of_range`. -/
def tokenizeBody (A : Arith F) (expr : Str) (st : LexState F) : Except Fault (LexState F) :=
  let c := expr.getD st.i '\x00'
  match st.current_token with
  | TokenType.None =>
    if isdigit c then
      .ok { st with current_token := TokenType.Number, token_start := st.i }
    else if c = ',' then
      .ok { st with tokens := st.tokens ++ [Token.Comma] }
    else if c = '(' then
      .ok { st with tokens := st.tokens ++ [Token.OpenBracket] }
    else if c = ')' then
      .ok { st with tokens := st.tokens ++ [Token.CloseBracket] }
    else if isalpha c then
      .ok { st with current_token := TokenType.Ident, token_start := st.i }
    else if c = ' ' then
      .ok st
    else if c = '\x00' then
      .ok st
    else
      .ok { st with tokens := st.tokens ++ [Token.Operation [c]] }
  | TokenType.Number =>
    if isdigit c then
      .ok st
    else if c = '.' then
      if st.hadPoint then .error Fault.exited
      else .ok { st with hadPoint := true }
    else
      match A.stod (substr expr st.token_start (st.i - st.token_start)) with
      | none => .error Fault.uncaughtException
      | some x =>
        .ok { st with
          tokens := st.tokens ++ [Token.Number x]
          i := st.i - 1
          current_token := TokenType.None
          hadPoint := false }
  | TokenType.Ident =>
    if isalnum c then
      .ok st
    else
      .ok { st with
        tokens := st.tokens ++
          [Token.Ident (substr expr st.token_start (st.i - st.token_start))]
        i := st.i - 1
        current_token := TokenType.None }
  | _ => .ok st

/-- The `for` loop of `tokenize`: test `i < expr.size() + 1`, body, `i++`. Each unit of
fuel pays for one test. -/
def tokenizeLoop (A : Arith F) (expr : Str) : Nat → LexState F → Except Fault (List (Token F))
  | 0, _ => .error Fault.outOfFuel
  | fuel + 1, st =>
    if st.i < expr.length + 1 then
      match tokenizeBody A expr st with
      | .error e => .error e
      | .ok st1 => tokenizeLoop A expr fuel { st1 with i := st1.i + 1 }
    else .ok st.tokens

/-- `tokenize(expr)`. Every position `0 .. size` is visited at most twice, so
`2 * (size + 1)` iterations and one final test are enough. -/
def tokenize (A : Arith F) (expr : Str) : Except Fault (List (Token F)) :=
  tokenizeLoop A expr (2 * (expr.length + 1) + 1)
    { tokens := [], current_token := TokenType.None, token_start := 0, hadPoint := false, i := 0 }

/-! ### The scan as a recursion on the remaining input

`scan` reads the same state machine off the list of characters still to be read: the
mode carries the characters of the token being accumulated instead of `token_start`, and
the replay of a terminating character (`i--`) is the call of `stepNone` on it.
`tokenize_eq_scan` proves that `tokenize` computes exactly this. -/

/-- The scanner state: `current_token`, the text of the token so far, and `hadPoint`. -/
inductive Mode where
  | none
  | number (acc : Str) (hadPoint : Bool)
  | ident (acc : Str)
  deriving DecidableEq, Repr

/-- The `TokenType::None` case of the loop body on character `c`: the tokens pushed and
the state entered. -/
def stepNone (F : Type) (c : Char) : List (Token F) × Mode :=
  if isdigit c then ([], Mode.number [c] false)
  else if c = ',' then ([Token.Comma], Mode.none)
  else if c = '(' then ([Token.OpenBracket], Mode.none)
  else if c = ')' then ([Token.CloseBracket], Mode.none)
  else if isalpha c then ([], Mode.ident [c])
  else if c = ' ' then ([], Mode.none)
  else if c = '\x00' then ([], Mode.none)
  else ([Token.Operation [c]], Mode.none)

/-- Prepend tokens to a successful result. -/
def emit (ts : List (Token F)) : Except Fault (List (Token F)) → Except Fault (List (Token F))
  | .ok r => .ok (ts ++ r)
  | .error e => .error e

/-- Tokens produced from the remaining input (the string followed by its NUL terminator),
or the fault that ends the run: `exit(0)` at a second point, the uncaught exception of
`std::stod` at the end of a number. -/
def scan (A : Arith F) : Mode → Str → Except Fault (List (Token F))
  | _, [] => .ok []
  | Mode.none, c :: cs => emit (stepNone F c).1 (scan A (stepNone F c).2 cs)
  | Mode.number acc hp, c :: cs =>
    if isdigit c then scan A (Mode.number (acc ++ [c]) hp) cs
    else if c = '.' then
      if hp then .error Fault.exited else scan A (Mode.number (acc ++ [c]) true) cs
    else
      match A.stod acc with
      | none => .error Fault.uncaughtException
      | some x => emit (Token.Number x :: (stepNone F c).1) (scan A (stepNone F c).2 cs)
  | Mode.ident acc, c :: cs =>
    if isalnum c then scan A (Mode.ident (acc ++ [c])) cs
    else emit (Token.Ident acc :: (stepNone F c).1) (scan A (stepNone F c).2 cs)

/-! ## Symbol registry -/

/-- The struct `Function`: an implementation over the argument vector and its arity `n`.
`v[k]` on a vector shorter than `k + 1` has no defined value, so `func` is partial. -/
structure Function (F : Type) where
  func : List F → Option F
  n : Nat

/-- `m.find(k)`, as `some` of the mapped value, or `none` for `m.end()`. A `std::map` is a
list of entries with distinct keys. -/
def mapFind {V : Type} : List (Str × V) → Str → Option V
  | [], _ => none
  | (k, v) :: m, key => if key = k then some v else mapFind m key

/-- The rvalue use `operator_priority[key]` of `std::map::operator[]`: the mapped value, and
the map, to which a missing key has been added with the value-initialised priority `0`. -/
def mapIndex (m : List (Str × Int)) (key : Str) : Int × List (Str × Int) :=
  match mapFind m key with
  | some v => (v, m)
  | none => (0, m ++ [(key, 0)])

/-- The three global maps. -/
structure Registry (F : Type) where
  operator_priority : List (Str × Int)
  operators : List (Str × (F → F → F))
  functions : List (Str × Function F)

/-- The maps after `init_expr()`, which runs once on the empty maps. -/
def init_expr (A : Arith F) : Registry F where
  operator_priority := [(['+'], 1), (['-'], 1), (['*'], 2), (['/'], 2), (['^'], 3)]
  operators := [(['+'], A.add), (['-'], A.sub), (['*'], A.mul), (['/'], A.div), (['^'], A.pow)]
  functions :=
    [(['s', 'i', 'n'], { func := fun v => (v.get? 0).map A.sin, n := 1 }),
     (['c', 'o', 's'], { func := fun v => (v.get? 0).map A.cos, n := 1 }),
     (['p', 'o', 'w'],
      { func := fun v => (v.get? 0).bind fun x => (v.get? 1).map fun y => A.pow x y, n := 2 })]

/-! ## Shunting-yard converter -/

/-- `check_priority(op1, op2)`: the difference of the two priorities, and the priority table
after the two `operator[]` lookups. The lookups are taken left to right; the other order
would add the same missing keys in the other order and return the same difference. -/
def check_priority (m : List (Str × Int)) (op1 op2 : Str) : Int × List (Str × Int) :=
  let r1 := mapIndex m op1
  let r2 := mapIndex r1.2 op2
  (r1.1 - r2.1, r2.2)

/-- The local variables of `to_rpn` and the global priority table. The head of `stack` is
its top. -/
structure RpnState (F : Type) where
  result : List (Token F)
  stack : List (Token F)
  operator_priority : List (Str × Int)

/-- The `while (true)` loop of the `CloseBracket` case (lines 200-210). `stack.top()` on an
empty stack is undefined. -/
def closeBracketLoop : List (Token F) → List (Token F) →
    Except Fault (List (Token F) × List (Token F))
  | _, [] => .error Fault.undefinedBehaviour
  | result, top :: stack =>
    if top.type = TokenType.OpenBracket then .ok (result, stack)
    else closeBracketLoop (result ++ [top]) stack

/-- The `while (true)` loop of the `Operation` case (lines 218-234) for the operator `op`. -/
def operationLoop (op : Str) : List (Token F) → List (Token F) → List (Str × Int) →
    RpnState F
  | result, [], m => { result := result, stack := [], operator_priority := m }
  | result, top :: stack, m =>
    let r := check_priority m op top.str
    if r.1 ≤ 0 then operationLoop op (result ++ [top]) stack r.2
    else { result := result, stack := top :: stack, operator_priority := r.2 }

/-- The body of the `for` loop of `to_rpn` on the token `t` (lines 190-237). The `switch` has
no case for `Comma`. -/
def to_rpn_step (st : RpnState F) (t : Token F) : Except Fault (RpnState F) :=
  match t.type with
  | TokenType.Number => .ok { st with result := st.result ++ [t] }
  | TokenType.Ident => .ok { st with stack := t :: st.stack }
  | TokenType.OpenBracket => .ok { st with stack := t :: st.stack }
  | TokenType.CloseBracket =>
    match closeBracketLoop st.result st.stack with
    | .error e => .error e
    | .ok (result, stack) =>
      match stack with
      | top :: rest =>
        if top.type = TokenType.Ident then
          .ok { st with result := result ++ [top], stack := rest }
        else .ok { st with result := result, stack := stack }
      | [] => .ok { st with result := result, stack := [] }
  | TokenType.Operation =>
    let st1 := operationLoop t.str st.result st.stack st.operator_priority
    .ok { st1 with stack := t :: st1.stack }
  | _ => .ok st

/-- The `for` loop of `to_rpn` over the tokens that remain. -/
def to_rpn_loop : List (Token F) → RpnState F → Except Fault (RpnState F)
  | [], st => .ok st
  | t :: ts, st =>
    match to_rpn_step st t with
    | .error e => .error e
    | .ok st1 => to_rpn_loop ts st1

/-- `to_rpn` run on the input vector `inp` and the priority table `m`: the returned vector (the final loop,
lines 240-244, moves the stack to the result from the top down) and the priority table it
leaves behind. -/
def to_rpn (m : List (Str × Int)) (inp : List (Token F)) :
    Except Fault (List (Token F) × List (Str × Int)) :=
  match to_rpn_loop inp { result := [], stack := [], operator_priority := m } with
  | .error e => .error e
  | .ok st => .ok (st.result ++ st.stack, st.operator_priority)

/-! ## RPN evaluator -/

/-- The line `eval` prints on one of its three error paths, each followed by `return 0`. -/
inductive Diagnostic where
  /-- `Unknown function: ` and the name -/
  | unknownFunction (name : Str)
  /-- `Unknown operation: ` and the symbol -/
  | unknownOperation (symbol : Str)
  /-- `Bad expression` -/
  | badExpression
  deriving DecidableEq, Repr

/-- What a call of `eval` that returns has done: the diagnostic it printed, if any, and the
`double` it returned. -/
structure EvalReturn (F : Type) where
  printed : Option Diagnostic
  value : F
  deriving DecidableEq, Repr

/-- How the `for` loop of `eval` ends: with a `return` from inside the loop, or at the end
of the tokens with the working stack (head = top). -/
inductive LoopResult (F : Type) where
  | returned (d : Diagnostic)
  | finished (stack : List F)
  deriving DecidableEq, Repr

/-- The argument loop (lines 294-298): `n` times `args.push_back(stack.top()); stack.pop()`. -/
def popArgs : Nat → List F → List F → Except Fault (List F × List F)
  | 0, args, stack => .ok (args, stack)
  | _ + 1, _, [] => .error Fault.undefinedBehaviour
  | n + 1, args, top :: stack => popArgs n (args ++ [top]) stack

/-- The `for` loop of `eval` (lines 277-317) over the tokens that remain. The `switch` has
cases for `Number`, `Ident` and `Operation` only. -/
def evalLoop (R : Registry F) : List (Token F) → List F → Except Fault (LoopResult F)
  | [], stack => .ok (LoopResult.finished stack)
  | Token.Number x :: ts, stack => evalLoop R ts (x :: stack)
  | Token.Ident s :: ts, stack =>
    match mapFind R.functions s with
    | none => .ok (LoopResult.returned (Diagnostic.unknownFunction s))
    | some f =>
      match popArgs f.n [] stack with
      | .error e => .error e
      | .ok (args, stack1) =>
        match f.func args.reverse with
        | none => .error Fault.undefinedBehaviour
        | some v => evalLoop R ts (v :: stack1)
  | Token.Operation s :: ts, stack =>
    match mapFind R.operators s with
    | none => .ok (LoopResult.returned (Diagnostic.unknownOperation s))
    | some f =>
      match stack with
      | b :: a :: stack1 => evalLoop R ts (f a b :: stack1)
      | _ => .error Fault.undefinedBehaviour
  | _ :: ts, stack => evalLoop R ts stack

/-- Lines 275-325 of `eval`: the evaluation of the postfix sequence `tokens`. -/
def evalTokens (A : Arith F) (R : Registry F) (tokens : List (Token F)) :
    Except Fault (EvalReturn F) :=
  match evalLoop R tokens [] with
  | .error e => .error e
  | .ok (LoopResult.returned d) => .ok { printed := some d, value := A.zero }
  | .ok (LoopResult.finished stack) =>
    match stack with
    | [top] => .ok { printed := none, value := top }
    | _ => .ok { printed := some Diagnostic.badExpression, value := A.zero }

/-- `eval(expr)` run on the registry `R`: what it printed and returned, and the priority
table it leaves behind. -/
def eval (A : Arith F) (R : Registry F) (expr : Str) :
    Except Fault (EvalReturn F × List (Str × Int)) :=
  match tokenize A expr with
  | .error e => .error e
  | .ok tokens =>
    match to_rpn R.operator_priority tokens with
    | .error e => .error e
    | .ok (rpn, m) =>
      match evalTokens A R rpn with
      | .error e => .error e
      | .ok r => .ok (r, m)

/-! ## Exact arithmetic

Concrete inputs are evaluated in the rationals, where `+ - * /` are exact. On the values
used below (small integers, nonzero divisors) binary64 arithmetic is exact as well.
`std::stod` is given a value on the strings whose decimal value is zero or lies between
the least normal and the greatest finite `double`: there `strtod` reports no range
error. -/

/-- The value of a decimal digit. -/
def digitValue (c : Char) : Nat := c.toNat - '0'.toNat

/-- The number written by a string of decimal digits. -/
def natOfDigits (s : Str) : Nat := s.foldl (fun n c => 10 * n + digitValue c) 0

/-- The exact value of a string `digits` or `digits.digits`, the strings on which the
tokenizer calls `std::stod`: the integer part plus the fraction over a power of ten. -/
def decimalValue (s : Str) : ℚ :=
  (natOfDigits (s.takeWhile fun c => c != '.') : ℚ) +
    (natOfDigits ((s.dropWhile fun c => c != '.').drop 1) : ℚ) /
      10 ^ ((s.dropWhile fun c => c != '.').drop 1).length

/-- The number `2 ^ 1024 - 2 ^ 970`, half-way between the greatest finite `double` and
`2 ^ 1024`: from here on a value rounds beyond the greatest finite `double`. It is written
as a product of small powers so that it evaluates (`overflowBound_eq`). -/
def overflowBound : Nat := (2 ^ 54 - 1) * (2 ^ 194) ^ 5

/-- The number `2 ^ 1022`, the reciprocal of the least normal `double`, written as a power
of a small power (`normalBound_eq`). -/
def normalBound : Nat := (2 ^ 146) ^ 7

/-- The decimal value of the string is within the range of `double`: less than
`2 ^ 1024 - 2 ^ 970`, and either zero or at least `2 ^ (-1022)`, the least normal
`double`. Within this range `strtod` reports no range error. From `2 ^ 1024 - 2 ^ 970` on
the value overflows, `strtod` sets `ERANGE` and `std::stod` throws `std::out_of_range`;
a nonzero value below `2 ^ (-1022)` underflows. -/
def stodInRange (s : Str) : Bool :=
  decide (natOfDigits (s.takeWhile fun c => c != '.') < overflowBound) &&
    (decide (natOfDigits (s.takeWhile fun c => c != '.') ≠ 0) ||
      decide (natOfDigits ((s.dropWhile fun c => c != '.').drop 1) = 0) ||
      decide (10 ^ ((s.dropWhile fun c => c != '.').drop 1).length ≤
        natOfDigits ((s.dropWhile fun c => c != '.').drop 1) * normalBound))

/-- Exact arithmetic as an instance of `Arith`: `std::stod` is the exact decimal value of
a string within the range of `double` and throws on the others (the results below use the
throw on an overflowing string only); the four operators are those of the rationals; the
`<cmath>` functions have no rational model and stay parameters. -/
def exactArith (pw : ℚ → ℚ → ℚ) (sn cs : ℚ → ℚ) : Arith ℚ where
  stod := fun s => if stodInRange s then some (decimalValue s) else none
  zero := 0
  add := fun a b => a + b
  sub := fun a b => a - b
  mul := fun a b => a * b
  div := fun a b => a / b
  pow := pw
  sin := sn
  cos := cs

/-- The scanner mode a loop state stands for. -/
def modeOf (expr : Str) (st : LexState F) : Mode :=
  match st.current_token with
  | TokenType.Number =>
    Mode.number (substr expr st.token_start (st.i - st.token_start)) st.hadPoint
  | TokenType.Ident => Mode.ident (substr expr st.token_start (st.i - st.token_start))
  | _ => Mode.none

/-- The loop states that `tokenize` reaches at the loop test. -/
def LexInv (expr : Str) (st : LexState F) : Prop :=
  (st.current_token = TokenType.None ∧ st.i ≤ expr.length + 1 ∧ st.hadPoint = false) ∨
  (st.current_token = TokenType.Number ∧ st.token_start < st.i ∧ st.i ≤ expr.length) ∨
  (st.current_token = TokenType.Ident ∧ st.token_start < st.i ∧ st.i ≤ expr.length ∧
    st.hadPoint = false)

/-! ## Input shapes used in the statements -/

/-- A nonempty string of decimal digits. -/
def isDigits (s : Str) : Bool := !s.isEmpty && s.all isdigit

/-- A numeric literal `digits` or `digits.digits`. -/
def isLiteral (s : Str) : Bool :=
  isDigits (s.takeWhile fun c => c != '.') &&
    ((s.dropWhile fun c => c != '.').isEmpty || isDigits ((s.dropWhile fun c => c != '.').drop 1))

/-- A possibly empty run of blanks. -/
def isSpaces (s : Str) : Bool := s.all fun c => c == ' '

/-- An identifier: a letter followed by letters and digits. -/
def isIdentifier (s : Str) : Bool :=
  match s with
  | [] => false
  | c :: cs => isalpha c && cs.all isalnum

/-- The input goes on with a character that ends a numeric literal. -/
def endsNumber (rest : Str) : Bool :=
  match rest with
  | [] => false
  | c :: _ => !isdigit c && c != '.'

/-- A character that the `None` state turns into a one-character `Operation` token. -/
def isOperatorChar (c : Char) : Bool :=
  !isdigit c && c != ',' && c != '(' && c != ')' && !isalpha c && c != ' ' && c != '\x00'

/-- The value `operator_priority[s]` that `check_priority` reads on the table `m`. -/
def priorityOf (m : List (Str × Int)) (s : Str) : Int := (mapIndex m s).1

/-- An instance of the exact arithmetic for concrete runs: `pow` with a natural exponent,
and the first-order approximations of `sin` and `cos` at `0`. -/
def sampleArith : Arith ℚ :=
  exactArith (fun a b => a ^ b.num.toNat) (fun x => x) (fun _ => 1)

/-- Number of `OpenBracket` tokens in a sequence. -/
def openCount (ts : List (Token F)) : Nat :=
  ts.countP fun t => decide (t.type = TokenType.OpenBracket)

/-- The tokens pushed and the scanner state reached once the characters of `s` have been
read, starting in state `mode`; a fault where the run ends while reading them (`exit(0)`
at a second point, the uncaught exception of `std::stod`). -/
def scanPrefix (A : Arith F) : Mode → Str → Except Fault (List (Token F) × Mode)
  | mode, [] => .ok ([], mode)
  | Mode.none, c :: cs =>
    match scanPrefix A (stepNone F c).2 cs with
    | .ok (ts, m) => .ok ((stepNone F c).1 ++ ts, m)
    | .error e => .error e
  | Mode.number acc hp, c :: cs =>
    if isdigit c then scanPrefix A (Mode.number (acc ++ [c]) hp) cs
    else if c = '.' then
      if hp then .error Fault.exited else scanPrefix A (Mode.number (acc ++ [c]) true) cs
    else
      match A.stod acc with
      | none => .error Fault.uncaughtException
      | some x =>
        match scanPrefix A (stepNone F c).2 cs with
        | .ok (ts, m) => .ok (Token.Number x :: (stepNone F c).1 ++ ts, m)
        | .error e => .error e
  | Mode.ident acc, c :: cs =>
    if isalnum c then scanPrefix A (Mode.ident (acc ++ [c])) cs
    else
      match scanPrefix A (stepNone F c).2 cs with
      | .ok (ts, m) => .ok (Token.Ident acc :: (stepNone F c).1 ++ ts, m)
      | .error e => .error e

/-- The arithmetic `A` with the values of `std::stod` on the listed strings written out. It
is `A` itself when the listed values are those of `A` (`withValues_eq`), and lets a run
on a concrete text be computed from the values of its literals. -/
def Arith.withValues (A : Arith F) (tbl : List (Str × F)) : Arith F :=
  { A with stod := fun s =>
      match tbl.find? fun e => decide (e.1 = s) with
      | some e => some e.2
      | none => A.stod s }

/-- Number of `CloseBracket` tokens in a sequence. -/
def closeCount (ts : List (Token F)) : Nat :=
  ts.countP fun t => decide (t.type = TokenType.CloseBracket)

/-- The tokens of a sequence other than `Comma` and `CloseBracket`. -/
def keptTokens (ts : List (Token F)) : List (Token F) :=
  ts.filter fun t => decide (t.type ≠ TokenType.Comma) && decide (t.type ≠ TokenType.CloseBracket)

/-- A text of four hundred nines: a numeric literal whose value, above `10 ^ 399`, is
outside the range of `double`. -/
def nines : Str := List.replicate 400 '9'

/-- `m[key]` of `std::map::operator[]` for any mapped type: the mapped value, and the map,
to which a missing key has been added with the value-initialised `dflt`. -/
def mapSubscript {V : Type} (dflt : V) (m : List (Str × V)) (key : Str) :
    V × List (Str × V) :=
  match mapFind m key with
  | some v => (v, m)
  | none => (dflt, m ++ [(key, dflt)])

/-- The table `m1` is the table `m` followed by entries of priority 0 for keys that `m`
does not have. -/
def ZeroExtension (m m1 : List (Str × Int)) : Prop :=
  ∃ added : List (Str × Int), m1 = m ++ added ∧ ∀ e ∈ added, e.2 = 0 ∧ mapFind m e.1 = none

/-- The priority table after the expressions of `exprs` have been evaluated one after the
other, each run of `eval` starting on the table that the run before it left; `none` when one
of the runs does not return to its caller. -/
def tableAfter (A : Arith F) (R : Registry F) :
    List Str → List (Str × Int) → Option (List (Str × Int))
  | [], m => some m
  | e :: es, m =>
    match eval A { R with operator_priority := m } e with
    | .ok r => tableAfter A R es r.2
    | .error _ => none
/-- Two runs of the converter that differ in the table only, on tables with the same
priorities, agree. -/
def RpnAgree (a b : Except Fault (RpnState F)) : Prop :=
  match a, b with
  | .ok s, .ok s2 => s.result = s2.result ∧ s.stack = s2.stack ∧
      ∀ k, priorityOf s.operator_priority k = priorityOf s2.operator_priority k
  | .error e, .error e2 => e = e2
  | _, _ => False

/-! ## Expression trees -/

mutual
/-- An expression: a number, a binary operator on two expressions, or a function applied
to a list of expressions. -/
inductive Tree (F : Type) where
  | num (x : F)
  | op (symbol : Str) (left right : Tree F)
  | call (name : Str) (args : TreeList F)
/-- The argument list of a function node, left to right. -/
inductive TreeList (F : Type) where
  | nil
  | cons (t : Tree F) (ts : TreeList F)
end

mutual
/-- The post-order token sequence of a tree: operands before their operator, arguments
before their function name. -/
def Tree.postorder : Tree F → List (Token F)
  | Tree.num x => [Token.Number x]
  | Tree.op s l r => l.postorder ++ (r.postorder ++ [Token.Operation s])
  | Tree.call name args => args.postorder ++ [Token.Ident name]
/-- The post-order sequences of the arguments, left to right. -/
def TreeList.postorder : TreeList F → List (Token F)
  | TreeList.nil => []
  | TreeList.cons t ts => t.postorder ++ ts.postorder
end

/-- Number of arguments. -/
def TreeList.length : TreeList F → Nat
  | TreeList.nil => 0
  | TreeList.cons _ ts => ts.length + 1

mutual
/-- The value of a tree over the registry `R`: an operator node applies its registered
function to the left and the right value, a function node applies its registered function
to the vector of its argument values, left to right. There is no value when a symbol is not
registered, when the number of arguments is not the arity, or when the function is not
defined on the vector. -/
def Tree.value (R : Registry F) : Tree F → Option F
  | Tree.num x => some x
  | Tree.op s l r =>
    match mapFind R.operators s, l.value R, r.value R with
    | some f, some a, some b => some (f a b)
    | _, _, _ => none
  | Tree.call name args =>
    match mapFind R.functions name, args.values R with
    | some fn, some vs => if vs.length = fn.n then fn.func vs else none
    | _, _ => none
/-- The values of the arguments, left to right. -/
def TreeList.values (R : Registry F) : TreeList F → Option (List F)
  | TreeList.nil => some []
  | TreeList.cons t ts =>
    match t.value R, ts.values R with
    | some v, some vs => some (v :: vs)
    | _, _ => none
end

mutual
/-- A tree built from numbers, registered operators, and registered functions applied to
as many subtrees as their arity. -/
def Tree.wellFormed (R : Registry F) : Tree F → Bool
  | Tree.num _ => true
  | Tree.op s l r => (mapFind R.operators s).isSome && l.wellFormed R && r.wellFormed R
  | Tree.call name args =>
    (match mapFind R.functions name with
      | some fn => decide (args.length = fn.n)
      | none => false) && args.wellFormed R
/-- All arguments are well formed. -/
def TreeList.wellFormed (R : Registry F) : TreeList F → Bool
  | TreeList.nil => true
  | TreeList.cons t ts => t.wellFormed R && ts.wellFormed R
end

/-- An expression built from numbers and binary operators only. -/
inductive OpTree (F : Type) where
  | num (x : F)
  | op (symbol : Str) (left right : OpTree F)

/-- The post-order token sequence: operands before their operator. -/
def OpTree.postorder : OpTree F → List (Token F)
  | OpTree.num x => [Token.Number x]
  | OpTree.op s l r => l.postorder ++ (r.postorder ++ [Token.Operation s])

/-- The infix token sequence in which every operator node stands in its own pair of
brackets. -/
def OpTree.render : OpTree F → List (Token F)
  | OpTree.num x => [Token.Number x]
  | OpTree.op s l r =>
    Token.OpenBracket :: (l.render ++ (Token.Operation s :: (r.render ++ [Token.CloseBracket])))

/-- Every operator of the tree is a key of the operator table of `R`. -/
def OpTree.registered (R : Registry F) : OpTree F → Bool
  | OpTree.num _ => true
  | OpTree.op s l r => (mapFind R.operators s).isSome && l.registered R && r.registered R

/-- The sequence without its `Comma` tokens. -/
def withoutCommas (ts : List (Token F)) : List (Token F) :=
  ts.filter fun t => decide (t.type ≠ TokenType.Comma)

/-- The subsequence of the `Number` tokens. -/
def numbersOf (ts : List (Token F)) : List (Token F) :=
  ts.filter fun t => decide (t.type = TokenType.Number)

/-- The positions at which the body of the loop of `tokenize` runs, in order: the loop of
`tokenizeLoop`, recording `i` at each test that succeeds. -/
def tokenizeVisits (A : Arith F) (expr : Str) : Nat → LexState F → List Nat
  | 0, _ => []
  | fuel + 1, st =>
    if st.i < expr.length + 1 then
      st.i ::
        match tokenizeBody A expr st with
        | .error _ => []
        | .ok st1 => tokenizeVisits A expr fuel { st1 with i := st1.i + 1 }
    else []

/-- The number of loop tests that a state still needs at most, as a function of its
position and of whether a token is being accumulated. -/
def lexMeasure (expr : Str) (st : LexState F) : Nat :=
  2 * (expr.length + 1 - st.i) + (if st.current_token = TokenType.None then 1 else 2)

/-! # Theorems

## The tokenizer computes `scan` -/

theorem emit_emit (a b : List (Token F)) (r : Except Fault (List (Token F))) :
    emit a (emit b r) = emit (a ++ b) r := by
  cases r <;> simp [emit]

theorem emit_nil (r : Except Fault (List (Token F))) : emit [] r = r := by
  cases r <;> simp [emit]

theorem drop_ext (expr : Str) (i : Nat) (h : i ≤ expr.length) :
    (expr ++ ['\x00']).drop i = expr.getD i '\x00' :: (expr ++ ['\x00']).drop (i + 1) := by
  induction expr generalizing i with
  | nil =>
    have : i = 0 := by simpa using h
    subst this
    simp
  | cons c cs ih =>
    cases i with
    | zero => simp
    | succ j =>
      have hj : j ≤ cs.length := by simpa using h
      simpa using ih j hj

theorem getD_length (expr : Str) : expr.getD expr.length '\x00' = '\x00' := by
  simp [List.getD]

theorem substr_succ (expr : Str) (ts i : Nat) (h1 : ts ≤ i) (h2 : i < expr.length) :
    substr expr ts (i + 1 - ts) = substr expr ts (i - ts) ++ [expr.getD i '\x00'] := by
  unfold substr
  have e : i + 1 - ts = (i - ts) + 1 := by omega
  rw [e, List.take_succ]
  congr 1
  have : ts + (i - ts) = i := by omega
  simp [List.getElem?_drop, this, List.getD, List.getElem?_eq_getElem h2]

theorem substr_one (expr : Str) (i : Nat) (h2 : i < expr.length) :
    substr expr i 1 = [expr.getD i '\x00'] := by
  have := substr_succ expr i i (le_refl i) h2
  simpa [substr] using this

theorem isdigit_nul : isdigit '\x00' = false := by decide
theorem isalpha_nul : isalpha '\x00' = false := by decide

theorem tokenizeLoop_eq_scan (A : Arith F) (expr : Str) :
    ∀ (fuel : Nat) (st : LexState F), LexInv expr st →
      2 * (expr.length + 1 - st.i) + (if st.current_token = TokenType.None then 1 else 2) ≤ fuel →
      tokenizeLoop A expr fuel st =
        emit st.tokens (scan A (modeOf expr st) ((expr ++ ['\x00']).drop st.i)) := by
  intro fuel
  induction fuel with
  | zero =>
    intro st _ hf
    split_ifs at hf <;> omega
  | succ fuel ih =>
    intro st hinv hf
    obtain ⟨tokens, cur, ts, hp, i⟩ := st
    rcases hinv with ⟨hc, hi, hh⟩ | ⟨hc, hts, hi⟩ | ⟨hc, hts, hi, hh⟩
    · -- state None
      simp only at hc hi hh hf
      subst hc; subst hh
      simp only [if_true] at hf
      by_cases hlt : i < expr.length + 1
      · have hle : i ≤ expr.length := by omega
        have hnul : i = expr.length → expr.getD i '\x00' = '\x00' := by
          intro h; rw [h]; exact getD_length expr
        simp only [tokenizeLoop, hlt, if_true, modeOf]
        rw [drop_ext expr i hle]
        simp only [scan]
        simp only [tokenizeBody]
        generalize hcdef : expr.getD i '\x00' = c at hnul
        by_cases h1 : isdigit c = true
        · have hne : i ≠ expr.length := by
            intro h; rw [hnul h] at h1; simp [isdigit_nul] at h1
          have hl : i < expr.length := by omega
          simp only [h1, if_true, stepNone]
          rw [ih _ (Or.inr (Or.inl ⟨rfl, by simp, by simp; omega⟩)) (by simp; omega)]
          simp only [modeOf, Nat.add_sub_cancel_left, substr_one expr i hl, hcdef, emit_nil]
        · simp only [h1, stepNone]
          have key : ∀ (out : List (Token F)),
              tokenizeLoop A expr fuel
                { tokens := tokens ++ out, current_token := TokenType.None, token_start := ts,
                  hadPoint := false, i := i + 1 } =
              emit tokens (emit out (scan A Mode.none ((expr ++ ['\x00']).drop (i + 1)))) := by
            intro out
            rw [ih _ (Or.inl ⟨rfl, by simp; omega, rfl⟩) (by simp; omega)]
            simp only [modeOf, emit_emit]
          by_cases h2 : c = ','
          · simpa [h2, isdigit, isalpha] using key [Token.Comma]
          by_cases h3 : c = '('
          · simpa [h3, isdigit, isalpha] using key [Token.OpenBracket]
          by_cases h4 : c = ')'
          · simpa [h4, isdigit, isalpha] using key [Token.CloseBracket]
          by_cases h5 : isalpha c = true
          · have hne : i ≠ expr.length := by
              intro h; rw [hnul h] at h5; simp [isalpha_nul] at h5
            have hl : i < expr.length := by omega
            simp only [h2, h3, h4, h5, if_true, if_false, Bool.false_eq_true]
            rw [ih _ (Or.inr (Or.inr ⟨rfl, by simp, by simp; omega, rfl⟩)) (by simp; omega)]
            simp only [modeOf, Nat.add_sub_cancel_left, substr_one expr i hl, hcdef, emit_nil]
          by_cases h6 : c = ' '
          · simpa [h6, isdigit, isalpha] using key []
          by_cases h7 : c = '\x00'
          · simpa [h7, isdigit, isalpha] using key []
          · simpa [h1, h2, h3, h4, h5, h6, h7] using key [Token.Operation [c]]
      · have : i = expr.length + 1 := by omega
        subst this
        simp [tokenizeLoop, modeOf, scan, emit]
    · -- state Number
      simp only at hc hts hi hf
      subst hc
      simp only [reduceCtorEq, if_false] at hf
      have hlt : i < expr.length + 1 := by omega
      simp only [tokenizeLoop, hlt, if_true, modeOf]
      rw [drop_ext expr i hi]
      simp only [scan, tokenizeBody]
      have hnul : i = expr.length → expr.getD i '\x00' = '\x00' := by
        intro h; rw [h]; exact getD_length expr
      generalize hcdef : expr.getD i '\x00' = c at hnul
      cases h1 : isdigit c with
      | true =>
        have hne : i ≠ expr.length := by
          intro h; rw [hnul h] at h1; simp [isdigit_nul] at h1
        have hl : i < expr.length := by omega
        simp only [if_true]
        rw [ih _ (Or.inr (Or.inl ⟨rfl, by simp; omega, by simp; omega⟩)) (by simp; omega)]
        simp only [modeOf, substr_succ expr ts i (by omega) hl, hcdef]
      | false =>
        simp only [Bool.false_eq_true, if_false]
        by_cases h2 : c = '.'
        · have hne : i ≠ expr.length := by
            intro h; rw [hnul h] at h2; simp at h2
          have hl : i < expr.length := by omega
          cases hp with
          | true => simp [h2, emit]
          | false =>
            simp only [h2, if_true, if_false, Bool.false_eq_true]
            rw [ih _ (Or.inr (Or.inl ⟨rfl, by simp; omega, by simp; omega⟩)) (by simp; omega)]
            simp only [modeOf, substr_succ expr ts i (by omega) hl, hcdef, h2]
        · simp only [h2, if_false]
          cases hs : A.stod (substr expr ts (i - ts)) with
          | none => simp only [emit]
          | some x =>
            simp only []
            have e : i - 1 + 1 = i := by omega
            rw [e]
            have hN := ih { tokens := tokens ++ [Token.Number x],
                            current_token := TokenType.None, token_start := ts,
                            hadPoint := false, i := i }
              (Or.inl ⟨rfl, by simp; omega, rfl⟩) (by simp; omega)
            rw [hN]
            simp only [modeOf]
            rw [drop_ext expr i hi, hcdef]
            simp only [scan, emit_emit, List.append_assoc, List.singleton_append]
    · -- state Ident
      simp only at hc hts hi hf hh
      subst hc; subst hh
      simp only [reduceCtorEq, if_false] at hf
      have hlt : i < expr.length + 1 := by omega
      simp only [tokenizeLoop, hlt, if_true, modeOf]
      rw [drop_ext expr i hi]
      simp only [scan, tokenizeBody]
      have hnul : i = expr.length → expr.getD i '\x00' = '\x00' := by
        intro h; rw [h]; exact getD_length expr
      generalize hcdef : expr.getD i '\x00' = c at hnul
      cases h1 : isalnum c with
      | true =>
        have hne : i ≠ expr.length := by
          intro h; rw [hnul h] at h1; revert h1; decide
        have hl : i < expr.length := by omega
        simp only [if_true]
        rw [ih _ (Or.inr (Or.inr ⟨rfl, by simp; omega, by simp; omega, rfl⟩)) (by simp; omega)]
        simp only [modeOf, substr_succ expr ts i (by omega) hl, hcdef]
      | false =>
        simp only [Bool.false_eq_true, if_false]
        have e : i - 1 + 1 = i := by omega
        rw [e]
        have hN := ih { tokens := tokens ++ [Token.Ident (substr expr ts (i - ts))],
                        current_token := TokenType.None, token_start := ts, hadPoint := false,
                        i := i } (Or.inl ⟨rfl, by simp; omega, rfl⟩) (by simp; omega)
        rw [hN]
        simp only [modeOf]
        rw [drop_ext expr i hi, hcdef]
        simp only [scan, emit_emit, List.append_assoc, List.singleton_append]

theorem tokenize_eq_scan (A : Arith F) (expr : Str) :
    tokenize A expr = scan A Mode.none (expr ++ ['\x00']) := by
  unfold tokenize
  rw [tokenizeLoop_eq_scan A expr _ _ (Or.inl ⟨rfl, by simp, rfl⟩) (by simp)]
  simp [modeOf, emit_nil]

theorem emit_ne_outOfFuel (ts : List (Token F)) (r : Except Fault (List (Token F)))
    (h : r ≠ .error Fault.outOfFuel) : emit ts r ≠ .error Fault.outOfFuel := by
  cases r with
  | ok v => simp [emit]
  | error e => simpa [emit] using h

/-- The scan never runs out of fuel: it has none. -/
theorem scan_ne_outOfFuel (A : Arith F) :
    ∀ (s : Str) (mode : Mode), scan A mode s ≠ .error Fault.outOfFuel := by
  intro s
  induction s with
  | nil => intro mode; cases mode <;> simp [scan]
  | cons c cs ih =>
    intro mode
    cases mode with
    | none => exact emit_ne_outOfFuel _ _ (ih _)
    | number acc hp =>
      simp only [scan]
      split_ifs
      · exact ih _
      · simp
      · exact ih _
      · cases A.stod acc with
        | none => simp
        | some x => exact emit_ne_outOfFuel _ _ (ih _)
    | ident acc =>
      simp only [scan]
      split_ifs
      · exact ih _
      · exact emit_ne_outOfFuel _ _ (ih _)

/-- Writing out values that `std::stod` returns does not change the arithmetic. -/
theorem withValues_eq (A : Arith F) (tbl : List (Str × F))
    (h : ∀ e ∈ tbl, A.stod e.1 = some e.2) : A.withValues tbl = A := by
  cases A with
  | mk stod zero add sub mul div pow sin cos =>
    simp only [Arith.withValues, Arith.mk.injEq, and_true]
    funext s
    cases hf : tbl.find? (fun e => decide (e.1 = s)) with
    | none => rfl
    | some e =>
      have h1 := List.find?_some hf
      have h2 := h e (List.mem_of_find?_eq_some hf)
      simp only [decide_eq_true_eq] at h1
      rw [← h1]
      exact h2.symm

theorem overflowBound_eq : overflowBound = 2 ^ 1024 - 2 ^ 970 := by
  norm_num [overflowBound]

theorem normalBound_eq : normalBound = 2 ^ 1022 := by
  norm_num [normalBound]

/-- The fuel given to the loop of `tokenize` is always enough. -/
theorem tokenize_ne_outOfFuel (A : Arith F) (expr : Str) :
    tokenize A expr ≠ .error Fault.outOfFuel := by
  rw [tokenize_eq_scan]
  exact scan_ne_outOfFuel A _ _

/-! ## Scanning literals, blanks and identifiers -/

theorem scan_none_cons (A : Arith F) (c : Char) (cs : Str) :
    scan A Mode.none (c :: cs) = emit (stepNone F c).1 (scan A (stepNone F c).2 cs) := rfl

theorem scan_digits (A : Arith F) (ds : Str) (h : ds.all isdigit = true) :
    ∀ (acc : Str) (hp : Bool) (rest : Str),
      scan A (Mode.number acc hp) (ds ++ rest) = scan A (Mode.number (acc ++ ds) hp) rest := by
  induction ds with
  | nil => intro acc hp rest; simp
  | cons d ds ih =>
    intro acc hp rest
    simp only [List.all_cons, Bool.and_eq_true] at h
    simp only [List.cons_append, scan, h.1, if_true, List.append_eq]
    rw [ih h.2]
    simp

theorem scan_number_end (A : Arith F) (acc : Str) (hp : Bool) (rest : Str)
    (h : endsNumber rest = true) (x : F) (hx : A.stod acc = some x) :
    scan A (Mode.number acc hp) rest = emit [Token.Number x] (scan A Mode.none rest) := by
  cases rest with
  | nil => simp [endsNumber] at h
  | cons c cs =>
    simp only [endsNumber, Bool.and_eq_true, Bool.not_eq_true', bne_iff_ne, ne_eq] at h
    simp only [scan, h.1, h.2, hx, if_false, Bool.false_eq_true, emit_emit,
      List.singleton_append]

/-- Where `std::stod` throws on the characters of the number, the scan ends there. -/
theorem scan_number_throws (A : Arith F) (acc : Str) (hp : Bool) (rest : Str)
    (h : endsNumber rest = true) (hx : A.stod acc = none) :
    scan A (Mode.number acc hp) rest = .error Fault.uncaughtException := by
  cases rest with
  | nil => simp [endsNumber] at h
  | cons c cs =>
    simp only [endsNumber, Bool.and_eq_true, Bool.not_eq_true', bne_iff_ne, ne_eq] at h
    simp only [scan, h.1, h.2, hx, if_false, Bool.false_eq_true]

theorem isDigits_cons {s : Str} (h : isDigits s = true) :
    ∃ d ds, s = d :: ds ∧ isdigit d = true ∧ ds.all isdigit = true := by
  cases s with
  | nil => simp [isDigits] at h
  | cons d ds =>
    simp only [isDigits, List.isEmpty_cons, Bool.not_false, List.all_cons, Bool.true_and,
      Bool.and_eq_true] at h
    exact ⟨d, ds, rfl, h.1, h.2⟩

theorem isLiteral_shape {s : Str} (h : isLiteral s = true) :
    ∃ d1 d2, isDigits d1 = true ∧
      (s = d1 ∨ (isDigits d2 = true ∧ s = d1 ++ '.' :: d2)) := by
  simp only [isLiteral, Bool.and_eq_true, Bool.or_eq_true] at h
  obtain ⟨h1, h2⟩ := h
  have hs : s = (s.takeWhile fun c => c != '.') ++ (s.dropWhile fun c => c != '.') :=
    (List.takeWhile_append_dropWhile _ s).symm
  refine ⟨s.takeWhile fun c => c != '.', ((s.dropWhile fun c => c != '.').drop 1), h1, ?_⟩
  cases hd : (s.dropWhile fun c => c != '.') with
  | nil =>
    left
    rw [hd] at hs
    simpa using hs
  | cons c r =>
    right
    rw [hd] at h2
    have hc : c = '.' := by
      have := List.head_dropWhile_not (fun c => c != '.') s (by rw [hd]; simp)
      simp only [hd, List.head_cons] at this
      simpa using this
    refine ⟨by simpa using h2, ?_⟩
    rw [hd, hc] at hs
    simpa using hs

/-- After a literal the scanner is in the `Number` state with the characters of the
literal collected. -/
theorem scan_literal_number (A : Arith F) (s rest : Str) (hs : isLiteral s = true) :
    ∃ hp, scan A Mode.none (s ++ rest) = scan A (Mode.number s hp) rest := by
  obtain ⟨d1, d2, h1, h⟩ := isLiteral_shape hs
  obtain ⟨d, ds, rfl, hd, hds⟩ := isDigits_cons h1
  rcases h with rfl | ⟨h2, rfl⟩
  · refine ⟨false, ?_⟩
    simp only [List.cons_append, scan_none_cons, stepNone, hd, if_true, emit_nil]
    rw [scan_digits A ds hds]
    simp
  · obtain ⟨e, es, rfl, he, hes⟩ := isDigits_cons h2
    have hdot : isdigit '.' = false := by decide
    refine ⟨true, ?_⟩
    simp only [List.cons_append, List.append_assoc, scan_none_cons, stepNone, hd, if_true,
      emit_nil]
    rw [scan_digits A ds hds]
    simp only [List.cons_append, scan, hdot, Bool.false_eq_true, if_false, if_true, he]
    rw [scan_digits A es hes]
    simp

theorem scan_literal (A : Arith F) (s rest : Str) (hs : isLiteral s = true)
    (hr : endsNumber rest = true) (x : F) (hx : A.stod s = some x) :
    scan A Mode.none (s ++ rest) = emit [Token.Number x] (scan A Mode.none rest) := by
  obtain ⟨hp, h⟩ := scan_literal_number A s rest hs
  rw [h, scan_number_end A s hp rest hr x hx]

/-- A literal on which `std::stod` throws ends the scan with the uncaught exception. -/
theorem scan_literal_throws (A : Arith F) (s rest : Str) (hs : isLiteral s = true)
    (hr : endsNumber rest = true) (hx : A.stod s = none) :
    scan A Mode.none (s ++ rest) = .error Fault.uncaughtException := by
  obtain ⟨hp, h⟩ := scan_literal_number A s rest hs
  rw [h, scan_number_throws A s hp rest hr hx]

theorem scan_spaces (A : Arith F) (w rest : Str) (hw : isSpaces w = true) :
    scan A Mode.none (w ++ rest) = scan A Mode.none rest := by
  induction w with
  | nil => simp
  | cons c w ih =>
    simp only [isSpaces, List.all_cons, Bool.and_eq_true, beq_iff_eq] at hw
    have hc : c = ' ' := hw.1
    subst hc
    have e : stepNone F ' ' = ([], Mode.none) := rfl
    rw [List.cons_append, scan_none_cons, e, emit_nil]
    exact ih (by simpa [isSpaces] using hw.2)

theorem scan_alnums (A : Arith F) (ds : Str) (h : ds.all isalnum = true) :
    ∀ (acc rest : Str),
      scan A (Mode.ident acc) (ds ++ rest) = scan A (Mode.ident (acc ++ ds)) rest := by
  induction ds with
  | nil => intro acc rest; simp
  | cons d ds ih =>
    intro acc rest
    simp only [List.all_cons, Bool.and_eq_true] at h
    simp only [List.cons_append, scan, h.1, if_true, List.append_eq]
    rw [ih h.2]
    simp

theorem isalpha_not_isdigit {c : Char} (h : isalpha c = true) : isdigit c = false := by
  simp only [isalpha, isdigit, Char.isAlpha, Char.isDigit, Char.isUpper, Char.isLower,
    Bool.or_eq_true, Bool.and_eq_true, decide_eq_true_eq, Bool.and_eq_false_imp,
    decide_eq_false_iff_not] at *
  simp only [GE.ge, UInt32.le_def, BitVec.le_def] at *
  have e1 : (UInt32.toBitVec 65).toNat = 65 := rfl
  have e2 : (UInt32.toBitVec 90).toNat = 90 := rfl
  have e3 : (UInt32.toBitVec 97).toNat = 97 := rfl
  have e4 : (UInt32.toBitVec 122).toNat = 122 := rfl
  have e5 : (UInt32.toBitVec 48).toNat = 48 := rfl
  have e6 : (UInt32.toBitVec 57).toNat = 57 := rfl
  rw [e1, e2, e3, e4] at h
  rw [e5, e6]
  omega

theorem stepNone_alpha {a : Char} (h : isalpha a = true) :
    stepNone F a = ([], Mode.ident [a]) := by
  have hna : a ≠ ',' ∧ a ≠ '(' ∧ a ≠ ')' := by
    refine ⟨?_, ?_, ?_⟩ <;> (intro h1; rw [h1] at h; revert h; decide)
  simp only [stepNone, isalpha_not_isdigit h, h, hna.1, hna.2.1, hna.2.2, if_true, if_false,
    Bool.false_eq_true]

theorem scan_identifier (A : Arith F) (s : Str) (c : Char) (cs : Str)
    (hs : isIdentifier s = true) (hc : isalnum c = false) :
    scan A Mode.none (s ++ c :: cs) =
      emit [Token.Ident s] (scan A Mode.none (c :: cs)) := by
  cases s with
  | nil => simp [isIdentifier] at hs
  | cons a r =>
    simp only [isIdentifier, Bool.and_eq_true] at hs
    rw [List.cons_append, scan_none_cons, stepNone_alpha hs.1, emit_nil]
    simp only []
    rw [scan_alnums A r hs.2]
    simp only [scan, hc, Bool.false_eq_true, if_false, emit_emit, List.singleton_append,
      List.singleton_append]

theorem scan_end (A : Arith F) : scan A Mode.none ['\x00'] = .ok [] := rfl

theorem endsNumber_end : endsNumber ['\x00'] = true := by decide

theorem stepNone_operator {c : Char} (h : isOperatorChar c = true) :
    stepNone F c = ([Token.Operation [c]], Mode.none) := by
  simp only [isOperatorChar, Bool.and_eq_true, Bool.not_eq_true', bne_iff_ne, ne_eq] at h
  obtain ⟨⟨⟨⟨⟨⟨h1, h2⟩, h3⟩, h4⟩, h5⟩, h6⟩, h7⟩ := h
  simp only [stepNone, h1, h2, h3, h4, h5, h6, h7, if_false, Bool.false_eq_true]

theorem scan_operator (A : Arith F) {c : Char} (rest : Str) (h : isOperatorChar c = true) :
    scan A Mode.none (c :: rest) = emit [Token.Operation [c]] (scan A Mode.none rest) := by
  rw [scan_none_cons, stepNone_operator h]

theorem endsNumber_spaces {w rest : Str} (hw : isSpaces w = true) (hr : endsNumber rest = true) :
    endsNumber (w ++ rest) = true := by
  cases w with
  | nil => simpa using hr
  | cons c w =>
    simp only [isSpaces, List.all_cons, Bool.and_eq_true, beq_iff_eq] at hw
    rw [hw.1]
    rfl

/-- A literal, then blanks, then something that is neither a digit nor a point. -/
theorem scan_literal_spaces (A : Arith F) (s w rest : Str) (hs : isLiteral s = true)
    (hw : isSpaces w = true) (hr : endsNumber rest = true) (x : F) (hx : A.stod s = some x) :
    scan A Mode.none (s ++ (w ++ rest)) =
      emit [Token.Number x] (scan A Mode.none rest) := by
  rw [scan_literal A s _ hs (endsNumber_spaces hw hr) x hx, scan_spaces A w rest hw]

/-- An operator character, then blanks. -/
theorem scan_operator_spaces (A : Arith F) {c : Char} (w rest : Str)
    (h : isOperatorChar c = true) (hw : isSpaces w = true) :
    scan A Mode.none (c :: (w ++ rest)) =
      emit [Token.Operation [c]] (scan A Mode.none rest) := by
  rw [scan_operator A _ h, scan_spaces A w rest hw]

theorem endsNumber_operator {c : Char} (rest : Str) (h : isOperatorChar c = true)
    (hc : c ≠ '.') : endsNumber (c :: rest) = true := by
  simp only [isOperatorChar, Bool.and_eq_true, Bool.not_eq_true', bne_iff_ne, ne_eq] at h
  simp [endsNumber, h.1.1.1.1.1.1, hc]

/-- The keys of `operators` after `init_expr`, with their implementations. -/
theorem registered_operator (A : Arith F) {p : Str} {fp : F → F → F}
    (h : mapFind (init_expr A).operators p = some fp) :
    (p = ['+'] ∧ fp = A.add) ∨ (p = ['-'] ∧ fp = A.sub) ∨ (p = ['*'] ∧ fp = A.mul) ∨
      (p = ['/'] ∧ fp = A.div) ∨ (p = ['^'] ∧ fp = A.pow) := by
  simp only [init_expr, mapFind] at h
  split_ifs at h with h1 h2 h3 h4 h5
  · exact Or.inl ⟨h1, (Option.some.inj h).symm⟩
  · exact Or.inr (Or.inl ⟨h2, (Option.some.inj h).symm⟩)
  · exact Or.inr (Or.inr (Or.inl ⟨h3, (Option.some.inj h).symm⟩))
  · exact Or.inr (Or.inr (Or.inr (Or.inl ⟨h4, (Option.some.inj h).symm⟩)))
  · exact Or.inr (Or.inr (Or.inr (Or.inr ⟨h5, (Option.some.inj h).symm⟩)))

/-- Every registered operator symbol is one operator character other than the point. -/
theorem registered_operator_char (A : Arith F) {p : Str} {fp : F → F → F}
    (h : mapFind (init_expr A).operators p = some fp) :
    ∃ c, p = [c] ∧ isOperatorChar c = true ∧ c ≠ '.' := by
  rcases registered_operator A h with h | h | h | h | h <;>
    exact ⟨_, h.1, by decide, by decide⟩

/-- Tokens of `a p b q c`, with any blanks around the operators. -/
theorem tokenize_chain (A : Arith F) (a b c w1 w2 w3 w4 : Str) (p q : Char)
    (ha : isLiteral a = true) (hb : isLiteral b = true) (hc : isLiteral c = true)
    (h1 : isSpaces w1 = true) (h2 : isSpaces w2 = true) (h3 : isSpaces w3 = true)
    (h4 : isSpaces w4 = true) (hp : isOperatorChar p = true) (hp1 : p ≠ '.')
    (hq : isOperatorChar q = true) (hq1 : q ≠ '.') (x y z : F)
    (hx : A.stod a = some x) (hy : A.stod b = some y) (hz : A.stod c = some z) :
    tokenize A (a ++ w1 ++ [p] ++ w2 ++ b ++ w3 ++ [q] ++ w4 ++ c) =
      .ok [Token.Number x, Token.Operation [p], Token.Number y,
        Token.Operation [q], Token.Number z] := by
  rw [tokenize_eq_scan]
  simp only [List.append_assoc, List.cons_append, List.nil_append]
  rw [scan_literal_spaces A a w1 _ ha h1 (endsNumber_operator _ hp hp1) x hx,
    scan_operator_spaces A w2 _ hp h2,
    scan_literal_spaces A b w3 _ hb h3 (endsNumber_operator _ hq hq1) y hy,
    scan_operator_spaces A w4 _ hq h4]
  have := scan_literal_spaces A c [] ['\x00'] hc rfl endsNumber_end z hz
  simp only [List.nil_append] at this
  rw [this, scan_end]
  rfl


/-! ## Binary operators: precedence, associativity, parentheses -/

/-- Converter and evaluator on `x p y q z` when `q` binds tighter than `p`. -/
theorem rpn_eval_precedence (A : Arith F) (x y z : F) (p q : Str) (fp fq : F → F → F)
    (hp : mapFind (init_expr A).operators p = some fp)
    (hq : mapFind (init_expr A).operators q = some fq)
    (hprio : priorityOf (init_expr A).operator_priority p <
      priorityOf (init_expr A).operator_priority q) :
    to_rpn (init_expr A).operator_priority
        [Token.Number x, Token.Operation p, Token.Number y, Token.Operation q, Token.Number z] =
      .ok ([Token.Number x, Token.Number y, Token.Number z, Token.Operation q,
        Token.Operation p], (init_expr A).operator_priority) ∧
    evalTokens A (init_expr A)
        [Token.Number x, Token.Number y, Token.Number z, Token.Operation q, Token.Operation p] =
      .ok { printed := none, value := fp x (fq y z) } := by
  rcases registered_operator A hp with ⟨rfl, rfl⟩ | ⟨rfl, rfl⟩ | ⟨rfl, rfl⟩ | ⟨rfl, rfl⟩ | ⟨rfl, rfl⟩ <;>
  rcases registered_operator A hq with ⟨rfl, rfl⟩ | ⟨rfl, rfl⟩ | ⟨rfl, rfl⟩ | ⟨rfl, rfl⟩ | ⟨rfl, rfl⟩ <;>
  first
  | exact ⟨rfl, rfl⟩
  | (exfalso; simp [priorityOf, mapIndex, mapFind, init_expr] at hprio)

/-- Converter and evaluator on `x p y q z` when `q` does not bind tighter than `p`. -/
theorem rpn_eval_left_assoc (A : Arith F) (x y z : F) (p q : Str) (fp fq : F → F → F)
    (hp : mapFind (init_expr A).operators p = some fp)
    (hq : mapFind (init_expr A).operators q = some fq)
    (hprio : priorityOf (init_expr A).operator_priority q ≤
      priorityOf (init_expr A).operator_priority p) :
    to_rpn (init_expr A).operator_priority
        [Token.Number x, Token.Operation p, Token.Number y, Token.Operation q, Token.Number z] =
      .ok ([Token.Number x, Token.Number y, Token.Operation p, Token.Number z,
        Token.Operation q], (init_expr A).operator_priority) ∧
    evalTokens A (init_expr A)
        [Token.Number x, Token.Number y, Token.Operation p, Token.Number z, Token.Operation q] =
      .ok { printed := none, value := fq (fp x y) z } := by
  rcases registered_operator A hp with ⟨rfl, rfl⟩ | ⟨rfl, rfl⟩ | ⟨rfl, rfl⟩ | ⟨rfl, rfl⟩ | ⟨rfl, rfl⟩ <;>
  rcases registered_operator A hq with ⟨rfl, rfl⟩ | ⟨rfl, rfl⟩ | ⟨rfl, rfl⟩ | ⟨rfl, rfl⟩ | ⟨rfl, rfl⟩ <;>
  first
  | exact ⟨rfl, rfl⟩
  | (exfalso; simp [priorityOf, mapIndex, mapFind, init_expr] at hprio)

/-- The three stages of `eval` composed. -/
theorem eval_of_stages (A : Arith F) (R : Registry F) (expr : Str) (toks rpn : List (Token F))
    (m : List (Str × Int)) (r : EvalReturn F) (h1 : tokenize A expr = .ok toks)
    (h2 : to_rpn R.operator_priority toks = .ok (rpn, m)) (h3 : evalTokens A R rpn = .ok r) :
    eval A R expr = .ok (r, m) := by
  simp only [eval, h1, h2, h3]

theorem eval_chain_precedence (A : Arith F) (a b c p q w1 w2 w3 w4 : Str) (fp fq : F → F → F)
    (ha : isLiteral a = true) (hb : isLiteral b = true) (hc : isLiteral c = true)
    (h1 : isSpaces w1 = true) (h2 : isSpaces w2 = true) (h3 : isSpaces w3 = true)
    (h4 : isSpaces w4 = true)
    (hp : mapFind (init_expr A).operators p = some fp)
    (hq : mapFind (init_expr A).operators q = some fq)
    (hprio : priorityOf (init_expr A).operator_priority p <
      priorityOf (init_expr A).operator_priority q) (x y z : F)
    (hx : A.stod a = some x) (hy : A.stod b = some y) (hz : A.stod c = some z) :
    ∃ toks, tokenize A (a ++ w1 ++ p ++ w2 ++ b ++ w3 ++ q ++ w4 ++ c) = .ok toks ∧
      to_rpn (init_expr A).operator_priority toks =
        .ok ([Token.Number x, Token.Number y, Token.Number z,
          Token.Operation q, Token.Operation p], (init_expr A).operator_priority) ∧
      eval A (init_expr A) (a ++ w1 ++ p ++ w2 ++ b ++ w3 ++ q ++ w4 ++ c) =
        .ok ({ printed := none, value := fp x (fq y z) },
          (init_expr A).operator_priority) := by
  obtain ⟨cp, rfl, hcp, hcp1⟩ := registered_operator_char A hp
  obtain ⟨cq, rfl, hcq, hcq1⟩ := registered_operator_char A hq
  have htok := tokenize_chain A a b c w1 w2 w3 w4 cp cq ha hb hc h1 h2 h3 h4 hcp hcp1 hcq hcq1
    x y z hx hy hz
  have hre := rpn_eval_precedence A x y z [cp] [cq] fp fq hp hq hprio
  exact ⟨_, htok, hre.1, eval_of_stages A _ _ _ _ _ _ htok hre.1 hre.2⟩

theorem eval_chain_left_assoc (A : Arith F) (a b c p q w1 w2 w3 w4 : Str) (fp fq : F → F → F)
    (ha : isLiteral a = true) (hb : isLiteral b = true) (hc : isLiteral c = true)
    (h1 : isSpaces w1 = true) (h2 : isSpaces w2 = true) (h3 : isSpaces w3 = true)
    (h4 : isSpaces w4 = true)
    (hp : mapFind (init_expr A).operators p = some fp)
    (hq : mapFind (init_expr A).operators q = some fq)
    (hprio : priorityOf (init_expr A).operator_priority q ≤
      priorityOf (init_expr A).operator_priority p) (x y z : F)
    (hx : A.stod a = some x) (hy : A.stod b = some y) (hz : A.stod c = some z) :
    ∃ toks, tokenize A (a ++ w1 ++ p ++ w2 ++ b ++ w3 ++ q ++ w4 ++ c) = .ok toks ∧
      to_rpn (init_expr A).operator_priority toks =
        .ok ([Token.Number x, Token.Number y, Token.Operation p,
          Token.Number z, Token.Operation q], (init_expr A).operator_priority) ∧
      eval A (init_expr A) (a ++ w1 ++ p ++ w2 ++ b ++ w3 ++ q ++ w4 ++ c) =
        .ok ({ printed := none, value := fq (fp x y) z },
          (init_expr A).operator_priority) := by
  obtain ⟨cp, rfl, hcp, hcp1⟩ := registered_operator_char A hp
  obtain ⟨cq, rfl, hcq, hcq1⟩ := registered_operator_char A hq
  have htok := tokenize_chain A a b c w1 w2 w3 w4 cp cq ha hb hc h1 h2 h3 h4 hcp hcp1 hcq hcq1
    x y z hx hy hz
  have hre := rpn_eval_left_assoc A x y z [cp] [cq] fp fq hp hq hprio
  exact ⟨_, htok, hre.1, eval_of_stages A _ _ _ _ _ _ htok hre.1 hre.2⟩

/-- Converter and evaluator on `( x p y ) q z`. The lookup `operator_priority[""]` made when
`p` meets the bracket on the stack adds the empty key to the table. -/
theorem rpn_eval_parenthesised (A : Arith F) (x y z : F) (p q : Str) (fp fq : F → F → F)
    (hp : mapFind (init_expr A).operators p = some fp)
    (hq : mapFind (init_expr A).operators q = some fq) :
    to_rpn (init_expr A).operator_priority
        [Token.OpenBracket, Token.Number x, Token.Operation p, Token.Number y,
          Token.CloseBracket, Token.Operation q, Token.Number z] =
      .ok ([Token.Number x, Token.Number y, Token.Operation p, Token.Number z,
        Token.Operation q], (init_expr A).operator_priority ++ [([], 0)]) ∧
    evalTokens A (init_expr A)
        [Token.Number x, Token.Number y, Token.Operation p, Token.Number z, Token.Operation q] =
      .ok { printed := none, value := fq (fp x y) z } := by
  rcases registered_operator A hp with ⟨rfl, rfl⟩ | ⟨rfl, rfl⟩ | ⟨rfl, rfl⟩ | ⟨rfl, rfl⟩ | ⟨rfl, rfl⟩ <;>
  rcases registered_operator A hq with ⟨rfl, rfl⟩ | ⟨rfl, rfl⟩ | ⟨rfl, rfl⟩ | ⟨rfl, rfl⟩ | ⟨rfl, rfl⟩ <;>
  exact ⟨rfl, rfl⟩

theorem scan_open (A : Arith F) (rest : Str) :
    scan A Mode.none ('(' :: rest) = emit [Token.OpenBracket] (scan A Mode.none rest) := rfl

theorem scan_close (A : Arith F) (rest : Str) :
    scan A Mode.none (')' :: rest) = emit [Token.CloseBracket] (scan A Mode.none rest) := rfl

theorem scan_comma (A : Arith F) (rest : Str) :
    scan A Mode.none (',' :: rest) = emit [Token.Comma] (scan A Mode.none rest) := rfl

theorem endsNumber_close (rest : Str) : endsNumber (')' :: rest) = true := rfl

theorem endsNumber_comma (rest : Str) : endsNumber (',' :: rest) = true := rfl

/-- A literal at the end of the input. -/
theorem scan_literal_end (A : Arith F) (s : Str) (hs : isLiteral s = true) (x : F)
    (hx : A.stod s = some x) :
    scan A Mode.none (s ++ ['\x00']) = .ok [Token.Number x] := by
  rw [scan_literal A s _ hs endsNumber_end x hx, scan_end]
  rfl

/-- Tokens of `(a p b) q c`, with any blanks around the operators. -/
theorem tokenize_parenthesised (A : Arith F) (a b c w1 w2 w3 w4 : Str) (p q : Char)
    (ha : isLiteral a = true) (hb : isLiteral b = true) (hc : isLiteral c = true)
    (h1 : isSpaces w1 = true) (h2 : isSpaces w2 = true) (h3 : isSpaces w3 = true)
    (h4 : isSpaces w4 = true) (hp : isOperatorChar p = true) (hp1 : p ≠ '.')
    (hq : isOperatorChar q = true) (x y z : F)
    (hx : A.stod a = some x) (hy : A.stod b = some y) (hz : A.stod c = some z) :
    tokenize A (['('] ++ a ++ w1 ++ [p] ++ w2 ++ b ++ [')'] ++ w3 ++ [q] ++ w4 ++ c) =
      .ok [Token.OpenBracket, Token.Number x, Token.Operation [p], Token.Number y,
        Token.CloseBracket, Token.Operation [q], Token.Number z] := by
  rw [tokenize_eq_scan]
  simp only [List.append_assoc, List.cons_append, List.nil_append]
  rw [scan_open, scan_literal_spaces A a w1 _ ha h1 (endsNumber_operator _ hp hp1) x hx,
    scan_operator_spaces A w2 _ hp h2, scan_literal A b _ hb (endsNumber_close _) y hy,
    scan_close, scan_spaces A w3 _ h3, scan_operator_spaces A w4 _ hq h4,
    scan_literal_end A c hc z hz]
  rfl

theorem eval_parenthesised (A : Arith F) (a b c p q w1 w2 w3 w4 : Str) (fp fq : F → F → F)
    (ha : isLiteral a = true) (hb : isLiteral b = true) (hc : isLiteral c = true)
    (h1 : isSpaces w1 = true) (h2 : isSpaces w2 = true) (h3 : isSpaces w3 = true)
    (h4 : isSpaces w4 = true)
    (hp : mapFind (init_expr A).operators p = some fp)
    (hq : mapFind (init_expr A).operators q = some fq) (x y z : F)
    (hx : A.stod a = some x) (hy : A.stod b = some y) (hz : A.stod c = some z) :
    ∃ toks, tokenize A (['('] ++ a ++ w1 ++ p ++ w2 ++ b ++ [')'] ++ w3 ++ q ++ w4 ++ c) =
        .ok toks ∧
      to_rpn (init_expr A).operator_priority toks =
        .ok ([Token.Number x, Token.Number y, Token.Operation p,
          Token.Number z, Token.Operation q],
          (init_expr A).operator_priority ++ [([], 0)]) ∧
      eval A (init_expr A) (['('] ++ a ++ w1 ++ p ++ w2 ++ b ++ [')'] ++ w3 ++ q ++ w4 ++ c) =
        .ok ({ printed := none, value := fq (fp x y) z },
          (init_expr A).operator_priority ++ [([], 0)]) := by
  obtain ⟨cp, rfl, hcp, hcp1⟩ := registered_operator_char A hp
  obtain ⟨cq, rfl, hcq, _⟩ := registered_operator_char A hq
  have htok := tokenize_parenthesised A a b c w1 w2 w3 w4 cp cq ha hb hc h1 h2 h3 h4 hcp hcp1 hcq
    x y z hx hy hz
  have hre := rpn_eval_parenthesised A x y z [cp] [cq] fp fq hp hq
  exact ⟨_, htok, hre.1, eval_of_stages A _ _ _ _ _ _ htok hre.1 hre.2⟩

/-! ## Function calls -/

/-- The keys of `functions` after `init_expr`, with their entries. -/
theorem registered_function (A : Arith F) {name : Str} {fn : Function F}
    (h : mapFind (init_expr A).functions name = some fn) :
    (name = ['s', 'i', 'n'] ∧ fn = { func := fun v => (v.get? 0).map A.sin, n := 1 }) ∨
    (name = ['c', 'o', 's'] ∧ fn = { func := fun v => (v.get? 0).map A.cos, n := 1 }) ∨
    (name = ['p', 'o', 'w'] ∧
      fn = { func := fun v => (v.get? 0).bind fun x => (v.get? 1).map fun y => A.pow x y,
             n := 2 }) := by
  simp only [init_expr, mapFind] at h
  split_ifs at h with h1 h2 h3
  · exact Or.inl ⟨h1, (Option.some.inj h).symm⟩
  · exact Or.inr (Or.inl ⟨h2, (Option.some.inj h).symm⟩)
  · exact Or.inr (Or.inr ⟨h3, (Option.some.inj h).symm⟩)

/-- Tokens of `name(x)`. -/
theorem tokenize_call1 (A : Arith F) (name x : Str) (hn : isIdentifier name = true)
    (hx : isLiteral x = true) (v : F) (hv : A.stod x = some v) :
    tokenize A (name ++ ['('] ++ x ++ [')']) =
      .ok [Token.Ident name, Token.OpenBracket, Token.Number v, Token.CloseBracket] := by
  rw [tokenize_eq_scan]
  simp only [List.append_assoc, List.cons_append, List.nil_append]
  rw [scan_identifier A name '(' _ hn rfl, scan_open,
    scan_literal A x _ hx (endsNumber_close _) v hv, scan_close, scan_end]
  rfl

/-- Tokens of `name(x,y)`. -/
theorem tokenize_call2 (A : Arith F) (name x y : Str) (hn : isIdentifier name = true)
    (hx : isLiteral x = true) (hy : isLiteral y = true) (v w : F)
    (hv : A.stod x = some v) (hw : A.stod y = some w) :
    tokenize A (name ++ ['('] ++ (x ++ [','] ++ y) ++ [')']) =
      .ok [Token.Ident name, Token.OpenBracket, Token.Number v, Token.Comma,
        Token.Number w, Token.CloseBracket] := by
  rw [tokenize_eq_scan]
  simp only [List.append_assoc, List.cons_append, List.nil_append]
  rw [scan_identifier A name '(' _ hn rfl, scan_open,
    scan_literal A x _ hx (endsNumber_comma _) v hv, scan_comma,
    scan_literal A y _ hy (endsNumber_close _) w hw, scan_close, scan_end]
  rfl

/-- A list of values that `std::stod` returns for a one-element list of literals. -/
theorem stod_values_one (A : Arith F) (x : Str) (vs : List F)
    (hv : [x].map A.stod = vs.map some) : ∃ v, vs = [v] ∧ A.stod x = some v := by
  have hl : vs.length = 1 := by
    have := congrArg List.length hv
    simpa using this.symm
  obtain ⟨v, rfl⟩ := List.length_eq_one.mp hl
  exact ⟨v, rfl, by simpa using hv⟩

/-- A list of values that `std::stod` returns for a two-element list of literals. -/
theorem stod_values_two (A : Arith F) (x y : Str) (vs : List F)
    (hv : [x, y].map A.stod = vs.map some) :
    ∃ v w, vs = [v, w] ∧ A.stod x = some v ∧ A.stod y = some w := by
  have hl : vs.length = 2 := by
    have := congrArg List.length hv
    simpa using this.symm
  obtain ⟨v, w, rfl⟩ := List.length_eq_two.mp hl
  have h := hv
  simp only [List.map_cons, List.map_nil, List.cons.injEq, and_true] at h
  exact ⟨v, w, rfl, h.1, h.2⟩

theorem eval_call (A : Arith F) (name : Str) (fn : Function F) (xs : List Str)
    (hf : mapFind (init_expr A).functions name = some fn) (hn : xs.length = fn.n)
    (hx : ∀ x ∈ xs, isLiteral x = true) (vs : List F) (hv : xs.map A.stod = vs.map some) :
    ∃ toks v, tokenize A (name ++ ['('] ++ [','].intercalate xs ++ [')']) = .ok toks ∧
      to_rpn (init_expr A).operator_priority toks =
        .ok (vs.map (fun x => Token.Number x) ++ [Token.Ident name],
          (init_expr A).operator_priority) ∧
      fn.func vs = some v ∧
      eval A (init_expr A) (name ++ ['('] ++ [','].intercalate xs ++ [')']) =
        .ok ({ printed := none, value := v }, (init_expr A).operator_priority) := by
  rcases registered_function A hf with ⟨rfl, rfl⟩ | ⟨rfl, rfl⟩ | ⟨rfl, rfl⟩
  · obtain ⟨x, rfl⟩ : ∃ x, xs = [x] := List.length_eq_one.mp hn
    obtain ⟨v, rfl, hxv⟩ := stod_values_one A x vs hv
    have ht : tokenize A (['s', 'i', 'n'] ++ ['('] ++ [','].intercalate [x] ++ [')']) =
        .ok [Token.Ident ['s', 'i', 'n'], Token.OpenBracket, Token.Number v,
          Token.CloseBracket] := by
      simpa [List.intercalate] using
        tokenize_call1 A ['s', 'i', 'n'] x (by decide) (hx x (by simp)) v hxv
    exact ⟨_, A.sin v, ht, rfl, rfl, eval_of_stages A _ _ _ _ _ _ ht rfl rfl⟩
  · obtain ⟨x, rfl⟩ : ∃ x, xs = [x] := List.length_eq_one.mp hn
    obtain ⟨v, rfl, hxv⟩ := stod_values_one A x vs hv
    have ht : tokenize A (['c', 'o', 's'] ++ ['('] ++ [','].intercalate [x] ++ [')']) =
        .ok [Token.Ident ['c', 'o', 's'], Token.OpenBracket, Token.Number v,
          Token.CloseBracket] := by
      simpa [List.intercalate] using
        tokenize_call1 A ['c', 'o', 's'] x (by decide) (hx x (by simp)) v hxv
    exact ⟨_, A.cos v, ht, rfl, rfl, eval_of_stages A _ _ _ _ _ _ ht rfl rfl⟩
  · obtain ⟨x, y, rfl⟩ : ∃ x y, xs = [x, y] := List.length_eq_two.mp hn
    obtain ⟨v, w, rfl, hxv, hyw⟩ := stod_values_two A x y vs hv
    have ht : tokenize A (['p', 'o', 'w'] ++ ['('] ++ [','].intercalate [x, y] ++ [')']) =
        .ok [Token.Ident ['p', 'o', 'w'], Token.OpenBracket, Token.Number v,
          Token.Comma, Token.Number w, Token.CloseBracket] := by
      simpa [List.intercalate] using
        tokenize_call2 A ['p', 'o', 'w'] x y (by decide) (hx x (by simp)) (hx y (by simp))
          v w hxv hyw
    exact ⟨_, A.pow v w, ht, rfl, rfl, eval_of_stages A _ _ _ _ _ _ ht rfl rfl⟩

/-! ## Brackets that are never closed -/

theorem openCount_append (xs ys : List (Token F)) :
    openCount (xs ++ ys) = openCount xs + openCount ys := by
  simp [openCount, List.countP_append]

theorem openCount_cons (t : Token F) (ts : List (Token F)) :
    openCount (t :: ts) = (if t.type = TokenType.OpenBracket then 1 else 0) + openCount ts := by
  simp only [openCount, List.countP_cons, decide_eq_true_eq]
  omega

/-- The operator loop moves tokens from the stack to the result and drops none. -/
theorem operationLoop_append (op : Str) :
    ∀ (stack result : List (Token F)) (m : List (Str × Int)),
      (operationLoop op result stack m).result ++ (operationLoop op result stack m).stack =
        result ++ stack := by
  intro stack
  induction stack with
  | nil => intro result m; rfl
  | cons top stack ih =>
    intro result m
    simp only [operationLoop]
    split_ifs with h
    · rw [ih]
      simp
    · rfl

/-- Without `CloseBracket` tokens one step of the converter succeeds and keeps every
`OpenBracket`. -/
theorem to_rpn_step_no_close (st : RpnState F) (t : Token F)
    (ht : t.type ≠ TokenType.CloseBracket) :
    ∃ st1, to_rpn_step st t = .ok st1 ∧
      openCount (st1.result ++ st1.stack) = openCount (st.result ++ st.stack) + openCount [t] := by
  cases t with
  | Number x =>
    exact ⟨_, rfl, by simp [openCount_append, openCount_cons, Token.type, openCount]⟩
  | Ident s =>
    exact ⟨_, rfl, by simp [openCount_append, openCount_cons, Token.type, openCount]⟩
  | Operation s =>
    refine ⟨_, rfl, ?_⟩
    have h := operationLoop_append s st.stack st.result st.operator_priority
    have h2 := congrArg openCount h
    rw [openCount_append] at h2
    simp only [Token.str]
    rw [openCount_append, openCount_cons, ← h2]
    simp [openCount_cons, Token.type, openCount]
  | Comma =>
    exact ⟨_, rfl, by simp [openCount_cons, Token.type, openCount]⟩
  | OpenBracket =>
    exact ⟨_, rfl, by simp [openCount_append, openCount_cons, Token.type, openCount]; omega⟩
  | CloseBracket => exact absurd rfl ht

theorem to_rpn_loop_no_close :
    ∀ (ts : List (Token F)) (st : RpnState F),
      (∀ t ∈ ts, t.type ≠ TokenType.CloseBracket) →
      ∃ st1, to_rpn_loop ts st = .ok st1 ∧
        openCount (st1.result ++ st1.stack) = openCount (st.result ++ st.stack) + openCount ts := by
  intro ts
  induction ts with
  | nil => intro st _; exact ⟨st, rfl, by simp [openCount]⟩
  | cons t ts ih =>
    intro st h
    obtain ⟨st1, h1, c1⟩ := to_rpn_step_no_close st t (h t (by simp))
    obtain ⟨st2, h2, c2⟩ := ih st1 (fun u hu => h u (by simp [hu]))
    refine ⟨st2, by simp only [to_rpn_loop, h1, h2], ?_⟩
    rw [c2, c1, openCount_cons t ts, openCount_cons t []]
    simp [openCount]
    omega

/-- The bracket loop moves the tokens above the first `OpenBracket` of the stack to the
result and drops that bracket. -/
theorem closeBracketLoop_shape :
    ∀ (stack result r1 s1 : List (Token F)), closeBracketLoop result stack = .ok (r1, s1) →
      ∃ popped top, stack = popped ++ top :: s1 ∧ top.type = TokenType.OpenBracket ∧
        r1 = result ++ popped ∧ ∀ x ∈ popped, x.type ≠ TokenType.OpenBracket := by
  intro stack
  induction stack with
  | nil => intro result r1 s1 h; simp [closeBracketLoop] at h
  | cons top stack ih =>
    intro result r1 s1 h
    simp only [closeBracketLoop] at h
    split_ifs at h with ht
    · simp only [Except.ok.injEq, Prod.mk.injEq] at h
      exact ⟨[], top, by simp [h.2], ht, by simp [h.1], by simp⟩
    · obtain ⟨popped, top2, e1, e2, e3, e4⟩ := ih _ _ _ h
      refine ⟨top :: popped, top2, by simp [e1], e2, by simp [e3], ?_⟩
      intro x hx
      rcases List.mem_cons.mp hx with h1 | h1
      · rw [h1]; exact ht
      · exact e4 x h1

theorem type_eq_openBracket {t : Token F} (h : t.type = TokenType.OpenBracket) :
    t = Token.OpenBracket := by
  cases t <;> simp [Token.type] at h ⊢

theorem closeCount_cons (t : Token F) (ts : List (Token F)) :
    closeCount (t :: ts) = closeCount [t] + closeCount ts := by
  simp only [closeCount, List.countP_cons, List.countP_nil]
  omega

theorem keptTokens_cons (t : Token F) (ts : List (Token F)) :
    keptTokens (t :: ts) = keptTokens [t] ++ keptTokens ts := by
  simp only [keptTokens, List.filter_cons, List.filter_nil]
  split_ifs <;> rfl

/-- One step of the converter keeps the tokens it holds and adds the token read, except
that a comma is dropped and a closing bracket removes one opening bracket. -/
theorem to_rpn_step_perm (st st1 : RpnState F) (t : Token F)
    (h : to_rpn_step st t = .ok st1) :
    List.Perm (st1.result ++ st1.stack ++ List.replicate (closeCount [t]) Token.OpenBracket)
      (st.result ++ st.stack ++ keptTokens [t]) := by
  cases t with
  | Number x =>
    simp only [to_rpn_step, Token.type, Except.ok.injEq] at h
    subst h
    simp only [closeCount, keptTokens, Token.type, List.countP_cons, List.countP_nil,
      List.filter_cons, List.filter_nil, reduceCtorEq, decide_False, decide_True, ne_eq,
      not_false_eq_true, Bool.and_self, if_true, if_false, List.replicate_zero,
      List.append_nil, Bool.false_eq_true, zero_add, List.append_assoc]
    exact List.Perm.append_left _ List.perm_append_comm
  | Ident s =>
    simp only [to_rpn_step, Token.type, Except.ok.injEq] at h
    subst h
    simp only [closeCount, keptTokens, Token.type, List.countP_cons, List.countP_nil,
      List.filter_cons, List.filter_nil, reduceCtorEq, decide_False, decide_True, ne_eq,
      not_false_eq_true, Bool.and_self, if_true, if_false, List.replicate_zero,
      List.append_nil, Bool.false_eq_true, zero_add, List.append_assoc]
    exact List.Perm.append_left _ (@List.perm_append_comm _ [Token.Ident s] _)
  | OpenBracket =>
    simp only [to_rpn_step, Token.type, Except.ok.injEq] at h
    subst h
    simp only [closeCount, keptTokens, Token.type, List.countP_cons, List.countP_nil,
      List.filter_cons, List.filter_nil, reduceCtorEq, decide_False, decide_True, ne_eq,
      not_false_eq_true, Bool.and_self, if_true, if_false, List.replicate_zero,
      List.append_nil, Bool.false_eq_true, zero_add, List.append_assoc]
    exact List.Perm.append_left _ (@List.perm_append_comm _ [Token.OpenBracket] _)
  | Comma =>
    simp only [to_rpn_step, Token.type, Except.ok.injEq] at h
    subst h
    simp [closeCount, keptTokens, Token.type]
  | Operation s =>
    simp only [to_rpn_step, Token.type, Token.str, Except.ok.injEq] at h
    subst h
    have e := operationLoop_append s st.stack st.result st.operator_priority
    simp only [closeCount, keptTokens, Token.type, List.countP_cons, List.countP_nil,
      List.filter_cons, List.filter_nil, reduceCtorEq, decide_False, decide_True, ne_eq,
      not_false_eq_true, Bool.and_self, if_true, if_false, List.replicate_zero,
      List.append_nil, Bool.false_eq_true, zero_add]
    rw [← e, List.append_assoc]
    exact List.Perm.append_left _ (@List.perm_append_comm _ [Token.Operation s] _)
  | CloseBracket =>
    simp only [to_rpn_step, Token.type] at h
    cases hc : closeBracketLoop st.result st.stack with
    | error e => simp [hc] at h
    | ok r =>
      obtain ⟨r1, s1⟩ := r
      obtain ⟨popped, top, e1, e2, e3, _⟩ := closeBracketLoop_shape _ _ _ _ hc
      have hpend : st1.result ++ st1.stack = r1 ++ s1 := by
        simp only [hc] at h
        cases s1 with
        | nil =>
          simp only [Except.ok.injEq] at h
          subst h
          rfl
        | cons top2 rest =>
          simp only at h
          split_ifs at h
          · simp only [Except.ok.injEq] at h
            subst h
            simp
          · simp only [Except.ok.injEq] at h
            subst h
            rfl
      rw [hpend, e3, e1, type_eq_openBracket e2]
      simp only [closeCount, keptTokens, Token.type, List.countP_cons, List.countP_nil,
        List.filter_cons, List.filter_nil, decide_True, decide_False, ne_eq,
        not_true_eq_false, Bool.and_false, Bool.false_eq_true, if_true, if_false,
        List.append_nil, zero_add, List.replicate_one, List.append_assoc]
      refine List.Perm.append_left _ (List.Perm.append_left _ ?_)
      exact @List.perm_append_comm _ _ [Token.OpenBracket]

theorem to_rpn_loop_perm :
    ∀ (ts : List (Token F)) (st st1 : RpnState F), to_rpn_loop ts st = .ok st1 →
      List.Perm (st1.result ++ st1.stack ++ List.replicate (closeCount ts) Token.OpenBracket)
        (st.result ++ st.stack ++ keptTokens ts) := by
  intro ts
  induction ts with
  | nil =>
    intro st st1 h
    simp only [to_rpn_loop, Except.ok.injEq] at h
    subst h
    simp [closeCount, keptTokens]
  | cons t ts ih =>
    intro st st1 h
    simp only [to_rpn_loop] at h
    cases hs : to_rpn_step st t with
    | error e => simp [hs] at h
    | ok st2 =>
      simp only [hs] at h
      have h1 := to_rpn_step_perm st st2 t hs
      have h2 := ih st2 st1 h
      rw [closeCount_cons, keptTokens_cons, Nat.add_comm, List.replicate_add]
      have e1 : st1.result ++ st1.stack ++
            (List.replicate (closeCount ts) Token.OpenBracket ++
              List.replicate (closeCount [t]) Token.OpenBracket) =
          (st1.result ++ st1.stack ++ List.replicate (closeCount ts) Token.OpenBracket) ++
            List.replicate (closeCount [t]) Token.OpenBracket := by
        simp only [List.append_assoc]
      have e2 : st.result ++ st.stack ++ (keptTokens [t] ++ keptTokens ts) =
          (st.result ++ st.stack ++ keptTokens [t]) ++ keptTokens ts := by
        simp only [List.append_assoc]
      have p2 : List.Perm
          ((st2.result ++ st2.stack ++ keptTokens ts) ++
            List.replicate (closeCount [t]) Token.OpenBracket)
          ((st2.result ++ st2.stack ++ List.replicate (closeCount [t]) Token.OpenBracket) ++
            keptTokens ts) := by
        simp only [List.append_assoc]
        exact List.Perm.append_left _ (List.Perm.append_left _ List.perm_append_comm)
      rw [e1, e2]
      exact ((List.Perm.append_right _ h2).trans p2).trans (List.Perm.append_right _ h1)

/-- What `to_rpn` returns, with one `OpenBracket` added for every `CloseBracket` read, is a
rearrangement of the tokens read other than commas and closing brackets. -/
theorem to_rpn_perm (m m1 : List (Str × Int)) (ts r : List (Token F))
    (h : to_rpn m ts = .ok (r, m1)) :
    List.Perm (r ++ List.replicate (closeCount ts) Token.OpenBracket) (keptTokens ts) := by
  simp only [to_rpn] at h
  cases hl : to_rpn_loop ts { result := [], stack := [], operator_priority := m } with
  | error e => simp [hl] at h
  | ok st1 =>
    simp only [hl, Except.ok.injEq, Prod.mk.injEq] at h
    have := to_rpn_loop_perm ts _ st1 hl
    rw [h.1] at this
    simpa using this

theorem openCount_replicate (n : Nat) :
    openCount (List.replicate n (Token.OpenBracket : Token F)) = n := by
  simp [openCount, Token.type, List.countP_replicate]

theorem openCount_keptTokens (ts : List (Token F)) : openCount (keptTokens ts) = openCount ts := by
  induction ts with
  | nil => rfl
  | cons t ts ih =>
    rw [keptTokens_cons, openCount_append, ih, openCount_cons t ts]
    cases t <;> simp [keptTokens, openCount, Token.type]

theorem mem_keptTokens {t : Token F} {ts : List (Token F)} (h : t ∈ keptTokens ts) :
    t ∈ ts ∧ t.type ≠ TokenType.Comma ∧ t.type ≠ TokenType.CloseBracket := by
  simpa [keptTokens] using h

/-- A `CloseBracket` that finds no `OpenBracket` on the operator stack makes the loop of
lines 200-210 call `stack.top()` on an empty stack. -/
theorem closeBracketLoop_unmatched :
    ∀ (stack result : List (Token F)), (∀ t ∈ stack, t.type ≠ TokenType.OpenBracket) →
      closeBracketLoop result stack = .error Fault.undefinedBehaviour := by
  intro stack
  induction stack with
  | nil => intro result _; rfl
  | cons top stack ih =>
    intro result h
    simp only [closeBracketLoop, h top (by simp), if_false]
    exact ih _ (fun t ht => h t (by simp [ht]))

/-- The tokens of `1 + 2)`: the closing bracket has no partner, and the run of `to_rpn` has no
defined result. -/
theorem unmatched_close_is_undefined (A : Arith F) (x y : F) (hx : A.stod ['1'] = some x)
    (hy : A.stod ['2'] = some y) :
    tokenize A ("1 + 2)".toList) =
      .ok [Token.Number x, Token.Operation ['+'], Token.Number y, Token.CloseBracket] ∧
    to_rpn (init_expr A).operator_priority
        [Token.Number x, Token.Operation ['+'], Token.Number y, Token.CloseBracket] =
      .error Fault.undefinedBehaviour := by
  refine ⟨?_, rfl⟩
  rw [← withValues_eq A [(['1'], x), (['2'], y)] (by simp [hx, hy])]
  rfl

/-! ## Evaluator -/

/-- A prefix that the evaluator's loop consumes to its end leaves the loop on the rest of
the tokens with the stack the prefix produced. -/
theorem evalLoop_append (R : Registry F) (rest : List (Token F)) :
    ∀ (pre : List (Token F)) (stack0 stack : List F),
      evalLoop R pre stack0 = .ok (LoopResult.finished stack) →
      evalLoop R (pre ++ rest) stack0 = evalLoop R rest stack := by
  intro pre
  induction pre with
  | nil =>
    intro stack0 stack h
    simp only [evalLoop, Except.ok.injEq, LoopResult.finished.injEq] at h
    rw [List.nil_append, h]
  | cons t pre ih =>
    intro stack0 stack h
    cases t with
    | Number x =>
      simp only [evalLoop, List.cons_append] at h ⊢
      exact ih _ _ h
    | Ident s =>
      simp only [evalLoop, List.cons_append] at h ⊢
      cases hf : mapFind R.functions s with
      | none => simp [hf] at h
      | some f =>
        simp only [hf] at h ⊢
        cases hp : popArgs f.n [] stack0 with
        | error e => simp [hp] at h
        | ok r =>
          obtain ⟨args, stack1⟩ := r
          simp only [hp] at h ⊢
          cases hv : f.func args.reverse with
          | none => simp [hv] at h
          | some v =>
            simp only [hv] at h ⊢
            exact ih _ _ h
    | Operation s =>
      simp only [evalLoop, List.cons_append] at h ⊢
      cases hf : mapFind R.operators s with
      | none => simp [hf] at h
      | some f =>
        simp only [hf] at h ⊢
        match stack0, h with
        | [], h => simp at h
        | [_], h => simp at h
        | b :: a :: stack1, h => exact ih _ _ h
    | Comma =>
      simp only [evalLoop, List.cons_append] at h ⊢
      exact ih _ _ h
    | OpenBracket =>
      simp only [evalLoop, List.cons_append] at h ⊢
      exact ih _ _ h
    | CloseBracket =>
      simp only [evalLoop, List.cons_append] at h ⊢
      exact ih _ _ h

/-- Tokens of `name(x)` are converted to `[x, Ident name]`, whatever the name. -/
theorem to_rpn_call1 (m : List (Str × Int)) (name : Str) (x : F) :
    to_rpn m [Token.Ident name, Token.OpenBracket, Token.Number x, Token.CloseBracket] =
      .ok ([Token.Number x, Token.Ident name], m) := rfl

theorem eval_unknown_call (A : Arith F) (name x : Str) (hn : isIdentifier name = true)
    (hx : isLiteral x = true) (hf : mapFind (init_expr A).functions name = none) (v : F)
    (hv : A.stod x = some v) :
    eval A (init_expr A) (name ++ ['('] ++ x ++ [')']) =
      .ok ({ printed := some (Diagnostic.unknownFunction name), value := A.zero },
        (init_expr A).operator_priority) := by
  refine eval_of_stages A _ _ _ _ _ _ (tokenize_call1 A name x hn hx v hv)
    (to_rpn_call1 _ _ _) ?_
  simp only [evalTokens, evalLoop, hf]

/-! ## Literals outside the range of `double` -/

/-- In exact arithmetic `std::stod` returns the decimal value of a string in range. -/
theorem exactArith_stod (pw : ℚ → ℚ → ℚ) (sn cs : ℚ → ℚ) (s : Str)
    (h : stodInRange s = true) : (exactArith pw sn cs).stod s = some (decimalValue s) := by
  simp only [exactArith, h, if_true]

/-- In exact arithmetic `std::stod` throws on a string out of range. -/
theorem exactArith_stod_throws (pw : ℚ → ℚ → ℚ) (sn cs : ℚ → ℚ) (s : Str)
    (h : stodInRange s = false) : (exactArith pw sn cs).stod s = none := by
  simp only [exactArith, h, Bool.false_eq_true, if_false]

set_option maxRecDepth 100000 in
theorem nines_isLiteral : isLiteral nines = true := by decide

set_option maxRecDepth 100000 in
theorem nines_out_of_range : stodInRange nines = false := by decide

/-- A failing tokenizer makes `eval` fail the same way. -/
theorem eval_of_tokenize_error (A : Arith F) (R : Registry F) (expr : Str) (e : Fault)
    (h : tokenize A expr = .error e) : eval A R expr = .error e := by
  simp only [eval, h]

/-- A literal on which `std::stod` throws, at the start of the text. -/
theorem tokenize_throws (A : Arith F) (s rest : Str) (hs : isLiteral s = true)
    (hr : endsNumber (rest ++ ['\x00']) = true) (hx : A.stod s = none) :
    tokenize A (s ++ rest) = .error Fault.uncaughtException := by
  rw [tokenize_eq_scan, List.append_assoc]
  exact scan_literal_throws A s _ hs hr hx

/-! # The claims -/

/-- C1 (counterexample). The text `99...9 + 4 * 2`, whose first operand is a numeric literal
of four hundred digits, has the form `a p b q c` with `priority * > priority +`, and `eval`
returns nothing on it: `std::stod` throws `std::out_of_range` on the literal, and the
exception, which nothing catches, ends the process. -/
theorem precedence_fails_out_of_range :
    isLiteral nines = true ∧
    priorityOf (init_expr sampleArith).operator_priority ['+'] <
      priorityOf (init_expr sampleArith).operator_priority ['*'] ∧
    (∀ (pw : ℚ → ℚ → ℚ) (sn cs : ℚ → ℚ),
      eval (exactArith pw sn cs) (init_expr (exactArith pw sn cs))
          (nines ++ " + 4 * 2".toList) = .error Fault.uncaughtException) ∧
    (∀ {F : Type} (A : Arith F), A.stod nines = none →
      eval A (init_expr A) (nines ++ " + 4 * 2".toList) =
        .error Fault.uncaughtException) := by
  have general : ∀ {F : Type} (A : Arith F), A.stod nines = none →
      eval A (init_expr A) (nines ++ " + 4 * 2".toList) =
        .error Fault.uncaughtException := by
    intro F A h
    exact eval_of_tokenize_error A _ _ _
      (tokenize_throws A nines (" + 4 * 2".toList) nines_isLiteral (by decide) h)
  exact ⟨nines_isLiteral, by decide,
    fun pw sn cs => general _ (exactArith_stod_throws pw sn cs nines nines_out_of_range),
    general⟩

/-- C1 (amended). Precedence: for numeric literals `a b c` on which `std::stod` returns
(the values `x y z`) and registered operators `p q` with `priority q > priority p`, the
tokens of `a p b q c` (any blanks around the operators) are converted to `[x, y, z, q, p]`
and `eval` returns `p(x, q(y, z))`, printing no diagnostic and leaving the priority table as
it was; in exact arithmetic `3 + 4 * 2` evaluates to 11. -/
theorem precedence_binds_tighter :
    (∀ {F : Type} (A : Arith F) (a b c p q w1 w2 w3 w4 : Str) (fp fq : F → F → F),
      isLiteral a = true → isLiteral b = true → isLiteral c = true →
      isSpaces w1 = true → isSpaces w2 = true → isSpaces w3 = true → isSpaces w4 = true →
      mapFind (init_expr A).operators p = some fp →
      mapFind (init_expr A).operators q = some fq →
      priorityOf (init_expr A).operator_priority p <
        priorityOf (init_expr A).operator_priority q →
      ∀ (x y z : F), A.stod a = some x → A.stod b = some y → A.stod c = some z →
      ∃ toks, tokenize A (a ++ w1 ++ p ++ w2 ++ b ++ w3 ++ q ++ w4 ++ c) = .ok toks ∧
        to_rpn (init_expr A).operator_priority toks =
          .ok ([Token.Number x, Token.Number y, Token.Number z,
            Token.Operation q, Token.Operation p], (init_expr A).operator_priority) ∧
        eval A (init_expr A) (a ++ w1 ++ p ++ w2 ++ b ++ w3 ++ q ++ w4 ++ c) =
          .ok ({ printed := none, value := fp x (fq y z) },
            (init_expr A).operator_priority)) ∧
    (∀ (pw : ℚ → ℚ → ℚ) (sn cs : ℚ → ℚ),
      eval (exactArith pw sn cs) (init_expr (exactArith pw sn cs)) ("3 + 4 * 2".toList) =
        .ok ({ printed := none, value := 11 },
          (init_expr (exactArith pw sn cs)).operator_priority)) := by
  refine ⟨fun A a b c p q w1 w2 w3 w4 fp fq ha hb hc h1 h2 h3 h4 hp hq hprio x y z hx hy hz =>
    eval_chain_precedence A a b c p q w1 w2 w3 w4 fp fq ha hb hc h1 h2 h3 h4 hp hq hprio
      x y z hx hy hz, ?_⟩
  intro pw sn cs
  obtain ⟨_, _, _, h⟩ := eval_chain_precedence (exactArith pw sn cs) ['3'] ['4'] ['2'] ['+'] ['*']
    [' '] [' '] [' '] [' '] (fun a b => a + b) (fun a b => a * b) (by decide) (by decide)
    (by decide) (by decide) (by decide) (by decide) (by decide) rfl rfl
    (by simp [priorityOf, mapIndex, mapFind, init_expr])
    (decimalValue ['3']) (decimalValue ['4']) (decimalValue ['2']) rfl rfl rfl
  refine Eq.trans h ?_
  simp [decimalValue, natOfDigits, digitValue]
  norm_num

theorem precedence_binds_tighter_witness :
    priorityOf (init_expr sampleArith).operator_priority ['+'] <
        priorityOf (init_expr sampleArith).operator_priority ['*'] ∧
      sampleArith.stod ['3'] = some (decimalValue ['3']) ∧
      ∃ toks, tokenize sampleArith
          (['3'] ++ [' '] ++ ['+'] ++ [' '] ++ ['4'] ++ [' '] ++ ['*'] ++ [' '] ++ ['2']) =
            .ok toks ∧
        to_rpn (init_expr sampleArith).operator_priority toks =
          .ok ([Token.Number (decimalValue ['3']), Token.Number (decimalValue ['4']),
            Token.Number (decimalValue ['2']), Token.Operation ['*'],
            Token.Operation ['+']], (init_expr sampleArith).operator_priority) ∧
        eval sampleArith (init_expr sampleArith)
            (['3'] ++ [' '] ++ ['+'] ++ [' '] ++ ['4'] ++ [' '] ++ ['*'] ++ [' '] ++ ['2']) =
          .ok ({ printed := none,
                 value := sampleArith.add (decimalValue ['3'])
                   (sampleArith.mul (decimalValue ['4']) (decimalValue ['2'])) },
            (init_expr sampleArith).operator_priority) :=
  ⟨by decide, rfl, precedence_binds_tighter.1 sampleArith ['3'] ['4'] ['2'] ['+'] ['*']
    [' '] [' '] [' '] [' '] sampleArith.add sampleArith.mul (by decide) (by decide)
    (by decide) (by decide) (by decide) (by decide) (by decide) rfl rfl (by decide)
    (decimalValue ['3']) (decimalValue ['4']) (decimalValue ['2']) rfl rfl rfl⟩

/-- C2 (counterexample). The text `99...9 - 3 - 4`, whose first operand is a numeric literal
of four hundred digits, has the form `a p b q c` with `priority q ≤ priority p`, and `eval`
returns nothing on it: `std::stod` throws `std::out_of_range` on the literal, and the
exception, which nothing catches, ends the process. -/
theorem left_assoc_fails_out_of_range :
    isLiteral nines = true ∧
    priorityOf (init_expr sampleArith).operator_priority ['-'] ≤
      priorityOf (init_expr sampleArith).operator_priority ['-'] ∧
    (∀ (pw : ℚ → ℚ → ℚ) (sn cs : ℚ → ℚ),
      eval (exactArith pw sn cs) (init_expr (exactArith pw sn cs))
          (nines ++ " - 3 - 4".toList) = .error Fault.uncaughtException) ∧
    (∀ {F : Type} (A : Arith F), A.stod nines = none →
      eval A (init_expr A) (nines ++ " - 3 - 4".toList) =
        .error Fault.uncaughtException) := by
  have general : ∀ {F : Type} (A : Arith F), A.stod nines = none →
      eval A (init_expr A) (nines ++ " - 3 - 4".toList) =
        .error Fault.uncaughtException := by
    intro F A h
    exact eval_of_tokenize_error A _ _ _
      (tokenize_throws A nines (" - 3 - 4".toList) nines_isLiteral (by decide) h)
  exact ⟨nines_isLiteral, by decide,
    fun pw sn cs => general _ (exactArith_stod_throws pw sn cs nines nines_out_of_range),
    general⟩

/-- C2 (amended). Left associativity: for numeric literals `a b c` on which `std::stod`
returns (the values `x y z`) and registered operators `p q` with `priority q ≤ priority p`
(so also `p = q = ^`), the tokens of `a p b q c` (any blanks around the operators) are
converted to `[x, y, p, z, q]` and `eval` returns `q(p(x, y), z)`; in exact arithmetic
`2 - 3 - 4` evaluates to -5, and `2^3^2` to `(2^3)^2 = 64` for a `pow` with `pow(2,3) = 8`
and `pow(8,2) = 64`. -/
theorem equal_priority_is_left_assoc :
    (∀ {F : Type} (A : Arith F) (a b c p q w1 w2 w3 w4 : Str) (fp fq : F → F → F),
      isLiteral a = true → isLiteral b = true → isLiteral c = true →
      isSpaces w1 = true → isSpaces w2 = true → isSpaces w3 = true → isSpaces w4 = true →
      mapFind (init_expr A).operators p = some fp →
      mapFind (init_expr A).operators q = some fq →
      priorityOf (init_expr A).operator_priority q ≤
        priorityOf (init_expr A).operator_priority p →
      ∀ (x y z : F), A.stod a = some x → A.stod b = some y → A.stod c = some z →
      ∃ toks, tokenize A (a ++ w1 ++ p ++ w2 ++ b ++ w3 ++ q ++ w4 ++ c) = .ok toks ∧
        to_rpn (init_expr A).operator_priority toks =
          .ok ([Token.Number x, Token.Number y, Token.Operation p,
            Token.Number z, Token.Operation q], (init_expr A).operator_priority) ∧
        eval A (init_expr A) (a ++ w1 ++ p ++ w2 ++ b ++ w3 ++ q ++ w4 ++ c) =
          .ok ({ printed := none, value := fq (fp x y) z },
            (init_expr A).operator_priority)) ∧
    (∀ (pw : ℚ → ℚ → ℚ) (sn cs : ℚ → ℚ),
      eval (exactArith pw sn cs) (init_expr (exactArith pw sn cs)) ("2 - 3 - 4".toList) =
        .ok ({ printed := none, value := -5 },
          (init_expr (exactArith pw sn cs)).operator_priority)) ∧
    (∀ (pw : ℚ → ℚ → ℚ) (sn cs : ℚ → ℚ), pw 2 3 = 8 → pw 8 2 = 64 →
      eval (exactArith pw sn cs) (init_expr (exactArith pw sn cs)) ("2^3^2".toList) =
        .ok ({ printed := none, value := 64 },
          (init_expr (exactArith pw sn cs)).operator_priority)) := by
  refine ⟨fun A a b c p q w1 w2 w3 w4 fp fq ha hb hc h1 h2 h3 h4 hp hq hprio x y z hx hy hz =>
    eval_chain_left_assoc A a b c p q w1 w2 w3 w4 fp fq ha hb hc h1 h2 h3 h4 hp hq hprio
      x y z hx hy hz, ?_, ?_⟩
  · intro pw sn cs
    obtain ⟨_, _, _, h⟩ := eval_chain_left_assoc (exactArith pw sn cs) ['2'] ['3'] ['4'] ['-']
      ['-'] [' '] [' '] [' '] [' '] (fun a b => a - b) (fun a b => a - b) (by decide)
      (by decide) (by decide) (by decide) (by decide) (by decide) (by decide) rfl rfl
      (by simp [priorityOf, mapIndex, mapFind, init_expr])
      (decimalValue ['2']) (decimalValue ['3']) (decimalValue ['4']) rfl rfl rfl
    refine Eq.trans h ?_
    simp [decimalValue, natOfDigits, digitValue]
    norm_num
  · intro pw sn cs h23 h82
    obtain ⟨_, _, _, h⟩ := eval_chain_left_assoc (exactArith pw sn cs) ['2'] ['3'] ['2'] ['^']
      ['^'] [] [] [] [] pw pw (by decide)
      (by decide) (by decide) (by decide) (by decide) (by decide) (by decide) rfl rfl
      (by simp [priorityOf, mapIndex, mapFind, init_expr])
      (decimalValue ['2']) (decimalValue ['3']) (decimalValue ['2']) rfl rfl rfl
    refine Eq.trans h ?_
    simp [decimalValue, natOfDigits, digitValue, h23, h82]

theorem equal_priority_is_left_assoc_witness :
    priorityOf (init_expr sampleArith).operator_priority ['^'] ≤
        priorityOf (init_expr sampleArith).operator_priority ['^'] ∧
      sampleArith.stod ['2'] = some (decimalValue ['2']) ∧
      ∃ toks, tokenize sampleArith (['2'] ++ [] ++ ['^'] ++ [] ++ ['3'] ++ [] ++ ['^'] ++ [] ++ ['2']) =
            .ok toks ∧
        to_rpn (init_expr sampleArith).operator_priority toks =
          .ok ([Token.Number (decimalValue ['2']), Token.Number (decimalValue ['3']),
            Token.Operation ['^'], Token.Number (decimalValue ['2']),
            Token.Operation ['^']], (init_expr sampleArith).operator_priority) ∧
        eval sampleArith (init_expr sampleArith)
            (['2'] ++ [] ++ ['^'] ++ [] ++ ['3'] ++ [] ++ ['^'] ++ [] ++ ['2']) =
          .ok ({ printed := none,
                 value := sampleArith.pow (sampleArith.pow (decimalValue ['2'])
                   (decimalValue ['3'])) (decimalValue ['2']) },
            (init_expr sampleArith).operator_priority) :=
  ⟨by decide, rfl, equal_priority_is_left_assoc.1 sampleArith ['2'] ['3'] ['2'] ['^'] ['^']
    [] [] [] [] sampleArith.pow sampleArith.pow (by decide) (by decide)
    (by decide) (by decide) (by decide) (by decide) (by decide) rfl rfl (by decide)
    (decimalValue ['2']) (decimalValue ['3']) (decimalValue ['2']) rfl rfl rfl⟩

/-- C3 (counterexample). The text `(99...9 + 4) * 2`, whose first operand is a numeric
literal of four hundred digits, has the form `(a p b) q c`, and `eval` returns nothing on
it: `std::stod` throws `std::out_of_range` on the literal, and the exception, which nothing
catches, ends the process. -/
theorem parentheses_fail_out_of_range :
    isLiteral nines = true ∧
    (∀ (pw : ℚ → ℚ → ℚ) (sn cs : ℚ → ℚ),
      eval (exactArith pw sn cs) (init_expr (exactArith pw sn cs))
          (['('] ++ nines ++ " + 4) * 2".toList) = .error Fault.uncaughtException) ∧
    (∀ {F : Type} (A : Arith F), A.stod nines = none →
      eval A (init_expr A) (['('] ++ nines ++ " + 4) * 2".toList) =
        .error Fault.uncaughtException) := by
  have general : ∀ {F : Type} (A : Arith F), A.stod nines = none →
      eval A (init_expr A) (['('] ++ nines ++ " + 4) * 2".toList) =
        .error Fault.uncaughtException := by
    intro F A h
    refine eval_of_tokenize_error A _ _ _ ?_
    rw [tokenize_eq_scan]
    simp only [List.append_assoc, List.singleton_append, List.cons_append, List.nil_append]
    rw [scan_open,
      scan_literal_throws A nines (" + 4) * 2".toList ++ ['\x00']) nines_isLiteral
        (by decide) h]
    rfl
  exact ⟨nines_isLiteral,
    fun pw sn cs => general _ (exactArith_stod_throws pw sn cs nines nines_out_of_range),
    general⟩

/-- C3 (amended). Parentheses override precedence: for numeric literals `a b c` on which
`std::stod` returns (the values `x y z`) and registered operators `p q` of any priorities,
the tokens of `(a p b) q c` (any blanks around the operators) are converted to
`[x, y, p, z, q]`, which holds no bracket token, and `eval` returns `q(p(x, y), z)`; in
exact arithmetic `(3 + 4) * 2` evaluates to 14. The lookup of the bracket's empty `str`
adds the key `""` to the priority table. -/
theorem parentheses_override_precedence :
    (∀ {F : Type} (A : Arith F) (a b c p q w1 w2 w3 w4 : Str) (fp fq : F → F → F),
      isLiteral a = true → isLiteral b = true → isLiteral c = true →
      isSpaces w1 = true → isSpaces w2 = true → isSpaces w3 = true → isSpaces w4 = true →
      mapFind (init_expr A).operators p = some fp →
      mapFind (init_expr A).operators q = some fq →
      ∀ (x y z : F), A.stod a = some x → A.stod b = some y → A.stod c = some z →
      ∃ toks rpn m,
        tokenize A (['('] ++ a ++ w1 ++ p ++ w2 ++ b ++ [')'] ++ w3 ++ q ++ w4 ++ c) =
          .ok toks ∧
        to_rpn (init_expr A).operator_priority toks = .ok (rpn, m) ∧
        rpn = [Token.Number x, Token.Number y, Token.Operation p,
          Token.Number z, Token.Operation q] ∧
        (∀ t ∈ rpn, t.type ≠ TokenType.OpenBracket ∧ t.type ≠ TokenType.CloseBracket) ∧
        eval A (init_expr A)
            (['('] ++ a ++ w1 ++ p ++ w2 ++ b ++ [')'] ++ w3 ++ q ++ w4 ++ c) =
          .ok ({ printed := none, value := fq (fp x y) z }, m)) ∧
    (∀ (pw : ℚ → ℚ → ℚ) (sn cs : ℚ → ℚ),
      eval (exactArith pw sn cs) (init_expr (exactArith pw sn cs)) ("(3 + 4) * 2".toList) =
        .ok ({ printed := none, value := 14 },
          (init_expr (exactArith pw sn cs)).operator_priority ++ [([], 0)])) := by
  constructor
  · intro F A a b c p q w1 w2 w3 w4 fp fq ha hb hc h1 h2 h3 h4 hp hq x y z hx hy hz
    obtain ⟨toks, ht, hr, he⟩ :=
      eval_parenthesised A a b c p q w1 w2 w3 w4 fp fq ha hb hc h1 h2 h3 h4 hp hq
        x y z hx hy hz
    refine ⟨toks, _, _, ht, hr, rfl, ?_, he⟩
    intro t ht
    simp only [List.mem_cons, List.mem_singleton, List.not_mem_nil, or_false] at ht
    rcases ht with rfl | rfl | rfl | rfl | rfl <;> simp [Token.type]
  · intro pw sn cs
    obtain ⟨_, _, _, h⟩ := eval_parenthesised (exactArith pw sn cs) ['3'] ['4'] ['2'] ['+'] ['*']
      [' '] [' '] [' '] [' '] (fun a b => a + b) (fun a b => a * b) (by decide) (by decide)
      (by decide) (by decide) (by decide) (by decide) (by decide) rfl rfl
      (decimalValue ['3']) (decimalValue ['4']) (decimalValue ['2']) rfl rfl rfl
    refine Eq.trans h ?_
    simp [decimalValue, natOfDigits, digitValue]
    norm_num

theorem parentheses_override_precedence_witness :
    sampleArith.stod ['3'] = some (decimalValue ['3']) ∧
    ∃ toks rpn m,
      tokenize sampleArith
          (['('] ++ ['3'] ++ [' '] ++ ['+'] ++ [' '] ++ ['4'] ++ [')'] ++ [' '] ++ ['*'] ++
            [' '] ++ ['2']) = .ok toks ∧
      to_rpn (init_expr sampleArith).operator_priority toks = .ok (rpn, m) ∧
      rpn = [Token.Number (decimalValue ['3']), Token.Number (decimalValue ['4']),
        Token.Operation ['+'], Token.Number (decimalValue ['2']), Token.Operation ['*']] ∧
      (∀ t ∈ rpn, t.type ≠ TokenType.OpenBracket ∧ t.type ≠ TokenType.CloseBracket) ∧
      eval sampleArith (init_expr sampleArith)
          (['('] ++ ['3'] ++ [' '] ++ ['+'] ++ [' '] ++ ['4'] ++ [')'] ++ [' '] ++ ['*'] ++
            [' '] ++ ['2']) =
        .ok ({ printed := none,
               value := sampleArith.mul (sampleArith.add (decimalValue ['3'])
                 (decimalValue ['4'])) (decimalValue ['2']) }, m) :=
  ⟨rfl, parentheses_override_precedence.1 sampleArith ['3'] ['4'] ['2'] ['+'] ['*']
    [' '] [' '] [' '] [' '] sampleArith.add sampleArith.mul (by decide) (by decide)
    (by decide) (by decide) (by decide) (by decide) (by decide) rfl rfl
    (decimalValue ['3']) (decimalValue ['4']) (decimalValue ['2']) rfl rfl rfl⟩

/-- C4 (counterexample). The text `sin(99...9)` is the call of a registered function of
arity 1 on a numeric literal of four hundred digits, and `eval` returns nothing on it:
`std::stod` throws `std::out_of_range` on the literal, and the exception, which nothing
catches, ends the process. -/
theorem call_fails_out_of_range :
    isLiteral nines = true ∧
    (∀ (pw : ℚ → ℚ → ℚ) (sn cs : ℚ → ℚ),
      eval (exactArith pw sn cs) (init_expr (exactArith pw sn cs))
          (['s', 'i', 'n'] ++ ['('] ++ [','].intercalate [nines] ++ [')']) =
        .error Fault.uncaughtException) ∧
    (∀ {F : Type} (A : Arith F), A.stod nines = none →
      eval A (init_expr A) (['s', 'i', 'n'] ++ ['('] ++ [','].intercalate [nines] ++ [')']) =
        .error Fault.uncaughtException) := by
  have general : ∀ {F : Type} (A : Arith F), A.stod nines = none →
      eval A (init_expr A) (['s', 'i', 'n'] ++ ['('] ++ [','].intercalate [nines] ++ [')']) =
        .error Fault.uncaughtException := by
    intro F A h
    refine eval_of_tokenize_error A _ _ _ ?_
    have e : ['s', 'i', 'n'] ++ ['('] ++ [','].intercalate [nines] ++ [')'] ++ ['\x00'] =
        ['s', 'i', 'n'] ++ '(' :: (nines ++ [')', '\x00']) := by
      simp [List.intercalate]
    rw [tokenize_eq_scan, e, scan_identifier A ['s', 'i', 'n'] '(' _ (by decide) rfl, scan_open,
      scan_literal_throws A nines [')', '\x00'] nines_isLiteral (by decide) h]
    rfl
  exact ⟨nines_isLiteral,
    fun pw sn cs => general _ (exactArith_stod_throws pw sn cs nines nines_out_of_range),
    general⟩

/-- C4 (amended). Function call with literal arguments: for every registered function
`name` of arity `n` and numeric literals `x1 .. xn` on which `std::stod` returns (the values
`v1 .. vn`), the tokens of `name(x1,...,xn)` are converted to `[v1, ..., vn, Ident name]`
and `eval` returns the function applied to the vector `[v1, ..., vn]` in source order; in
exact arithmetic `pow(2,3)` evaluates to `pow(2, 3) = 8` and `sin(0)` to `sin(0) = 0`. -/
theorem function_call_on_literals :
    (∀ {F : Type} (A : Arith F) (name : Str) (fn : Function F) (xs : List Str),
      mapFind (init_expr A).functions name = some fn → xs.length = fn.n →
      (∀ x ∈ xs, isLiteral x = true) →
      ∀ (vs : List F), xs.map A.stod = vs.map some →
      ∃ toks v, tokenize A (name ++ ['('] ++ [','].intercalate xs ++ [')']) = .ok toks ∧
        to_rpn (init_expr A).operator_priority toks =
          .ok (vs.map (fun x => Token.Number x) ++ [Token.Ident name],
            (init_expr A).operator_priority) ∧
        fn.func vs = some v ∧
        eval A (init_expr A) (name ++ ['('] ++ [','].intercalate xs ++ [')']) =
          .ok ({ printed := none, value := v }, (init_expr A).operator_priority)) ∧
    (∀ (pw : ℚ → ℚ → ℚ) (sn cs : ℚ → ℚ), pw 2 3 = 8 →
      eval (exactArith pw sn cs) (init_expr (exactArith pw sn cs)) ("pow(2,3)".toList) =
        .ok ({ printed := none, value := 8 },
          (init_expr (exactArith pw sn cs)).operator_priority)) ∧
    (∀ (pw : ℚ → ℚ → ℚ) (sn cs : ℚ → ℚ), sn 0 = 0 →
      eval (exactArith pw sn cs) (init_expr (exactArith pw sn cs)) ("sin(0)".toList) =
        .ok ({ printed := none, value := 0 },
          (init_expr (exactArith pw sn cs)).operator_priority)) := by
  refine ⟨fun A name fn xs hf hn hx vs hv => eval_call A name fn xs hf hn hx vs hv, ?_, ?_⟩
  · intro pw sn cs h23
    obtain ⟨_, v, _, _, hv, h⟩ := eval_call (exactArith pw sn cs) ['p', 'o', 'w'] _ [['2'], ['3']]
      rfl rfl (by decide) [decimalValue ['2'], decimalValue ['3']] rfl
    refine Eq.trans h ?_
    have hv2 : v = 8 := by
      have := Option.some.inj hv
      rw [← this]
      simp [exactArith, decimalValue, natOfDigits, digitValue, h23]
    rw [hv2]
  · intro pw sn cs h0
    obtain ⟨_, v, _, _, hv, h⟩ := eval_call (exactArith pw sn cs) ['s', 'i', 'n'] _ [['0']]
      rfl rfl (by decide) [decimalValue ['0']] rfl
    refine Eq.trans h ?_
    have hv2 : v = 0 := by
      have := Option.some.inj hv
      rw [← this]
      simp [exactArith, decimalValue, natOfDigits, digitValue, h0]
    rw [hv2]

theorem function_call_on_literals_witness :
    mapFind (init_expr sampleArith).functions ['p', 'o', 'w'] =
        some { func := fun v => (v.get? 0).bind fun x => (v.get? 1).map fun y =>
                 sampleArith.pow x y, n := 2 } ∧
      [['2'], ['3']].map sampleArith.stod =
        [decimalValue ['2'], decimalValue ['3']].map some ∧
      ∃ toks v,
        tokenize sampleArith (['p', 'o', 'w'] ++ ['('] ++ [','].intercalate [['2'], ['3']] ++ [')']) =
          .ok toks ∧
        to_rpn (init_expr sampleArith).operator_priority toks =
          .ok ([decimalValue ['2'], decimalValue ['3']].map (fun x => Token.Number x) ++
            [Token.Ident ['p', 'o', 'w']], (init_expr sampleArith).operator_priority) ∧
        (fun v => (v.get? 0).bind fun x => (v.get? 1).map fun y => sampleArith.pow x y)
          [decimalValue ['2'], decimalValue ['3']] = some v ∧
        eval sampleArith (init_expr sampleArith)
            (['p', 'o', 'w'] ++ ['('] ++ [','].intercalate [['2'], ['3']] ++ [')']) =
          .ok ({ printed := none, value := v }, (init_expr sampleArith).operator_priority) :=
  ⟨rfl, rfl, function_call_on_literals.1 sampleArith ['p', 'o', 'w'] _ [['2'], ['3']] rfl rfl
    (by decide) [decimalValue ['2'], decimalValue ['3']] rfl⟩

/-- C5 (the code at the failing input). A `Comma` token has no case in `to_rpn`, so the
operator of the first argument is still on the stack when the second argument is read:
the tokens of `pow(1+2,3)`, with `x y z` the values `std::stod` returns for `1`, `2`, `3`,
are converted to `[x, y, z, +, pow]`, not `[x, y, +, z, pow]`, and `eval` returns
`pow(x, y + z)`, which is `pow(1, 5)` in exact arithmetic, not `pow(1 + 2, 3) = 27`. -/
theorem comma_leaves_operator_pending :
    (∀ {F : Type} (A : Arith F) (x y z : F),
      A.stod ['1'] = some x → A.stod ['2'] = some y → A.stod ['3'] = some z →
      tokenize A ("pow(1+2,3)".toList) =
        .ok [Token.Ident ['p', 'o', 'w'], Token.OpenBracket, Token.Number x,
          Token.Operation ['+'], Token.Number y, Token.Comma,
          Token.Number z, Token.CloseBracket] ∧
      to_rpn (init_expr A).operator_priority
          [Token.Ident ['p', 'o', 'w'], Token.OpenBracket, Token.Number x,
            Token.Operation ['+'], Token.Number y, Token.Comma,
            Token.Number z, Token.CloseBracket] =
        .ok ([Token.Number x, Token.Number y,
          Token.Number z, Token.Operation ['+'], Token.Ident ['p', 'o', 'w']],
          (init_expr A).operator_priority ++ [([], 0)]) ∧
      eval A (init_expr A) ("pow(1+2,3)".toList) =
        .ok ({ printed := none, value := A.pow x (A.add y z) },
          (init_expr A).operator_priority ++ [([], 0)])) ∧
    (∀ (pw : ℚ → ℚ → ℚ) (sn cs : ℚ → ℚ),
      eval (exactArith pw sn cs) (init_expr (exactArith pw sn cs)) ("pow(1+2,3)".toList) =
        .ok ({ printed := none, value := pw 1 5 },
          (init_expr (exactArith pw sn cs)).operator_priority ++ [([], 0)])) := by
  have general : ∀ {F : Type} (A : Arith F) (x y z : F),
      A.stod ['1'] = some x → A.stod ['2'] = some y → A.stod ['3'] = some z →
      tokenize A ("pow(1+2,3)".toList) =
        .ok [Token.Ident ['p', 'o', 'w'], Token.OpenBracket, Token.Number x,
          Token.Operation ['+'], Token.Number y, Token.Comma,
          Token.Number z, Token.CloseBracket] ∧
      eval A (init_expr A) ("pow(1+2,3)".toList) =
        .ok ({ printed := none, value := A.pow x (A.add y z) },
          (init_expr A).operator_priority ++ [([], 0)]) := by
    intro F A x y z hx hy hz
    rw [← withValues_eq A [(['1'], x), (['2'], y), (['3'], z)] (by simp [hx, hy, hz])]
    exact ⟨rfl, rfl⟩
  refine ⟨fun A x y z hx hy hz =>
    ⟨(general A x y z hx hy hz).1, rfl, (general A x y z hx hy hz).2⟩, ?_⟩
  intro pw sn cs
  refine Eq.trans (general _ (decimalValue ['1']) (decimalValue ['2']) (decimalValue ['3'])
    rfl rfl rfl).2 ?_
  simp [exactArith, decimalValue, natOfDigits, digitValue]
  norm_num

theorem comma_leaves_operator_pending_witness :
    sampleArith.stod ['1'] = some (decimalValue ['1']) ∧
    sampleArith.stod ['2'] = some (decimalValue ['2']) ∧
    sampleArith.stod ['3'] = some (decimalValue ['3']) ∧
    to_rpn (init_expr sampleArith).operator_priority
        [Token.Ident ['p', 'o', 'w'], Token.OpenBracket, Token.Number (decimalValue ['1']),
          Token.Operation ['+'], Token.Number (decimalValue ['2']), Token.Comma,
          Token.Number (decimalValue ['3']), Token.CloseBracket] =
      .ok ([Token.Number (decimalValue ['1']), Token.Number (decimalValue ['2']),
        Token.Number (decimalValue ['3']), Token.Operation ['+'], Token.Ident ['p', 'o', 'w']],
        (init_expr sampleArith).operator_priority ++ [([], 0)]) ∧
    eval sampleArith (init_expr sampleArith) ("pow(1+2,3)".toList) =
      .ok ({ printed := none,
             value := sampleArith.pow (decimalValue ['1'])
               (sampleArith.add (decimalValue ['2']) (decimalValue ['3'])) },
        (init_expr sampleArith).operator_priority ++ [([], 0)]) :=
  ⟨rfl, rfl, rfl,
    (comma_leaves_operator_pending.1 sampleArith (decimalValue ['1']) (decimalValue ['2'])
      (decimalValue ['3']) rfl rfl rfl).2⟩

/-- C6 (counterexample). The tokens of `(1 + 2` hold an `OpenBracket` that is never closed,
and `to_rpn` returns a postfix sequence for them, with the bracket as its last token. -/
theorem unclosed_bracket_is_returned :
    tokenize sampleArith ("(1 + 2".toList) =
      .ok [Token.OpenBracket, Token.Number (decimalValue ['1']), Token.Operation ['+'],
        Token.Number (decimalValue ['2'])] ∧
    to_rpn (init_expr sampleArith).operator_priority
        [Token.OpenBracket, Token.Number (decimalValue ['1']), Token.Operation ['+'],
          Token.Number (decimalValue ['2'])] =
      .ok ([Token.Number (decimalValue ['1']), Token.Number (decimalValue ['2']),
        Token.Operation ['+'], Token.OpenBracket],
        (init_expr sampleArith).operator_priority ++ [([], 0)]) :=
  ⟨rfl, rfl⟩

/-- C6 (amended). `to_rpn` has no check for unbalanced brackets. On every token sequence
on which it returns, from any priority table, what it returns, with one `OpenBracket`
added for every `CloseBracket` of the input, is a rearrangement of the input's tokens other
than commas and closing brackets: the output holds no `CloseBracket`, and the number of its
`OpenBracket` tokens is the number of opening brackets of the input less the number of
closing ones, so every bracket that is never closed is in the output. It returns on every
sequence without a `CloseBracket`. -/
theorem unclosed_brackets_reach_output :
    (∀ {F : Type} (m m1 : List (Str × Int)) (ts r : List (Token F)),
      to_rpn m ts = .ok (r, m1) →
      List.Perm (r ++ List.replicate (closeCount ts) Token.OpenBracket) (keptTokens ts) ∧
      (∀ t ∈ r, t.type ≠ TokenType.CloseBracket) ∧
      openCount r + closeCount ts = openCount ts) ∧
    (∀ {F : Type} (m : List (Str × Int)) (ts : List (Token F)),
      (∀ t ∈ ts, t.type ≠ TokenType.CloseBracket) → ∃ r m1, to_rpn m ts = .ok (r, m1)) := by
  constructor
  · intro F m m1 ts r h
    have hp := to_rpn_perm m m1 ts r h
    refine ⟨hp, ?_, ?_⟩
    · intro t ht
      exact (mem_keptTokens (hp.subset (List.mem_append_left _ ht))).2.2
    · have := hp.countP_eq fun t => decide (t.type = TokenType.OpenBracket)
      have e : openCount (r ++ List.replicate (closeCount ts) Token.OpenBracket) =
          openCount (keptTokens ts) := this
      rw [openCount_append, openCount_replicate, openCount_keptTokens] at e
      exact e
  · intro F m ts h
    obtain ⟨st1, h1, _⟩ :=
      to_rpn_loop_no_close ts { result := [], stack := [], operator_priority := m } h
    exact ⟨st1.result ++ st1.stack, st1.operator_priority, by simp only [to_rpn, h1]⟩

/-- C6 (instance). The tokens of `(1+2)*(3`: one bracket is closed and one is not; `to_rpn`
returns `[1, 2, +, 3, OpenBracket, *]`, with one `OpenBracket` for the two of the input
and the one `CloseBracket`. -/
theorem unclosed_brackets_reach_output_witness :
    to_rpn (init_expr sampleArith).operator_priority
        [Token.OpenBracket, Token.Number (1 : ℚ), Token.Operation ['+'], Token.Number 2,
          Token.CloseBracket, Token.Operation ['*'], Token.OpenBracket, Token.Number 3] =
      .ok ([Token.Number 1, Token.Number 2, Token.Operation ['+'], Token.Number 3,
        Token.OpenBracket, Token.Operation ['*']],
        (init_expr sampleArith).operator_priority ++ [([], 0)]) ∧
    List.Perm
      ([Token.Number (1 : ℚ), Token.Number 2, Token.Operation ['+'], Token.Number 3,
          Token.OpenBracket, Token.Operation ['*']] ++
        List.replicate
          (closeCount [Token.OpenBracket, Token.Number (1 : ℚ), Token.Operation ['+'],
            Token.Number 2, Token.CloseBracket, Token.Operation ['*'], Token.OpenBracket,
            Token.Number 3]) Token.OpenBracket)
      (keptTokens [Token.OpenBracket, Token.Number (1 : ℚ), Token.Operation ['+'],
        Token.Number 2, Token.CloseBracket, Token.Operation ['*'], Token.OpenBracket,
        Token.Number 3]) ∧
    (∀ t ∈ [Token.Number (1 : ℚ), Token.Number 2, Token.Operation ['+'], Token.Number 3,
        Token.OpenBracket, Token.Operation ['*']], t.type ≠ TokenType.CloseBracket) ∧
    openCount [Token.Number (1 : ℚ), Token.Number 2, Token.Operation ['+'], Token.Number 3,
        Token.OpenBracket, Token.Operation ['*']] +
      closeCount [Token.OpenBracket, Token.Number (1 : ℚ), Token.Operation ['+'],
        Token.Number 2, Token.CloseBracket, Token.Operation ['*'], Token.OpenBracket,
        Token.Number 3] =
      openCount [Token.OpenBracket, Token.Number (1 : ℚ), Token.Operation ['+'],
        Token.Number 2, Token.CloseBracket, Token.Operation ['*'], Token.OpenBracket,
        Token.Number 3] :=
  ⟨rfl, unclosed_brackets_reach_output.1 (init_expr sampleArith).operator_priority
    ((init_expr sampleArith).operator_priority ++ [([], 0)])
    [Token.OpenBracket, Token.Number (1 : ℚ), Token.Operation ['+'], Token.Number 2,
      Token.CloseBracket, Token.Operation ['*'], Token.OpenBracket, Token.Number 3]
    [Token.Number 1, Token.Number 2, Token.Operation ['+'], Token.Number 3,
      Token.OpenBracket, Token.Operation ['*']] rfl⟩

/-- C7 (counterexample). Both inputs use an identifier that is not a registered function.
On `1 $ 2 % foo(3)` the postfix sequence is `[1, 2, $, 3, foo, %]`: `eval` prints
`Unknown operation: $` and returns 0 before it reaches `foo`. On `x + 1` the postfix sequence
is `[1, +, x]`: the operator `+` finds one value on the working stack, and the second
`stack.top()` is undefined before `x` is reached. -/
theorem unknown_identifier_not_always_reported :
    mapFind (init_expr sampleArith).functions ['f', 'o', 'o'] = none ∧
    eval sampleArith (init_expr sampleArith) ("1 $ 2 % foo(3)".toList) =
      .ok ({ printed := some (Diagnostic.unknownOperation ['$']), value := 0 },
        (init_expr sampleArith).operator_priority ++ [(['%'], 0), (['$'], 0)]) ∧
    mapFind (init_expr sampleArith).functions ['x'] = none ∧
    eval sampleArith (init_expr sampleArith) ("x + 1".toList) =
      .error Fault.undefinedBehaviour :=
  ⟨rfl, rfl, rfl, rfl⟩

/-- C7 (amended). When the evaluator's loop has consumed the tokens before an `Ident` token
without returning, and the identifier is not a key of `functions`, `eval` prints
`Unknown function: ` with that name and returns the sentinel 0, whatever follows; and for
every identifier `name` that is not registered and every numeric literal `x` on which
`std::stod` returns, the pipeline on `name(x)` ends so. -/
theorem unknown_function_is_reported :
    (∀ {F : Type} (A : Arith F) (R : Registry F) (pre post : List (Token F)) (name : Str)
      (stack : List F),
      evalLoop R pre [] = .ok (LoopResult.finished stack) → mapFind R.functions name = none →
      evalTokens A R (pre ++ Token.Ident name :: post) =
        .ok { printed := some (Diagnostic.unknownFunction name), value := A.zero }) ∧
    (∀ {F : Type} (A : Arith F) (name x : Str),
      isIdentifier name = true → isLiteral x = true →
      mapFind (init_expr A).functions name = none →
      ∀ (v : F), A.stod x = some v →
      eval A (init_expr A) (name ++ ['('] ++ x ++ [')']) =
        .ok ({ printed := some (Diagnostic.unknownFunction name), value := A.zero },
          (init_expr A).operator_priority)) := by
  refine ⟨?_, fun A name x hn hx hf v hv => eval_unknown_call A name x hn hx hf v hv⟩
  intro F A R pre post name stack h1 h2
  simp only [evalTokens, evalLoop_append R _ pre [] stack h1, evalLoop, h2]

theorem unknown_function_is_reported_witness :
    mapFind (init_expr sampleArith).functions ['f', 'o', 'o'] = none ∧
      sampleArith.stod ['1'] = some (decimalValue ['1']) ∧
      eval sampleArith (init_expr sampleArith) (['f', 'o', 'o'] ++ ['('] ++ ['1'] ++ [')']) =
        .ok ({ printed := some (Diagnostic.unknownFunction ['f', 'o', 'o']),
               value := sampleArith.zero },
          (init_expr sampleArith).operator_priority) :=
  ⟨rfl, rfl, unknown_function_is_reported.2 sampleArith ['f', 'o', 'o'] ['1'] (by decide)
    (by decide) rfl (decimalValue ['1']) rfl⟩

/-- C8. When the evaluator's loop consumes a postfix sequence to its end (no unknown symbol,
no read of an empty stack), `eval` returns a value without a diagnostic exactly when the
working stack then holds one value, and that value is the result; otherwise it prints
`Bad expression` and returns the sentinel 0. The empty input and `1 2` (where `std::stod`
returns on `1` and on `2`, as it does in exact arithmetic) are both answered with
`Bad expression`. -/
theorem result_iff_single_value :
    (∀ {F : Type} (A : Arith F) (R : Registry F) (ts : List (Token F)) (stack : List F),
      evalLoop R ts [] = .ok (LoopResult.finished stack) →
      ((∃ v, evalTokens A R ts = .ok { printed := none, value := v }) ↔ stack.length = 1) ∧
      (∀ v, stack = [v] → evalTokens A R ts = .ok { printed := none, value := v }) ∧
      (stack.length ≠ 1 →
        evalTokens A R ts =
          .ok { printed := some Diagnostic.badExpression, value := A.zero })) ∧
    (∀ {F : Type} (A : Arith F),
      eval A (init_expr A) [] =
        .ok ({ printed := some Diagnostic.badExpression, value := A.zero },
          (init_expr A).operator_priority) ∧
      ∀ (x y : F), A.stod ['1'] = some x → A.stod ['2'] = some y →
      eval A (init_expr A) ("1 2".toList) =
        .ok ({ printed := some Diagnostic.badExpression, value := A.zero },
          (init_expr A).operator_priority)) ∧
    (∀ (pw : ℚ → ℚ → ℚ) (sn cs : ℚ → ℚ),
      eval (exactArith pw sn cs) (init_expr (exactArith pw sn cs)) [] =
        .ok ({ printed := some Diagnostic.badExpression, value := 0 },
          (init_expr (exactArith pw sn cs)).operator_priority) ∧
      eval (exactArith pw sn cs) (init_expr (exactArith pw sn cs)) ("1 2".toList) =
        .ok ({ printed := some Diagnostic.badExpression, value := 0 },
          (init_expr (exactArith pw sn cs)).operator_priority)) := by
  refine ⟨?_, fun A => ⟨rfl, fun x y hx hy => ?_⟩, fun pw sn cs => ⟨rfl, rfl⟩⟩
  · intro F A R ts stack h
    have hone : ∀ v, stack = [v] → evalTokens A R ts = .ok { printed := none, value := v } := by
      intro v hv
      subst hv
      simp only [evalTokens, h]
    have hbad : stack.length ≠ 1 → evalTokens A R ts =
        .ok { printed := some Diagnostic.badExpression, value := A.zero } := by
      intro hl
      match stack, h, hl with
      | [], h, _ => simp only [evalTokens, h]
      | [_], _, hl => simp at hl
      | _ :: _ :: _, h, _ => simp only [evalTokens, h]
    refine ⟨⟨?_, ?_⟩, hone, hbad⟩
    · rintro ⟨v, hv⟩
      by_contra hl
      rw [hbad hl] at hv
      simp at hv
    · intro hl
      obtain ⟨v, rfl⟩ := List.length_eq_one.mp hl
      exact ⟨v, hone v rfl⟩
  · rw [← withValues_eq A [(['1'], x), (['2'], y)] (by simp [hx, hy])]
    rfl

theorem result_iff_single_value_witness :
    evalLoop (init_expr sampleArith) [Token.Number 1, Token.Number 2] [] =
        .ok (LoopResult.finished [2, 1]) ∧
      (((∃ v, evalTokens sampleArith (init_expr sampleArith) [Token.Number 1, Token.Number 2] =
          .ok { printed := none, value := v }) ↔ [(2 : ℚ), 1].length = 1) ∧
      (∀ v, [(2 : ℚ), 1] = [v] →
        evalTokens sampleArith (init_expr sampleArith) [Token.Number 1, Token.Number 2] =
          .ok { printed := none, value := v }) ∧
      ([(2 : ℚ), 1].length ≠ 1 →
        evalTokens sampleArith (init_expr sampleArith) [Token.Number 1, Token.Number 2] =
          .ok { printed := some Diagnostic.badExpression, value := sampleArith.zero })) :=
  ⟨rfl, result_iff_single_value.1 sampleArith (init_expr sampleArith)
    [Token.Number 1, Token.Number 2] [2, 1] rfl⟩

/-- C9 (the code at the failing inputs). A registered operator that finds fewer than two
values on the working stack, or a registered function that finds fewer than its arity,
reads the top of an empty `std::stack`: the run has no defined result and never reaches
the `Bad expression` check. This is so on `1 +` and on `-5` (where `std::stod` returns on
the literal, as it does in exact arithmetic) and on `sin()`. -/
theorem operator_underflow_is_undefined :
    (∀ {F : Type} (A : Arith F),
      (∀ (x : F) (ts : List (Token F)),
        evalLoop (init_expr A) (Token.Operation ['+'] :: ts) [x] =
          .error Fault.undefinedBehaviour) ∧
      (∀ (ts : List (Token F)),
        evalLoop (init_expr A) (Token.Operation ['+'] :: ts) [] =
          .error Fault.undefinedBehaviour) ∧
      (∀ (x : F) (ts : List (Token F)),
        evalLoop (init_expr A) (Token.Ident ['p', 'o', 'w'] :: ts) [x] =
          .error Fault.undefinedBehaviour) ∧
      (∀ (x : F), A.stod ['1'] = some x →
        eval A (init_expr A) ("1 +".toList) = .error Fault.undefinedBehaviour) ∧
      (∀ (x : F), A.stod ['5'] = some x →
        eval A (init_expr A) ("-5".toList) = .error Fault.undefinedBehaviour) ∧
      eval A (init_expr A) ("sin()".toList) = .error Fault.undefinedBehaviour) ∧
    (∀ (pw : ℚ → ℚ → ℚ) (sn cs : ℚ → ℚ),
      eval (exactArith pw sn cs) (init_expr (exactArith pw sn cs)) ("1 +".toList) =
        .error Fault.undefinedBehaviour ∧
      eval (exactArith pw sn cs) (init_expr (exactArith pw sn cs)) ("-5".toList) =
        .error Fault.undefinedBehaviour) := by
  refine ⟨fun A => ⟨fun _ _ => rfl, fun _ => rfl, fun _ _ => rfl, fun x hx => ?_,
    fun x hx => ?_, rfl⟩, fun pw sn cs => ⟨rfl, rfl⟩⟩
  · rw [← withValues_eq A [(['1'], x)] (by simp [hx])]
    rfl
  · rw [← withValues_eq A [(['5'], x)] (by simp [hx])]
    rfl

/-- C10 (counterexample). The string of four hundred nines has the form `digits`, and
`tokenize` returns no token for it: `std::stod` throws `std::out_of_range`, and the
exception, which nothing catches, ends the process. -/
theorem literal_out_of_range_is_fatal :
    isLiteral nines = true ∧
    (∀ (pw : ℚ → ℚ → ℚ) (sn cs : ℚ → ℚ),
      tokenize (exactArith pw sn cs) nines = .error Fault.uncaughtException) ∧
    (∀ {F : Type} (A : Arith F), A.stod nines = none →
      tokenize A nines = .error Fault.uncaughtException) := by
  have general : ∀ {F : Type} (A : Arith F), A.stod nines = none →
      tokenize A nines = .error Fault.uncaughtException := by
    intro F A h
    have := tokenize_throws A nines [] nines_isLiteral (by decide) h
    simpa using this
  exact ⟨nines_isLiteral,
    fun pw sn cs => general _ (exactArith_stod_throws pw sn cs nines nines_out_of_range),
    general⟩

/-- C10 (amended). For every string `s` of the form `digits` or `digits.digits`, `tokenize`
calls `std::stod` once, on the whole of `s`: where `std::stod` returns, `tokenize` returns
exactly one token, the `Number` with the value returned; where it throws, `tokenize`
returns nothing. In exact arithmetic the value is the decimal value `s` denotes, for every
`s` whose value is within the range of `double`. -/
theorem tokenize_numeric_literal :
    (∀ {F : Type} (A : Arith F) (s : Str), isLiteral s = true →
      (∀ (x : F), A.stod s = some x → tokenize A s = .ok [Token.Number x]) ∧
      (A.stod s = none → tokenize A s = .error Fault.uncaughtException)) ∧
    (∀ (pw : ℚ → ℚ → ℚ) (sn cs : ℚ → ℚ) (s : Str), isLiteral s = true →
      stodInRange s = true →
      tokenize (exactArith pw sn cs) s = .ok [Token.Number (decimalValue s)]) := by
  have general : ∀ {F : Type} (A : Arith F) (s : Str), isLiteral s = true →
      ∀ (x : F), A.stod s = some x → tokenize A s = .ok [Token.Number x] := by
    intro F A s hs x hx
    rw [tokenize_eq_scan]
    exact scan_literal_end A s hs x hx
  refine ⟨fun A s hs => ⟨general A s hs, fun hx => ?_⟩, fun pw sn cs s hs hr =>
    general _ s hs _ (exactArith_stod pw sn cs s hr)⟩
  rw [tokenize_eq_scan]
  exact scan_literal_throws A s _ hs endsNumber_end hx

theorem tokenize_numeric_literal_witness :
    isLiteral ("12.50".toList) = true ∧ stodInRange ("12.50".toList) = true ∧
      tokenize sampleArith ("12.50".toList) =
        .ok [Token.Number (decimalValue ("12.50".toList))] ∧
      decimalValue ("12.50".toList) = 25 / 2 :=
  ⟨by decide, by decide,
    tokenize_numeric_literal.2 _ _ _ _ (by decide) (by decide), by
    simp [decimalValue, natOfDigits, digitValue]
    norm_num⟩

/-- Reading a prefix and then scanning the rest is scanning the whole. -/
theorem scan_append (A : Arith F) (rest : Str) :
    ∀ (pre : Str) (mode : Mode),
      scan A mode (pre ++ rest) =
        match scanPrefix A mode pre with
        | .ok (ts, m) => emit ts (scan A m rest)
        | .error e => .error e := by
  intro pre
  induction pre with
  | nil => intro mode; cases mode <;> simp [scanPrefix, emit_nil]
  | cons c cs ih =>
    have key : ∀ (ts0 : List (Token F)) (m0 : Mode),
        emit ts0 (scan A m0 (cs ++ rest)) =
          match (match scanPrefix A m0 cs with
            | .ok (ts, m) => (.ok (ts0 ++ ts, m) : Except Fault (List (Token F) × Mode))
            | .error e => .error e) with
          | .ok (ts, m) => emit ts (scan A m rest)
          | .error e => .error e := by
      intro ts0 m0
      rw [ih]
      cases scanPrefix A m0 cs with
      | error e => rfl
      | ok r => simp only [emit_emit]
    intro mode
    cases mode with
    | none =>
      simp only [List.cons_append, scan, scanPrefix, List.append_eq]
      exact key _ _
    | number acc hp =>
      simp only [List.cons_append, scan, scanPrefix, List.append_eq]
      split_ifs
      · exact ih _
      · rfl
      · exact ih _
      · cases A.stod acc with
        | none => rfl
        | some x => exact key _ _
    | ident acc =>
      simp only [List.cons_append, scan, scanPrefix, List.append_eq]
      split_ifs
      · exact ih _
      · exact key _ _

theorem isalnum_ne_blank {c : Char} (h : isalnum c = true) : c ≠ ' ' := by
  intro hc
  rw [hc] at h
  revert h
  decide

theorem stepNone_no_blank (c : Char) : ∀ t ∈ (stepNone F c).1, ' ' ∉ t.str := by
  intro t ht
  simp only [stepNone] at ht
  split_ifs at ht with h1 h2 h3 h4 h5 h6 h7 <;>
    simp only [List.mem_singleton, List.not_mem_nil] at ht
  all_goals subst ht
  all_goals simp [Token.str]
  exact fun h => h6 h.symm

theorem stepNone_ident_no_blank (c : Char) (acc : Str)
    (h : (stepNone F c).2 = Mode.ident acc) : ' ' ∉ acc := by
  simp only [stepNone] at h
  split_ifs at h with h1 h2 h3 h4 h5 h6 h7
  all_goals try simp only [reduceCtorEq] at h
  simp only [Mode.ident.injEq] at h
  subst h
  have : c ≠ ' ' := by
    intro hc; rw [hc] at h5; revert h5; decide
  simpa using fun h => this h.symm

/-- No token of the scan carries a blank in its `str`. -/
theorem scan_no_blank (A : Arith F) :
    ∀ (s : Str) (mode : Mode) (toks : List (Token F)),
      (∀ acc, mode = Mode.ident acc → ' ' ∉ acc) →
      scan A mode s = .ok toks → ∀ t ∈ toks, ' ' ∉ t.str := by
  intro s
  induction s with
  | nil =>
    intro mode toks _ h t ht
    cases mode <;> simp only [scan, Except.ok.injEq] at h <;> subst h <;> simp at ht
  | cons c cs ih =>
    have key : ∀ (ts0 : List (Token F)) (toks : List (Token F)),
        (∀ t ∈ ts0, ' ' ∉ t.str) →
        emit ts0 (scan A (stepNone F c).2 cs) = .ok toks → ∀ t ∈ toks, ' ' ∉ t.str := by
      intro ts0 toks h0 h t ht
      cases hs : scan A (stepNone F c).2 cs with
      | error e => simp [hs, emit] at h
      | ok r =>
        simp only [hs, emit, Except.ok.injEq] at h
        subst h
        rcases List.mem_append.mp ht with h1 | h1
        · exact h0 t h1
        · exact ih _ r (fun acc hacc => stepNone_ident_no_blank c acc hacc) hs t h1
    intro mode toks hm h
    cases mode with
    | none =>
      simp only [scan] at h
      exact key _ _ (stepNone_no_blank c) h
    | number acc hp =>
      simp only [scan] at h
      split_ifs at h
      · exact ih _ _ (fun _ hh => by simp at hh) h
      · exact ih _ _ (fun _ hh => by simp at hh) h
      · cases hx : A.stod acc with
        | none => simp [hx] at h
        | some x =>
          simp only [hx] at h
          refine key _ _ ?_ h
          intro t ht
          rcases List.mem_cons.mp ht with h1 | h1
          · subst h1; simp [Token.str]
          · exact stepNone_no_blank c t h1
    | ident acc =>
      simp only [scan] at h
      split_ifs at h with h1
      · refine ih _ _ ?_ h
        intro acc2 hacc
        simp only [Mode.ident.injEq] at hacc
        subst hacc
        have := hm acc rfl
        have hc := isalnum_ne_blank h1
        simp only [List.mem_append, List.mem_singleton, not_or]
        exact ⟨this, fun h => hc h.symm⟩
      · refine key _ _ ?_ h
        intro t ht
        rcases List.mem_cons.mp ht with h2 | h2
        · subst h2; simpa [Token.str] using hm acc rfl
        · exact stepNone_no_blank c t h2

/-- C12 (counterexample). A tab in the `None` state is not skipped: it becomes a
one-character `Operation` token, so the tokens of a tab followed by `1` are not the tokens
of `1`. -/
theorem tab_is_not_skipped :
    tokenize sampleArith ('\t' :: "1".toList) =
      .ok [Token.Operation ['\t'], Token.Number (decimalValue ['1'])] ∧
    tokenize sampleArith ("1".toList) = .ok [Token.Number (decimalValue ['1'])] ∧
    tokenize sampleArith ('\t' :: "1".toList) ≠ tokenize sampleArith ("1".toList) := by
  refine ⟨rfl, rfl, ?_⟩
  have h1 : tokenize sampleArith ('\t' :: "1".toList) =
      .ok [Token.Operation ['\t'], Token.Number (decimalValue ['1'])] := rfl
  have h2 : tokenize sampleArith ("1".toList) = .ok [Token.Number (decimalValue ['1'])] :=
    rfl
  rw [h1, h2]
  simp

/-- C12 (amended). The blank is skipped in the `None` state: `tokenize` of a blank followed
by `s` equals `tokenize s`, and so does a blank read after any prefix that leaves the
scanner in the `None` state; no token of any result carries a blank. The tab is not
whitespace for the tokenizer: read in the `None` state it becomes the `Operation` token of
the tab, followed by the tokens of the rest. -/
theorem blank_is_skipped :
    (∀ {F : Type} (A : Arith F) (s : Str), tokenize A (' ' :: s) = tokenize A s) ∧
    (∀ {F : Type} (A : Arith F) (pre rest : Str) (ts : List (Token F)),
      scanPrefix A Mode.none pre = .ok (ts, Mode.none) →
      tokenize A (pre ++ ' ' :: rest) = tokenize A (pre ++ rest)) ∧
    (∀ {F : Type} (A : Arith F) (s : Str) (toks : List (Token F)),
      tokenize A s = .ok toks → ∀ t ∈ toks, ' ' ∉ t.str) ∧
    (∀ {F : Type} (A : Arith F) (s : Str),
      tokenize A ('\t' :: s) = emit [Token.Operation ['\t']] (tokenize A s)) := by
  refine ⟨?_, ?_, ?_, ?_⟩
  · intro F A s
    rw [tokenize_eq_scan, tokenize_eq_scan, List.cons_append, scan_none_cons]
    exact emit_nil _
  · intro F A pre rest ts hpre
    rw [tokenize_eq_scan, tokenize_eq_scan, List.append_assoc, List.append_assoc,
      scan_append, scan_append, hpre, List.cons_append]
    simp only []
    rw [scan_none_cons, show (stepNone F ' ') = ([], Mode.none) from rfl, emit_nil]
  · intro F A s toks h
    rw [tokenize_eq_scan] at h
    exact scan_no_blank A _ _ _ (fun _ hh => by simp at hh) h
  · intro F A s
    rw [tokenize_eq_scan, tokenize_eq_scan, List.cons_append, scan_none_cons]
    rfl

theorem blank_is_skipped_witness :
    scanPrefix sampleArith Mode.none ("1 +".toList) =
        .ok ([Token.Number (decimalValue ['1']), Token.Operation ['+']], Mode.none) ∧
      tokenize sampleArith ("1 +".toList ++ ' ' :: "2".toList) =
        tokenize sampleArith ("1 +".toList ++ "2".toList) :=
  ⟨rfl, blank_is_skipped.2.1 sampleArith ("1 +".toList) ("2".toList) _ rfl⟩

/-! ## The priority table across runs -/

theorem mapIndex_eq_mapSubscript (m : List (Str × Int)) (key : Str) :
    mapIndex m key = mapSubscript 0 m key := by
  cases h : mapFind m key <;> simp [mapIndex, mapSubscript, h]

theorem mapFind_append {V : Type} (m a : List (Str × V)) (s : Str) :
    mapFind (m ++ a) s = match mapFind m s with
      | some v => some v
      | none => mapFind a s := by
  induction m with
  | nil => simp [mapFind]
  | cons e m ih =>
    obtain ⟨k, v⟩ := e
    simp only [List.cons_append, mapFind]
    split_ifs
    · rfl
    · exact ih

theorem mapFind_append_none {V : Type} (m a : List (Str × V)) (s : Str)
    (h : mapFind (m ++ a) s = none) : mapFind m s = none := by
  rw [mapFind_append] at h
  cases hm : mapFind m s with
  | none => rfl
  | some v => simp [hm] at h

theorem mapFind_zero (a : List (Str × Int)) (h : ∀ e ∈ a, e.2 = 0) (s : Str) (v : Int)
    (hv : mapFind a s = some v) : v = 0 := by
  induction a with
  | nil => simp [mapFind] at hv
  | cons e a ih =>
    obtain ⟨k, w⟩ := e
    simp only [mapFind] at hv
    split_ifs at hv
    · have := h (k, w) (by simp)
      simp only at this
      rw [← Option.some.inj hv, this]
    · exact ih (fun e he => h e (by simp [he])) hv

theorem ZeroExtension.refl (m : List (Str × Int)) : ZeroExtension m m :=
  ⟨[], by simp, by simp⟩

theorem ZeroExtension.trans {m m1 m2 : List (Str × Int)} (h1 : ZeroExtension m m1)
    (h2 : ZeroExtension m1 m2) : ZeroExtension m m2 := by
  obtain ⟨a1, rfl, ha1⟩ := h1
  obtain ⟨a2, rfl, ha2⟩ := h2
  refine ⟨a1 ++ a2, by simp, ?_⟩
  intro e he
  rcases List.mem_append.mp he with h | h
  · exact ha1 e h
  · exact ⟨(ha2 e h).1, mapFind_append_none _ _ _ (ha2 e h).2⟩

/-- Added entries of priority 0 change no priority that is read. -/
theorem ZeroExtension.priorityOf {m m1 : List (Str × Int)} (h : ZeroExtension m m1)
    (s : Str) : priorityOf m1 s = priorityOf m s := by
  obtain ⟨a, rfl, ha⟩ := h
  simp only [Expr.priorityOf, mapIndex, mapFind_append]
  cases hm : mapFind m s with
  | some v => rfl
  | none =>
    simp only
    cases hs : mapFind a s with
    | none => rfl
    | some v =>
      have := mapFind_zero a (fun e he => (ha e he).1) s v hs
      simp [this]

theorem mapIndex_extension (m : List (Str × Int)) (key : Str) :
    ZeroExtension m (mapIndex m key).2 := by
  unfold mapIndex
  cases h : mapFind m key with
  | some v => exact ZeroExtension.refl m
  | none =>
    refine ⟨[(key, 0)], rfl, ?_⟩
    intro e he
    simp only [List.mem_singleton] at he
    subst he
    exact ⟨rfl, h⟩

theorem check_priority_extension (m : List (Str × Int)) (op1 op2 : Str) :
    ZeroExtension m (check_priority m op1 op2).2 :=
  (mapIndex_extension m op1).trans (mapIndex_extension _ op2)

/-- The difference that `check_priority` returns, in terms of the priorities read. -/
theorem check_priority_value (m : List (Str × Int)) (op1 op2 : Str) :
    (check_priority m op1 op2).1 = priorityOf m op1 - priorityOf m op2 := by
  have := (mapIndex_extension m op1).priorityOf op2
  simp only [check_priority, priorityOf] at this ⊢
  rw [this]

theorem operationLoop_extension (op : Str) :
    ∀ (stack result : List (Token F)) (m : List (Str × Int)),
      ZeroExtension m (operationLoop op result stack m).operator_priority := by
  intro stack
  induction stack with
  | nil => intro result m; exact ZeroExtension.refl m
  | cons top stack ih =>
    intro result m
    simp only [operationLoop]
    split_ifs
    · exact (check_priority_extension m op top.str).trans (ih _ _)
    · exact check_priority_extension m op top.str

theorem to_rpn_step_extension (st st1 : RpnState F) (t : Token F)
    (h : to_rpn_step st t = .ok st1) :
    ZeroExtension st.operator_priority st1.operator_priority := by
  cases t with
  | Number x =>
    simp only [to_rpn_step, Token.type, Except.ok.injEq] at h
    subst h; exact ZeroExtension.refl _
  | Ident s =>
    simp only [to_rpn_step, Token.type, Except.ok.injEq] at h
    subst h; exact ZeroExtension.refl _
  | Operation s =>
    simp only [to_rpn_step, Token.type, Except.ok.injEq] at h
    subst h; exact operationLoop_extension _ _ _ _
  | Comma =>
    simp only [to_rpn_step, Token.type, Except.ok.injEq] at h
    subst h; exact ZeroExtension.refl _
  | OpenBracket =>
    simp only [to_rpn_step, Token.type, Except.ok.injEq] at h
    subst h; exact ZeroExtension.refl _
  | CloseBracket =>
    simp only [to_rpn_step, Token.type] at h
    cases hc : closeBracketLoop st.result st.stack with
    | error e => simp [hc] at h
    | ok r =>
      obtain ⟨result, stack⟩ := r
      simp only [hc] at h
      cases stack with
      | nil =>
        simp only [Except.ok.injEq] at h
        subst h; exact ZeroExtension.refl _
      | cons top rest =>
        simp only at h
        split_ifs at h <;>
          (simp only [Except.ok.injEq] at h; subst h; exact ZeroExtension.refl _)

theorem to_rpn_loop_extension :
    ∀ (ts : List (Token F)) (st st1 : RpnState F), to_rpn_loop ts st = .ok st1 →
      ZeroExtension st.operator_priority st1.operator_priority := by
  intro ts
  induction ts with
  | nil =>
    intro st st1 h
    simp only [to_rpn_loop, Except.ok.injEq] at h
    subst h; exact ZeroExtension.refl _
  | cons t ts ih =>
    intro st st1 h
    simp only [to_rpn_loop] at h
    cases hs : to_rpn_step st t with
    | error e => simp [hs] at h
    | ok st2 =>
      simp only [hs] at h
      exact (to_rpn_step_extension st st2 t hs).trans (ih st2 st1 h)

theorem to_rpn_extension (m m1 : List (Str × Int)) (ts r : List (Token F))
    (h : to_rpn m ts = .ok (r, m1)) : ZeroExtension m m1 := by
  simp only [to_rpn] at h
  cases hl : to_rpn_loop ts { result := [], stack := [], operator_priority := m } with
  | error e => simp [hl] at h
  | ok st =>
    simp only [hl, Except.ok.injEq, Prod.mk.injEq] at h
    have := to_rpn_loop_extension ts _ st hl
    rw [h.2] at this
    exact this

theorem eval_extension (A : Arith F) (R : Registry F) (expr : Str) (r : EvalReturn F)
    (m1 : List (Str × Int)) (h : eval A R expr = .ok (r, m1)) :
    ZeroExtension R.operator_priority m1 := by
  simp only [eval] at h
  cases ht : tokenize A expr with
  | error e => simp [ht] at h
  | ok toks =>
    simp only [ht] at h
    cases hr : to_rpn R.operator_priority toks with
    | error e => simp [hr] at h
    | ok p =>
      obtain ⟨rpn, m⟩ := p
      simp only [hr] at h
      cases he : evalTokens A R rpn with
      | error e => simp [he] at h
      | ok v =>
        simp only [he, Except.ok.injEq, Prod.mk.injEq] at h
        rw [← h.2]
        exact to_rpn_extension _ _ _ _ hr

/-- The operator loop reads the table only through the priorities. -/
theorem operationLoop_congr (op : Str) :
    ∀ (stack result : List (Token F)) (m m2 : List (Str × Int)),
      (∀ s, priorityOf m s = priorityOf m2 s) →
      (operationLoop op result stack m).result = (operationLoop op result stack m2).result ∧
      (operationLoop op result stack m).stack = (operationLoop op result stack m2).stack ∧
      ∀ s, priorityOf (operationLoop op result stack m).operator_priority s =
        priorityOf (operationLoop op result stack m2).operator_priority s := by
  intro stack
  induction stack with
  | nil => intro result m m2 h; exact ⟨rfl, rfl, h⟩
  | cons top stack ih =>
    intro result m m2 h
    have hv : (check_priority m op top.str).1 = (check_priority m2 op top.str).1 := by
      rw [check_priority_value, check_priority_value, h, h]
    have he : ∀ s, priorityOf (check_priority m op top.str).2 s =
        priorityOf (check_priority m2 op top.str).2 s := by
      intro s
      rw [(check_priority_extension m op top.str).priorityOf,
        (check_priority_extension m2 op top.str).priorityOf, h]
    simp only [operationLoop, hv]
    split_ifs
    · exact ih _ _ _ he
    · exact ⟨rfl, rfl, he⟩

theorem to_rpn_step_congr (result stack : List (Token F)) (m m2 : List (Str × Int))
    (t : Token F) (h : ∀ s, priorityOf m s = priorityOf m2 s) :
    RpnAgree
      (to_rpn_step { result := result, stack := stack, operator_priority := m } t)
      (to_rpn_step { result := result, stack := stack, operator_priority := m2 } t) := by
  cases t with
  | Number x => exact ⟨rfl, rfl, h⟩
  | Ident s => exact ⟨rfl, rfl, h⟩
  | Operation s =>
    obtain ⟨h1, h2, h3⟩ := operationLoop_congr s stack result m m2 h
    simp only [to_rpn_step, Token.type, Token.str, RpnAgree]
    exact ⟨h1, by rw [h2], h3⟩
  | Comma => exact ⟨rfl, rfl, h⟩
  | OpenBracket => exact ⟨rfl, rfl, h⟩
  | CloseBracket =>
    simp only [to_rpn_step, Token.type]
    cases hc : closeBracketLoop result stack with
    | error e => simp [RpnAgree]
    | ok r =>
      obtain ⟨result1, stack1⟩ := r
      cases stack1 with
      | nil => exact ⟨rfl, rfl, h⟩
      | cons top rest =>
        simp only
        split_ifs
        · exact ⟨rfl, rfl, h⟩
        · exact ⟨rfl, rfl, h⟩

theorem to_rpn_loop_congr :
    ∀ (ts : List (Token F)) (result stack : List (Token F)) (m m2 : List (Str × Int)),
      (∀ s, priorityOf m s = priorityOf m2 s) →
      RpnAgree
        (to_rpn_loop ts { result := result, stack := stack, operator_priority := m })
        (to_rpn_loop ts { result := result, stack := stack, operator_priority := m2 }) := by
  intro ts
  induction ts with
  | nil => intro result stack m m2 h; exact ⟨rfl, rfl, h⟩
  | cons t ts ih =>
    intro result stack m m2 h
    have hs := to_rpn_step_congr result stack m m2 t h
    simp only [to_rpn_loop]
    cases h1 : to_rpn_step { result := result, stack := stack, operator_priority := m } t with
    | error e =>
      cases h2 : to_rpn_step { result := result, stack := stack, operator_priority := m2 } t with
      | error e2 =>
        rw [h1, h2] at hs
        exact hs
      | ok s2 => rw [h1, h2] at hs; exact hs.elim
    | ok s1 =>
      cases h2 : to_rpn_step { result := result, stack := stack, operator_priority := m2 } t with
      | error e2 => rw [h1, h2] at hs; exact hs.elim
      | ok s2 =>
        rw [h1, h2] at hs
        obtain ⟨r1, st1, m1⟩ := s1
        obtain ⟨r2, st2, m3⟩ := s2
        obtain ⟨e1, e2, e3⟩ := hs
        simp only at e1 e2 e3
        subst e1; subst e2
        exact ih _ _ _ _ e3

/-- The vector that `to_rpn` returns, or the way it fails, depends on the table only
through the priorities read from it. -/
theorem to_rpn_congr (m m2 : List (Str × Int)) (ts : List (Token F))
    (h : ∀ s, priorityOf m s = priorityOf m2 s) :
    (to_rpn m ts).map Prod.fst = (to_rpn m2 ts).map Prod.fst ∧
    ∀ r1 r2 t1 t2, to_rpn m ts = .ok (r1, t1) → to_rpn m2 ts = .ok (r2, t2) →
      ∀ s, priorityOf t1 s = priorityOf t2 s := by
  have hl := to_rpn_loop_congr ts [] [] m m2 h
  simp only [to_rpn]
  cases h1 : to_rpn_loop ts { result := [], stack := [], operator_priority := m } with
  | error e =>
    cases h2 : to_rpn_loop ts { result := [], stack := [], operator_priority := m2 } with
    | error e2 =>
      rw [h1, h2] at hl
      simp only [RpnAgree] at hl
      simp [Except.map, hl]
    | ok s2 => rw [h1, h2] at hl; exact hl.elim
  | ok s1 =>
    cases h2 : to_rpn_loop ts { result := [], stack := [], operator_priority := m2 } with
    | error e2 => rw [h1, h2] at hl; exact hl.elim
    | ok s2 =>
      rw [h1, h2] at hl
      obtain ⟨e1, e2, e3⟩ := hl
      refine ⟨by simp [Except.map, e1, e2], ?_⟩
      intro r1 r2 t1 t2 ha hb s
      simp only [Except.ok.injEq, Prod.mk.injEq] at ha hb
      rw [← ha.2, ← hb.2]
      exact e3 s

/-- The evaluator does not read the priority table. -/
theorem evalLoop_table (R : Registry F) (m : List (Str × Int)) :
    ∀ (ts : List (Token F)) (stack : List F),
      evalLoop { R with operator_priority := m } ts stack = evalLoop R ts stack := by
  intro ts
  induction ts with
  | nil => intro stack; rfl
  | cons t ts ih =>
    intro stack
    cases t with
    | Number x => simp only [evalLoop]; exact ih _
    | Ident s =>
      simp only [evalLoop]
      cases mapFind R.functions s with
      | none => rfl
      | some f =>
        simp only
        cases popArgs f.n [] stack with
        | error e => rfl
        | ok r =>
          obtain ⟨args, stack1⟩ := r
          simp only
          cases f.func args.reverse with
          | none => rfl
          | some v => exact ih _
    | Operation s =>
      simp only [evalLoop]
      cases mapFind R.operators s with
      | none => rfl
      | some f =>
        match stack with
        | [] => rfl
        | [_] => rfl
        | b :: a :: stack1 => exact ih _
    | Comma => simp only [evalLoop]; exact ih _
    | OpenBracket => simp only [evalLoop]; exact ih _
    | CloseBracket => simp only [evalLoop]; exact ih _

theorem evalTokens_table (A : Arith F) (R : Registry F) (m : List (Str × Int))
    (ts : List (Token F)) :
    evalTokens A { R with operator_priority := m } ts = evalTokens A R ts := by
  simp only [evalTokens, evalLoop_table]

/-- What `eval` prints and returns, or the way it fails, depends on the priority table only
through the priorities read from it. -/
theorem eval_congr (A : Arith F) (R : Registry F) (m m2 : List (Str × Int)) (expr : Str)
    (h : ∀ s, priorityOf m s = priorityOf m2 s) :
    (eval A { R with operator_priority := m } expr).map Prod.fst =
      (eval A { R with operator_priority := m2 } expr).map Prod.fst := by
  simp only [eval]
  cases ht : tokenize A expr with
  | error e => rfl
  | ok toks =>
    simp only
    have hc := (to_rpn_congr m m2 toks h).1
    cases h1 : to_rpn m toks with
    | error e =>
      cases h2 : to_rpn m2 toks with
      | error e2 =>
        rw [h1, h2] at hc
        simp only [Except.map, Except.error.injEq] at hc
        simp [Except.map, hc]
      | ok p2 => rw [h1, h2] at hc; simp [Except.map] at hc
    | ok p1 =>
      cases h2 : to_rpn m2 toks with
      | error e2 => rw [h1, h2] at hc; simp [Except.map] at hc
      | ok p2 =>
        rw [h1, h2] at hc
        obtain ⟨r1, t1⟩ := p1
        obtain ⟨r2, t2⟩ := p2
        simp only [Except.map, Except.ok.injEq] at hc
        subst hc
        simp only
        rw [evalTokens_table A R m, evalTokens_table A R m2]
        cases evalTokens A R r1 <;> rfl

theorem tableAfter_extension (A : Arith F) (R : Registry F) :
    ∀ (exprs : List Str) (m m1 : List (Str × Int)),
      tableAfter A R exprs m = some m1 → ZeroExtension m m1 := by
  intro exprs
  induction exprs with
  | nil =>
    intro m m1 h
    simp only [tableAfter, Option.some.injEq] at h
    subst h; exact ZeroExtension.refl _
  | cons e es ih =>
    intro m m1 h
    simp only [tableAfter] at h
    cases he : eval A { R with operator_priority := m } e with
    | error x => simp [he] at h
    | ok r =>
      simp only [he] at h
      exact (eval_extension A _ e r.1 r.2 he).trans (ih _ _ h)

/-- C13 (counterexample). On the tokens of `(1 + 2)` the operator `+` is compared with the
bracket on the stack, whose `str` is empty: `check_priority` subscripts the priority table
with `""`, and the table that `to_rpn` and `eval` leave behind has one entry more than the
table that `init_expr` built. -/
theorem priority_table_gains_entry :
    to_rpn (init_expr sampleArith).operator_priority
        [Token.OpenBracket, Token.Number (decimalValue ['1']), Token.Operation ['+'],
          Token.Number (decimalValue ['2']), Token.CloseBracket] =
      .ok ([Token.Number (decimalValue ['1']), Token.Number (decimalValue ['2']),
        Token.Operation ['+']], (init_expr sampleArith).operator_priority ++ [([], 0)]) ∧
    eval sampleArith (init_expr sampleArith) ("(1 + 2)".toList) =
      .ok ({ printed := none,
             value := sampleArith.add (decimalValue ['1']) (decimalValue ['2']) },
        (init_expr sampleArith).operator_priority ++ [([], 0)]) ∧
    (init_expr sampleArith).operator_priority ++ [([], 0)] ≠
      (init_expr sampleArith).operator_priority :=
  ⟨rfl, rfl, by decide⟩

/-- C13 (amended). A run of `to_rpn` or of `eval` that returns leaves a priority table that
is the table it started on, entry for entry, followed by entries of priority 0 for the
looked-up symbols the table did not have; the priority read for any symbol is the same
before and after. The operator and function tables are subscripted only where `find` has
found the key, and there `operator[]` returns the stored value and the same map. -/
theorem registry_gains_only_zero_priorities :
    (∀ {F : Type} (m m1 : List (Str × Int)) (ts r : List (Token F)),
      to_rpn m ts = .ok (r, m1) →
      ZeroExtension m m1 ∧ ∀ s, priorityOf m1 s = priorityOf m s) ∧
    (∀ {F : Type} (A : Arith F) (R : Registry F) (expr : Str) (r : EvalReturn F)
      (m1 : List (Str × Int)),
      eval A R expr = .ok (r, m1) →
      ZeroExtension R.operator_priority m1 ∧
        ∀ s, priorityOf m1 s = priorityOf R.operator_priority s) ∧
    (∀ {V : Type} (dflt : V) (m : List (Str × V)) (key : Str) (v : V),
      mapFind m key = some v → mapSubscript dflt m key = (v, m)) := by
  refine ⟨?_, ?_, ?_⟩
  · intro F m m1 ts r h
    have := to_rpn_extension m m1 ts r h
    exact ⟨this, this.priorityOf⟩
  · intro F A R expr r m1 h
    have := eval_extension A R expr r m1 h
    exact ⟨this, this.priorityOf⟩
  · intro V dflt m key v h
    simp only [mapSubscript, h]

theorem registry_gains_only_zero_priorities_witness :
    to_rpn (init_expr sampleArith).operator_priority
        [Token.OpenBracket, Token.Number (1 : ℚ), Token.Operation ['*'], Token.Number 2,
          Token.CloseBracket] =
      .ok ([Token.Number 1, Token.Number 2, Token.Operation ['*']],
        (init_expr sampleArith).operator_priority ++ [([], 0)]) ∧
    (ZeroExtension (init_expr sampleArith).operator_priority
        ((init_expr sampleArith).operator_priority ++ [([], 0)]) ∧
      ∀ s, priorityOf ((init_expr sampleArith).operator_priority ++ [([], 0)]) s =
        priorityOf (init_expr sampleArith).operator_priority s) :=
  ⟨rfl, registry_gains_only_zero_priorities.1 _ _
    [Token.OpenBracket, Token.Number (1 : ℚ), Token.Operation ['*'], Token.Number 2,
      Token.CloseBracket] _ rfl⟩

/-- C14. Repeatability: after any sequence of earlier expressions whose evaluations
returned, each run on the priority table the one before left, `eval` of `s` prints and
returns the same, or fails the same way, as `eval` of `s` on the table the sequence started
from (the table of `init_expr` in particular); and so does `to_rpn` on every token
sequence. -/
theorem evaluation_is_repeatable :
    ∀ {F : Type} (A : Arith F) (R : Registry F) (earlier : List Str) (s : Str)
      (m : List (Str × Int)),
      tableAfter A R earlier R.operator_priority = some m →
      (eval A { R with operator_priority := m } s).map Prod.fst =
          (eval A R s).map Prod.fst ∧
        ∀ ts : List (Token F),
          (to_rpn m ts).map Prod.fst = (to_rpn R.operator_priority ts).map Prod.fst := by
  intro F A R earlier s m h
  have hext := tableAfter_extension A R earlier _ _ h
  constructor
  · have := eval_congr A R m R.operator_priority s hext.priorityOf
    obtain ⟨p, o, f⟩ := R
    exact this
  · intro ts
    exact (to_rpn_congr m R.operator_priority ts hext.priorityOf).1

theorem evaluation_is_repeatable_witness :
    tableAfter sampleArith (init_expr sampleArith) ["(1 + 2)".toList, "foo(1)".toList]
        (init_expr sampleArith).operator_priority =
      some ((init_expr sampleArith).operator_priority ++ [([], 0)]) ∧
    ((eval sampleArith
        { init_expr sampleArith with
          operator_priority := (init_expr sampleArith).operator_priority ++ [([], 0)] }
        ("2 * (3 + 4)".toList)).map Prod.fst =
      (eval sampleArith (init_expr sampleArith) ("2 * (3 + 4)".toList)).map Prod.fst ∧
    ∀ ts : List (Token ℚ),
      (to_rpn ((init_expr sampleArith).operator_priority ++ [([], 0)]) ts).map Prod.fst =
        (to_rpn (init_expr sampleArith).operator_priority ts).map Prod.fst) :=
  ⟨rfl, evaluation_is_repeatable sampleArith (init_expr sampleArith)
    ["(1 + 2)".toList, "foo(1)".toList] ("2 * (3 + 4)".toList) _ rfl⟩

/-! ## The evaluator on post-order sequences -/

theorem popArgs_append :
    ∀ (xs acc stack : List F), popArgs xs.length acc (xs ++ stack) = .ok (acc ++ xs, stack) := by
  intro xs
  induction xs with
  | nil => intro acc stack; simp [popArgs]
  | cons x xs ih =>
    intro acc stack
    simp only [List.length_cons, List.cons_append, popArgs, List.append_eq]
    rw [ih]
    simp

mutual
theorem evalLoop_postorder (R : Registry F) :
    ∀ (t : Tree F) (v : F) (rest : List (Token F)) (stack : List F),
      t.value R = some v →
      evalLoop R (t.postorder ++ rest) stack = evalLoop R rest (v :: stack)
  | Tree.num x, v, rest, stack, h => by
    simp only [Tree.value, Option.some.injEq] at h
    subst h
    rfl
  | Tree.op s l r, v, rest, stack, h => by
    simp only [Tree.value] at h
    cases hf : mapFind R.operators s with
    | none => simp [hf] at h
    | some f =>
      cases hl : l.value R with
      | none => simp [hf, hl] at h
      | some a =>
        cases hr : r.value R with
        | none => simp [hf, hl, hr] at h
        | some b =>
          simp only [hf, hl, hr, Option.some.injEq] at h
          subst h
          simp only [Tree.postorder, List.append_assoc]
          rw [evalLoop_postorder R l a _ _ hl, evalLoop_postorder R r b _ _ hr]
          simp only [List.singleton_append, evalLoop, hf, List.append_eq, List.nil_append]
  | Tree.call name args, v, rest, stack, h => by
    simp only [Tree.value] at h
    cases hf : mapFind R.functions name with
    | none => simp [hf] at h
    | some fn =>
      cases ha : args.values R with
      | none => simp [hf, ha] at h
      | some vs =>
        simp only [hf, ha] at h
        split_ifs at h with hn
        simp only [Tree.postorder, List.append_assoc]
        rw [evalLoop_postorderList R args vs _ _ ha]
        have hp := popArgs_append vs.reverse [] stack
        rw [List.length_reverse, hn] at hp
        simp only [List.singleton_append, evalLoop, hf, hp, List.nil_append,
          List.reverse_reverse, h, List.append_eq]
theorem evalLoop_postorderList (R : Registry F) :
    ∀ (ts : TreeList F) (vs : List F) (rest : List (Token F)) (stack : List F),
      ts.values R = some vs →
      evalLoop R (ts.postorder ++ rest) stack = evalLoop R rest (vs.reverse ++ stack)
  | TreeList.nil, vs, rest, stack, h => by
    simp only [TreeList.values, Option.some.injEq] at h
    subst h
    rfl
  | TreeList.cons t ts, vs, rest, stack, h => by
    simp only [TreeList.values] at h
    cases ht : t.value R with
    | none => simp [ht] at h
    | some v =>
      cases hs : ts.values R with
      | none => simp [ht, hs] at h
      | some ws =>
        simp only [ht, hs, Option.some.injEq] at h
        subst h
        simp only [TreeList.postorder, List.append_assoc]
        rw [evalLoop_postorder R t v _ _ ht, evalLoop_postorderList R ts ws _ _ hs]
        simp
end

mutual
theorem wellFormed_value (A : Arith F) :
    ∀ (t : Tree F), t.wellFormed (init_expr A) = true → ∃ v, t.value (init_expr A) = some v
  | Tree.num x, _ => ⟨x, rfl⟩
  | Tree.op s l r, h => by
    simp only [Tree.wellFormed, Bool.and_eq_true, Option.isSome_iff_exists] at h
    obtain ⟨⟨⟨f, hf⟩, hl⟩, hr⟩ := h
    obtain ⟨a, ha⟩ := wellFormed_value A l hl
    obtain ⟨b, hb⟩ := wellFormed_value A r hr
    exact ⟨f a b, by simp only [Tree.value, hf, ha, hb]⟩
  | Tree.call name args, h => by
    simp only [Tree.wellFormed, Bool.and_eq_true] at h
    obtain ⟨h1, h2⟩ := h
    obtain ⟨vs, hvs, hlen⟩ := wellFormed_values A args h2
    cases hf : mapFind (init_expr A).functions name with
    | none => simp [hf] at h1
    | some fn =>
      simp only [hf, decide_eq_true_eq] at h1
      have hn : vs.length = fn.n := by rw [hlen, h1]
      rcases registered_function A hf with ⟨_, rfl⟩ | ⟨_, rfl⟩ | ⟨_, rfl⟩
      · obtain ⟨x, rfl⟩ : ∃ x, vs = [x] := List.length_eq_one.mp hn
        exact ⟨A.sin x, by simp [Tree.value, hf, hvs]⟩
      · obtain ⟨x, rfl⟩ : ∃ x, vs = [x] := List.length_eq_one.mp hn
        exact ⟨A.cos x, by simp [Tree.value, hf, hvs]⟩
      · obtain ⟨x, y, rfl⟩ : ∃ x y, vs = [x, y] := List.length_eq_two.mp hn
        exact ⟨A.pow x y, by simp [Tree.value, hf, hvs]⟩
theorem wellFormed_values (A : Arith F) :
    ∀ (ts : TreeList F), ts.wellFormed (init_expr A) = true →
      ∃ vs, ts.values (init_expr A) = some vs ∧ vs.length = ts.length
  | TreeList.nil, _ => ⟨[], rfl, rfl⟩
  | TreeList.cons t ts, h => by
    simp only [TreeList.wellFormed, Bool.and_eq_true] at h
    obtain ⟨v, hv⟩ := wellFormed_value A t h.1
    obtain ⟨vs, hvs, hlen⟩ := wellFormed_values A ts h.2
    exact ⟨v :: vs, by simp only [TreeList.values, hv, hvs], by simp [TreeList.length, hlen]⟩
end

/-- C15. RPN evaluator correctness: for every expression tree that has a value over the
registry (numbers, registered operators applied as `f(left, right)`, registered functions
applied to the vector of their arity-many argument values, left to right), `eval` on the
post-order token sequence of the tree returns that value and prints no diagnostic; over
the registry of `init_expr` every well-formed tree has a value, so is evaluated so. -/
theorem postorder_evaluates_to_value :
    (∀ {F : Type} (A : Arith F) (R : Registry F) (t : Tree F) (v : F),
      t.value R = some v →
      evalTokens A R t.postorder = .ok { printed := none, value := v }) ∧
    (∀ {F : Type} (A : Arith F) (t : Tree F),
      t.wellFormed (init_expr A) = true →
      ∃ v, t.value (init_expr A) = some v ∧
        evalTokens A (init_expr A) t.postorder = .ok { printed := none, value := v }) := by
  have h1 : ∀ {F : Type} (A : Arith F) (R : Registry F) (t : Tree F) (v : F),
      t.value R = some v →
      evalTokens A R t.postorder = .ok { printed := none, value := v } := by
    intro F A R t v h
    have := evalLoop_postorder R t v [] [] h
    rw [List.append_nil] at this
    simp only [evalTokens, this, evalLoop]
  refine ⟨h1, ?_⟩
  intro F A t h
  obtain ⟨v, hv⟩ := wellFormed_value A t h
  exact ⟨v, hv, h1 A _ t v hv⟩

theorem postorder_evaluates_to_value_witness :
    (Tree.call ['p', 'o', 'w']
        (TreeList.cons (Tree.op ['+'] (Tree.num 1) (Tree.num 2))
          (TreeList.cons (Tree.num 3) TreeList.nil))).wellFormed (init_expr sampleArith) =
      true ∧
    ∃ v, (Tree.call ['p', 'o', 'w']
        (TreeList.cons (Tree.op ['+'] (Tree.num 1) (Tree.num 2))
          (TreeList.cons (Tree.num 3) TreeList.nil))).value (init_expr sampleArith) = some v ∧
      evalTokens sampleArith (init_expr sampleArith)
        (Tree.call ['p', 'o', 'w']
          (TreeList.cons (Tree.op ['+'] (Tree.num 1) (Tree.num 2))
            (TreeList.cons (Tree.num 3) TreeList.nil))).postorder =
        .ok { printed := none, value := v } :=
  ⟨rfl, postorder_evaluates_to_value.2 sampleArith _ rfl⟩

/-! ## The converter on bracketed input -/

theorem registered_priority_pos (A : Arith F) {s : Str}
    (h : (mapFind (init_expr A).operators s).isSome = true) :
    0 < priorityOf (init_expr A).operator_priority s := by
  obtain ⟨f, hf⟩ := Option.isSome_iff_exists.mp h
  rcases registered_operator A hf with ⟨rfl, _⟩ | ⟨rfl, _⟩ | ⟨rfl, _⟩ | ⟨rfl, _⟩ | ⟨rfl, _⟩ <;>
    simp [priorityOf, mapIndex, mapFind, init_expr]

theorem empty_priority_zero (A : Arith F) :
    priorityOf (init_expr A).operator_priority [] = 0 := by
  simp [priorityOf, mapIndex, mapFind, init_expr]

/-- On the bracketed rendering of a tree the converter appends the post-order sequence of
the tree to the result and leaves the stack as it found it. -/
theorem to_rpn_loop_render (A : Arith F) :
    ∀ (t : OpTree F) (rest result stack : List (Token F)) (m : List (Str × Int)),
      t.registered (init_expr A) = true →
      (∀ s, priorityOf m s = priorityOf (init_expr A).operator_priority s) →
      (∀ top tl, stack = top :: tl → top.type ≠ TokenType.Ident) →
      ∃ m1, ZeroExtension m m1 ∧
        to_rpn_loop (t.render ++ rest)
            { result := result, stack := stack, operator_priority := m } =
          to_rpn_loop rest
            { result := result ++ t.postorder, stack := stack, operator_priority := m1 } := by
  intro t
  induction t with
  | num x =>
    intro rest result stack m _ _ _
    exact ⟨m, ZeroExtension.refl m, rfl⟩
  | op s l r ihl ihr =>
    intro rest result stack m hreg hm hstk
    simp only [OpTree.registered, Bool.and_eq_true] at hreg
    obtain ⟨⟨hs, hl⟩, hr⟩ := hreg
    -- the opening bracket and the left operand
    obtain ⟨m1, e1, h1⟩ := ihl (Token.Operation s :: (r.render ++ (Token.CloseBracket :: rest)))
      result (Token.OpenBracket :: stack) m hl hm
      (fun top tl h => by
        simp only [List.cons.injEq] at h
        rw [← h.1]; simp [Token.type])
    have hm1 : ∀ k, priorityOf m1 k = priorityOf (init_expr A).operator_priority k :=
      fun k => (e1.priorityOf k).trans (hm k)
    -- the operator meets the bracket
    have hcp : ¬ (check_priority m1 s (Token.OpenBracket : Token F).str).1 ≤ 0 := by
      rw [check_priority_value, hm1, hm1]
      have := registered_priority_pos A hs
      simp only [Token.str, empty_priority_zero]
      omega
    have e2 := check_priority_extension m1 s (Token.OpenBracket : Token F).str
    have hm2 : ∀ k, priorityOf (check_priority m1 s (Token.OpenBracket : Token F).str).2 k =
        priorityOf (init_expr A).operator_priority k :=
      fun k => (e2.priorityOf k).trans (hm1 k)
    -- the right operand
    obtain ⟨m3, e3, h3⟩ := ihr (Token.CloseBracket :: rest) (result ++ l.postorder)
      (Token.Operation s :: Token.OpenBracket :: stack)
      (check_priority m1 s (Token.OpenBracket : Token F).str).2 hr hm2
      (fun top tl h => by
        simp only [List.cons.injEq] at h
        rw [← h.1]; simp [Token.type])
    refine ⟨m3, e1.trans (e2.trans e3), ?_⟩
    have hclose : closeBracketLoop (result ++ l.postorder ++ r.postorder)
        (Token.Operation s :: Token.OpenBracket :: stack) =
        .ok (result ++ l.postorder ++ r.postorder ++ [Token.Operation s], stack) := by
      simp [closeBracketLoop, Token.type]
    have hstep : to_rpn_step
        { result := result ++ l.postorder ++ r.postorder,
          stack := Token.Operation s :: Token.OpenBracket :: stack,
          operator_priority := m3 } (Token.CloseBracket : Token F) =
        .ok { result := result ++ l.postorder ++ r.postorder ++ [Token.Operation s],
              stack := stack, operator_priority := m3 } := by
      have ht : (Token.CloseBracket : Token F).type = TokenType.CloseBracket := rfl
      simp only [to_rpn_step, ht, hclose]
      cases stack with
      | nil => rfl
      | cons top tl =>
        have := hstk top tl rfl
        simp only [this, if_false]
    have hop : to_rpn_step
        { result := result ++ l.postorder, stack := Token.OpenBracket :: stack,
          operator_priority := m1 } (Token.Operation s) =
        .ok { result := result ++ l.postorder,
              stack := Token.Operation s :: Token.OpenBracket :: stack,
              operator_priority := (check_priority m1 s (Token.OpenBracket : Token F).str).2 } := by
      have ht : (Token.Operation s : Token F).type = TokenType.Operation := rfl
      have hs2 : (Token.Operation s : Token F).str = s := rfl
      simp only [to_rpn_step, ht, hs2, operationLoop, hcp, if_false]
    calc to_rpn_loop ((OpTree.op s l r).render ++ rest)
          { result := result, stack := stack, operator_priority := m }
        = to_rpn_loop (l.render ++ Token.Operation s :: (r.render ++ Token.CloseBracket :: rest))
          { result := result, stack := Token.OpenBracket :: stack, operator_priority := m } := by
          simp only [OpTree.render, List.cons_append, List.append_assoc, List.nil_append]
          rfl
      _ = to_rpn_loop (Token.Operation s :: (r.render ++ Token.CloseBracket :: rest))
          { result := result ++ l.postorder, stack := Token.OpenBracket :: stack,
            operator_priority := m1 } := h1
      _ = to_rpn_loop (r.render ++ Token.CloseBracket :: rest)
          { result := result ++ l.postorder,
            stack := Token.Operation s :: Token.OpenBracket :: stack,
            operator_priority := (check_priority m1 s (Token.OpenBracket : Token F).str).2 } := by
          rw [to_rpn_loop, hop]
      _ = to_rpn_loop (Token.CloseBracket :: rest)
          { result := result ++ l.postorder ++ r.postorder,
            stack := Token.Operation s :: Token.OpenBracket :: stack,
            operator_priority := m3 } := h3
      _ = to_rpn_loop rest
          { result := result ++ (OpTree.op s l r).postorder, stack := stack,
            operator_priority := m3 } := by
          rw [to_rpn_loop, hstep]
          simp only [OpTree.postorder, List.append_assoc]

theorem postorder_no_bracket :
    ∀ (t : OpTree F), ∀ tok ∈ t.postorder,
      tok.type ≠ TokenType.OpenBracket ∧ tok.type ≠ TokenType.CloseBracket := by
  intro t
  induction t with
  | num x =>
    intro tok h
    simp only [OpTree.postorder, List.mem_singleton] at h
    subst h
    simp [Token.type]
  | op s l r ihl ihr =>
    intro tok h
    simp only [OpTree.postorder, List.mem_append, List.mem_singleton] at h
    rcases h with h | h | h
    · exact ihl tok h
    · exact ihr tok h
    · subst h
      simp [Token.type]

/-- C16. Shunting-yard correctness on bracketed input: for every expression tree of numbers
and registered binary operators, `to_rpn` run on the priority table of `init_expr` and on
the infix rendering of the tree in which every operator node stands in its own pair of
brackets returns exactly the post-order token sequence of the tree, which holds no bracket
token. -/
theorem bracketed_tree_converts_to_postorder {F : Type} (A : Arith F) (t : OpTree F)
    (h : t.registered (init_expr A) = true) :
    ∃ m1, to_rpn (init_expr A).operator_priority t.render = .ok (t.postorder, m1) ∧
      ∀ tok ∈ t.postorder,
        tok.type ≠ TokenType.OpenBracket ∧ tok.type ≠ TokenType.CloseBracket := by
  obtain ⟨m1, _, h1⟩ := to_rpn_loop_render A t [] [] [] (init_expr A).operator_priority h
    (fun _ => rfl) (fun top tl hh => by simp at hh)
  refine ⟨m1, ?_, postorder_no_bracket t⟩
  rw [List.append_nil] at h1
  simp only [to_rpn, h1, to_rpn_loop, List.nil_append, List.append_nil]

theorem bracketed_tree_converts_to_postorder_witness :
    (OpTree.op ['*'] (OpTree.op ['+'] (OpTree.num (1 : ℚ)) (OpTree.num 2))
        (OpTree.num 3)).registered (init_expr sampleArith) = true ∧
    (OpTree.op ['*'] (OpTree.op ['+'] (OpTree.num (1 : ℚ)) (OpTree.num 2))
        (OpTree.num 3)).render =
      [Token.OpenBracket, Token.OpenBracket, Token.Number 1, Token.Operation ['+'],
        Token.Number 2, Token.CloseBracket, Token.Operation ['*'], Token.Number 3,
        Token.CloseBracket] ∧
    ∃ m1, to_rpn (init_expr sampleArith).operator_priority
        (OpTree.op ['*'] (OpTree.op ['+'] (OpTree.num (1 : ℚ)) (OpTree.num 2))
          (OpTree.num 3)).render =
        .ok ((OpTree.op ['*'] (OpTree.op ['+'] (OpTree.num (1 : ℚ)) (OpTree.num 2))
          (OpTree.num 3)).postorder, m1) ∧
      ∀ tok ∈ (OpTree.op ['*'] (OpTree.op ['+'] (OpTree.num (1 : ℚ)) (OpTree.num 2))
          (OpTree.num 3)).postorder,
        tok.type ≠ TokenType.OpenBracket ∧ tok.type ≠ TokenType.CloseBracket :=
  ⟨rfl, rfl, bracketed_tree_converts_to_postorder sampleArith _ rfl⟩

/-! ## What the converter moves -/

/-- The operator loop moves an initial part of the stack to the result. -/
theorem operationLoop_shape (op : Str) :
    ∀ (stack result : List (Token F)) (m : List (Str × Int)),
      ∃ popped, (operationLoop op result stack m).result = result ++ popped ∧
        stack = popped ++ (operationLoop op result stack m).stack := by
  intro stack
  induction stack with
  | nil => intro result m; exact ⟨[], by simp [operationLoop], by simp [operationLoop]⟩
  | cons top stack ih =>
    intro result m
    simp only [operationLoop]
    split_ifs
    · obtain ⟨popped, e1, e2⟩ := ih (result ++ [top]) (check_priority m op top.str).2
      exact ⟨top :: popped, by simp [e1], by rw [List.cons_append, ← e2]⟩
    · exact ⟨[], by simp, by simp⟩

/-- One step of the converter, seen on the tokens only: some tokens go from the top of the
stack to the result, a matched bracket is dropped, and the token read is appended to the
result (a number), pushed (identifier, bracket, operator) or skipped (comma). -/
theorem to_rpn_step_shape (st st1 : RpnState F) (t : Token F)
    (h : to_rpn_step st t = .ok st1) :
    (∀ x ∈ st1.result ++ st1.stack, x ∈ st.result ++ st.stack ∨
      (x = t ∧ t.type ≠ TokenType.Comma ∧ t.type ≠ TokenType.CloseBracket)) ∧
    (∀ x ∈ st1.stack, x ∈ st.stack ∨ (x = t ∧ t.type ≠ TokenType.Number)) ∧
    ∃ moved, st1.result = st.result ++ (if t.type = TokenType.Number then [t] else []) ++ moved ∧
      ∀ x ∈ moved, x ∈ st.stack := by
  cases t with
  | Number x =>
    simp only [to_rpn_step, Token.type, Except.ok.injEq] at h
    subst h
    refine ⟨?_, ?_, [], by simp [Token.type], by simp⟩
    · intro y hy
      simp only [List.mem_append, List.mem_singleton] at hy ⊢
      rcases hy with (hy | hy) | hy
      · exact Or.inl (Or.inl hy)
      · exact Or.inr ⟨hy, by simp [Token.type]⟩
      · exact Or.inl (Or.inr hy)
    · intro y hy; exact Or.inl hy
  | Ident s =>
    simp only [to_rpn_step, Token.type, Except.ok.injEq] at h
    subst h
    refine ⟨?_, ?_, [], by simp [Token.type], by simp⟩
    · intro y hy
      simp only [List.mem_append, List.mem_cons] at hy ⊢
      rcases hy with hy | hy | hy
      · exact Or.inl (Or.inl hy)
      · exact Or.inr ⟨hy, by simp [Token.type]⟩
      · exact Or.inl (Or.inr hy)
    · intro y hy
      rcases List.mem_cons.mp hy with hy | hy
      · exact Or.inr ⟨hy, by simp [Token.type]⟩
      · exact Or.inl hy
  | OpenBracket =>
    simp only [to_rpn_step, Token.type, Except.ok.injEq] at h
    subst h
    refine ⟨?_, ?_, [], by simp [Token.type], by simp⟩
    · intro y hy
      simp only [List.mem_append, List.mem_cons] at hy ⊢
      rcases hy with hy | hy | hy
      · exact Or.inl (Or.inl hy)
      · exact Or.inr ⟨hy, by simp [Token.type]⟩
      · exact Or.inl (Or.inr hy)
    · intro y hy
      rcases List.mem_cons.mp hy with hy | hy
      · exact Or.inr ⟨hy, by simp [Token.type]⟩
      · exact Or.inl hy
  | Comma =>
    simp only [to_rpn_step, Token.type, Except.ok.injEq] at h
    subst h
    exact ⟨fun y hy => Or.inl hy, fun y hy => Or.inl hy, [], by simp [Token.type], by simp⟩
  | Operation s =>
    simp only [to_rpn_step, Token.type, Token.str, Except.ok.injEq] at h
    subst h
    obtain ⟨popped, e1, e2⟩ := operationLoop_shape s st.stack st.result st.operator_priority
    refine ⟨?_, ?_, popped, by simp [e1, Token.type], ?_⟩
    · intro y hy
      simp only [List.mem_append, List.mem_cons] at hy ⊢
      rcases hy with hy | hy | hy
      · rw [e1] at hy
        rcases List.mem_append.mp hy with hy | hy
        · exact Or.inl (Or.inl hy)
        · exact Or.inl (Or.inr (by rw [e2]; exact List.mem_append_left _ hy))
      · exact Or.inr ⟨hy, by simp [Token.type]⟩
      · exact Or.inl (Or.inr (by rw [e2]; exact List.mem_append_right _ hy))
    · intro y hy
      rcases List.mem_cons.mp hy with hy | hy
      · exact Or.inr ⟨hy, by simp [Token.type]⟩
      · exact Or.inl (by rw [e2]; exact List.mem_append_right _ hy)
    · intro y hy
      rw [e2]; exact List.mem_append_left _ hy
  | CloseBracket =>
    simp only [to_rpn_step, Token.type] at h
    cases hc : closeBracketLoop st.result st.stack with
    | error e => simp [hc] at h
    | ok r =>
      obtain ⟨r1, s1⟩ := r
      obtain ⟨popped, top, e1, _, e3, _⟩ := closeBracketLoop_shape _ _ _ _ hc
      simp only [hc] at h
      have hpop : ∀ y ∈ popped, y ∈ st.stack := by
        intro y hy; rw [e1]; exact List.mem_append_left _ hy
      have hs1 : ∀ y ∈ s1, y ∈ st.stack := by
        intro y hy; rw [e1]
        exact List.mem_append_right _ (List.mem_cons_of_mem _ hy)
      have base : ∀ (st2 : RpnState F), st2.result = r1 → st2.stack = s1 →
          (∀ x ∈ st2.result ++ st2.stack, x ∈ st.result ++ st.stack ∨
            (x = Token.CloseBracket ∧
              (Token.CloseBracket : Token F).type ≠ TokenType.Comma ∧
              (Token.CloseBracket : Token F).type ≠ TokenType.CloseBracket)) ∧
          (∀ x ∈ st2.stack, x ∈ st.stack ∨
            (x = Token.CloseBracket ∧
              (Token.CloseBracket : Token F).type ≠ TokenType.Number)) ∧
          ∃ moved, st2.result = st.result ++
              (if (Token.CloseBracket : Token F).type = TokenType.Number
                then [Token.CloseBracket] else []) ++ moved ∧
            ∀ x ∈ moved, x ∈ st.stack := by
        intro st2 h1 h2
        refine ⟨?_, ?_, popped, by simp [h1, e3, Token.type], hpop⟩
        · intro y hy
          rw [h1, h2, e3] at hy
          simp only [List.mem_append] at hy ⊢
          rcases hy with (hy | hy) | hy
          · exact Or.inl (Or.inl hy)
          · exact Or.inl (Or.inr (hpop y hy))
          · exact Or.inl (Or.inr (hs1 y hy))
        · intro y hy
          rw [h2] at hy
          exact Or.inl (hs1 y hy)
      cases s1 with
      | nil =>
        simp only [Except.ok.injEq] at h
        subst h
        exact base _ rfl rfl
      | cons top2 rest =>
        simp only at h
        split_ifs at h with hi
        · simp only [Except.ok.injEq] at h
          subst h
          have htop2 : top2 ∈ st.stack := hs1 top2 (by simp)
          have hrest : ∀ y ∈ rest, y ∈ st.stack := fun y hy => hs1 y (by simp [hy])
          refine ⟨?_, ?_, popped ++ [top2], by simp [e3, Token.type], ?_⟩
          · intro y hy
            rw [e3] at hy
            simp only [List.mem_append, List.mem_singleton] at hy ⊢
            rcases hy with ((hy | hy) | hy) | hy
            · exact Or.inl (Or.inl hy)
            · exact Or.inl (Or.inr (hpop y hy))
            · exact Or.inl (Or.inr (hy ▸ htop2))
            · exact Or.inl (Or.inr (hrest y hy))
          · intro y hy
            exact Or.inl (hrest y hy)
          · intro y hy
            rcases List.mem_append.mp hy with hy | hy
            · exact hpop y hy
            · simp only [List.mem_singleton] at hy
              exact hy ▸ htop2
        · simp only [Except.ok.injEq] at h
          subst h
          exact base _ rfl rfl

theorem to_rpn_loop_withoutCommas :
    ∀ (ts : List (Token F)) (st : RpnState F),
      to_rpn_loop (withoutCommas ts) st = to_rpn_loop ts st := by
  intro ts
  induction ts with
  | nil => intro st; rfl
  | cons t ts ih =>
    intro st
    by_cases hc : t.type = TokenType.Comma
    · have h1 : withoutCommas (t :: ts) = withoutCommas ts := by
        simp [withoutCommas, hc]
      have h2 : to_rpn_step st t = .ok st := by
        simp only [to_rpn_step, hc]
      rw [h1, ih, to_rpn_loop, h2]
    · have h1 : withoutCommas (t :: ts) = t :: withoutCommas ts := by
        simp [withoutCommas, hc]
      rw [h1, to_rpn_loop, to_rpn_loop]
      cases to_rpn_step st t with
      | error e => rfl
      | ok st1 => exact ih st1

theorem to_rpn_loop_no_comma :
    ∀ (ts : List (Token F)) (st st1 : RpnState F), to_rpn_loop ts st = .ok st1 →
      (∀ x ∈ st.result ++ st.stack, x.type ≠ TokenType.Comma) →
      ∀ x ∈ st1.result ++ st1.stack, x.type ≠ TokenType.Comma := by
  intro ts
  induction ts with
  | nil =>
    intro st st1 h hp
    simp only [to_rpn_loop, Except.ok.injEq] at h
    subst h; exact hp
  | cons t ts ih =>
    intro st st1 h hp
    simp only [to_rpn_loop] at h
    cases hs : to_rpn_step st t with
    | error e => simp [hs] at h
    | ok st2 =>
      simp only [hs] at h
      refine ih st2 st1 h ?_
      intro x hx
      rcases (to_rpn_step_shape st st2 t hs).1 x hx with h1 | ⟨h1, h2, _⟩
      · exact hp x h1
      · rw [h1]; exact h2

/-- C17. Comma tokens are discarded by the converter: on every token sequence and every
priority table, `to_rpn` has the same outcome (returned vector and table, or failure) as on
the sequence with every `Comma` token removed, and no `Comma` token is in a vector it
returns. -/
theorem commas_are_discarded :
    (∀ {F : Type} (m : List (Str × Int)) (ts : List (Token F)),
      to_rpn m ts = to_rpn m (withoutCommas ts)) ∧
    (∀ {F : Type} (m m1 : List (Str × Int)) (ts r : List (Token F)),
      to_rpn m ts = .ok (r, m1) → ∀ x ∈ r, x.type ≠ TokenType.Comma) := by
  constructor
  · intro F m ts
    simp only [to_rpn, to_rpn_loop_withoutCommas]
  · intro F m m1 ts r h
    simp only [to_rpn] at h
    cases hl : to_rpn_loop ts { result := [], stack := [], operator_priority := m } with
    | error e => simp [hl] at h
    | ok st =>
      simp only [hl, Except.ok.injEq, Prod.mk.injEq] at h
      rw [← h.1]
      exact to_rpn_loop_no_comma ts _ st hl (by simp)

theorem commas_are_discarded_witness :
    to_rpn (init_expr sampleArith).operator_priority
        [Token.Ident ['p', 'o', 'w'], Token.OpenBracket, Token.Number (2 : ℚ), Token.Comma,
          Token.Number 3, Token.CloseBracket] =
      .ok ([Token.Number 2, Token.Number 3, Token.Ident ['p', 'o', 'w']],
        (init_expr sampleArith).operator_priority) ∧
    ∀ x ∈ [Token.Number (2 : ℚ), Token.Number 3, Token.Ident ['p', 'o', 'w']],
      x.type ≠ TokenType.Comma :=
  ⟨rfl, commas_are_discarded.2 (init_expr sampleArith).operator_priority
    (init_expr sampleArith).operator_priority
    [Token.Ident ['p', 'o', 'w'], Token.OpenBracket, Token.Number (2 : ℚ), Token.Comma,
      Token.Number 3, Token.CloseBracket] _ rfl⟩

/-- An operator of positive priority leaves on the stack a top entry whose `str` has
priority 0, such as an `OpenBracket` (empty `str`) or an identifier: the loop of lines
218-234 stops at once. -/
theorem operationLoop_stops_at_zero (op : Str) (top : Token F) (stack result : List (Token F))
    (m : List (Str × Int)) (hop : 0 < priorityOf m op) (htop : priorityOf m top.str = 0) :
    (operationLoop op result (top :: stack) m).result = result ∧
    (operationLoop op result (top :: stack) m).stack = top :: stack := by
  have h : ¬ (check_priority m op top.str).1 ≤ 0 := by
    rw [check_priority_value, htop]
    omega
  simp only [operationLoop, h, if_false, and_self]

/-- C18 (the code at the failing input). The operator loop compares the priority of the
operator with the priority of the `str` of whatever is on top of the stack. For the
unregistered `%` both are 0, so on the tokens of `(1 % 2)`, with `x y` the values `std::stod`
returns for `1` and `2`, the step of `%` moves the `OpenBracket` from the stack to the
result; the closing bracket then finds no `OpenBracket` and reads the top of an empty
stack, and `to_rpn` has no defined result. Without the closing bracket the `OpenBracket` is
in the returned vector, and an identifier on the stack is moved to the result in the same
way. -/
theorem unregistered_operator_pops_bracket :
    (∀ {F : Type} (A : Arith F) (x y : F),
      (A.stod ['1'] = some x → A.stod ['2'] = some y →
        tokenize A ("(1 % 2)".toList) =
          .ok [Token.OpenBracket, Token.Number x, Token.Operation ['%'],
            Token.Number y, Token.CloseBracket]) ∧
      to_rpn_step
          { result := [Token.Number x], stack := [Token.OpenBracket],
            operator_priority := (init_expr A).operator_priority }
          (Token.Operation ['%']) =
        .ok { result := [Token.Number x, Token.OpenBracket],
              stack := [Token.Operation ['%']],
              operator_priority := (init_expr A).operator_priority ++ [(['%'], 0), ([], 0)] } ∧
      to_rpn (init_expr A).operator_priority
          [Token.OpenBracket, Token.Number x, Token.Operation ['%'],
            Token.Number y, Token.CloseBracket] =
        .error Fault.undefinedBehaviour ∧
      (A.stod ['1'] = some x → A.stod ['2'] = some y →
        eval A (init_expr A) ("(1 % 2)".toList) = .error Fault.undefinedBehaviour) ∧
      to_rpn (init_expr A).operator_priority
          [Token.OpenBracket, Token.Number x, Token.Operation ['%'],
            Token.Number y] =
        .ok ([Token.Number x, Token.OpenBracket, Token.Number y,
          Token.Operation ['%']],
          (init_expr A).operator_priority ++ [(['%'], 0), ([], 0)]) ∧
      to_rpn (init_expr A).operator_priority
          [Token.Ident ['s', 'i', 'n'], Token.Operation ['%'], Token.Number y] =
        .ok ([Token.Ident ['s', 'i', 'n'], Token.Number y, Token.Operation ['%']],
          (init_expr A).operator_priority ++ [(['%'], 0), (['s', 'i', 'n'], 0)])) ∧
    (∀ (pw : ℚ → ℚ → ℚ) (sn cs : ℚ → ℚ),
      tokenize (exactArith pw sn cs) ("(1 % 2)".toList) =
        .ok [Token.OpenBracket, Token.Number (decimalValue ['1']), Token.Operation ['%'],
          Token.Number (decimalValue ['2']), Token.CloseBracket] ∧
      eval (exactArith pw sn cs) (init_expr (exactArith pw sn cs)) ("(1 % 2)".toList) =
        .error Fault.undefinedBehaviour) := by
  refine ⟨fun A x y => ⟨fun hx hy => ?_, rfl, rfl, fun hx hy => ?_, rfl, rfl⟩,
    fun pw sn cs => ⟨rfl, rfl⟩⟩
  · rw [← withValues_eq A [(['1'], x), (['2'], y)] (by simp [hx, hy])]
    rfl
  · rw [← withValues_eq A [(['1'], x), (['2'], y)] (by simp [hx, hy])]
    rfl

/-! ## Termination of the scan -/

/-- One iteration from a reachable state: the next state is reachable, needs fewer tests,
and either the position has advanced, or a token has been finished and its terminating
character is to be read again in the `None` state. -/
theorem lexStep (A : Arith F) (expr : Str) (st st1 : LexState F) (hinv : LexInv expr st)
    (hi : st.i < expr.length + 1) (hb : tokenizeBody A expr st = .ok st1) :
    LexInv expr { st1 with i := st1.i + 1 } ∧
    lexMeasure expr { st1 with i := st1.i + 1 } < lexMeasure expr st ∧
    (st1.i + 1 = st.i + 1 ∨
      (st1.i + 1 = st.i ∧ st.current_token ≠ TokenType.None ∧
        st1.current_token = TokenType.None)) := by
  obtain ⟨tokens, cur, ts, hp, i⟩ := st
  have hnul : i = expr.length → expr.getD i '\x00' = '\x00' := by
    intro h; rw [h]; exact getD_length expr
  simp only at hi
  rcases hinv with ⟨hc, _, hh⟩ | ⟨hc, hts, hle⟩ | ⟨hc, hts, hle, hh⟩
  · -- state None
    simp only at hc hh
    subst hc; subst hh
    simp only [tokenizeBody] at hb
    generalize expr.getD i '\x00' = c at hb hnul
    by_cases h1 : isdigit c = true
    · have hne : i ≠ expr.length := by
        intro h; rw [hnul h] at h1; simp [isdigit_nul] at h1
      simp only [h1, if_true, Except.ok.injEq] at hb
      subst hb
      refine ⟨Or.inr (Or.inl ⟨rfl, by simp, by simp; omega⟩), ?_, Or.inl rfl⟩
      simp only [lexMeasure, reduceCtorEq, if_false, if_true]
      omega
    · by_cases h5 : isalpha c = true
      · have hne : i ≠ expr.length := by
          intro h; rw [hnul h] at h5; simp [isalpha_nul] at h5
        have h2 : c ≠ ',' := by intro h; rw [h] at h5; revert h5; decide
        have h3 : c ≠ '(' := by intro h; rw [h] at h5; revert h5; decide
        have h4 : c ≠ ')' := by intro h; rw [h] at h5; revert h5; decide
        simp only [h1, h2, h3, h4, h5, if_true, if_false, Bool.false_eq_true,
          Except.ok.injEq] at hb
        subst hb
        refine ⟨Or.inr (Or.inr ⟨rfl, by simp, by simp; omega, rfl⟩), ?_, Or.inl rfl⟩
        simp only [lexMeasure, reduceCtorEq, if_false, if_true]
        omega
      · have hcur : st1.current_token = TokenType.None ∧ st1.i = i ∧ st1.hadPoint = false := by
          simp only [h1, h5, if_false, Bool.false_eq_true] at hb
          split_ifs at hb <;>
            (simp only [Except.ok.injEq] at hb; subst hb; exact ⟨rfl, rfl, rfl⟩)
        obtain ⟨e1, e2, e3⟩ := hcur
        refine ⟨Or.inl ⟨e1, by simp only [e2]; omega, e3⟩, ?_, Or.inl (by rw [e2])⟩
        simp only [lexMeasure, e1, e2, if_true]
        omega
  · -- state Number
    simp only at hc hts hle
    subst hc
    simp only [tokenizeBody] at hb
    generalize expr.getD i '\x00' = c at hb hnul
    by_cases h1 : isdigit c = true
    · have hne : i ≠ expr.length := by
        intro h; rw [hnul h] at h1; simp [isdigit_nul] at h1
      simp only [h1, if_true, Except.ok.injEq] at hb
      subst hb
      refine ⟨Or.inr (Or.inl ⟨rfl, by simp; omega, by simp; omega⟩), ?_, Or.inl rfl⟩
      simp only [lexMeasure, reduceCtorEq, if_false]
      omega
    · by_cases h2 : c = '.'
      · have hne : i ≠ expr.length := by
          intro h; rw [hnul h] at h2; simp at h2
        have hd : isdigit '.' = false := by decide
        subst h2
        cases hp with
        | true => simp [hd] at hb
        | false =>
          simp only [hd, if_true, if_false, Bool.false_eq_true, Except.ok.injEq] at hb
          subst hb
          refine ⟨Or.inr (Or.inl ⟨rfl, by simp; omega, by simp; omega⟩), ?_, Or.inl rfl⟩
          simp only [lexMeasure, reduceCtorEq, if_false]
          omega
      · simp only [h1, h2, if_false, Bool.false_eq_true] at hb
        cases hx : A.stod (substr expr ts (i - ts)) with
        | none => simp [hx] at hb
        | some x =>
          simp only [hx, Except.ok.injEq] at hb
          subst hb
          refine ⟨Or.inl ⟨rfl, by simp; omega, rfl⟩, ?_,
            Or.inr ⟨by simp; omega, by simp, rfl⟩⟩
          simp only [lexMeasure, reduceCtorEq, if_false, if_true]
          omega
  · -- state Ident
    simp only at hc hts hle hh
    subst hc; subst hh
    simp only [tokenizeBody] at hb
    generalize expr.getD i '\x00' = c at hb hnul
    by_cases h1 : isalnum c = true
    · have hne : i ≠ expr.length := by
        intro h; rw [hnul h] at h1; revert h1; decide
      simp only [h1, if_true, Except.ok.injEq] at hb
      subst hb
      refine ⟨Or.inr (Or.inr ⟨rfl, by simp; omega, by simp; omega, rfl⟩), ?_, Or.inl rfl⟩
      simp only [lexMeasure, reduceCtorEq, if_false]
      omega
    · simp only [h1, if_false, Bool.false_eq_true, Except.ok.injEq] at hb
      subst hb
      refine ⟨Or.inl ⟨rfl, by simp; omega, rfl⟩, ?_,
        Or.inr ⟨by simp; omega, by simp, rfl⟩⟩
      simp only [lexMeasure, reduceCtorEq, if_false, if_true]
      omega

theorem tokenizeVisits_le (A : Arith F) (expr : Str) :
    ∀ (fuel : Nat) (st : LexState F), ∀ k ∈ tokenizeVisits A expr fuel st, k ≤ expr.length := by
  intro fuel
  induction fuel with
  | zero => intro st k h; simp [tokenizeVisits] at h
  | succ fuel ih =>
    intro st k h
    simp only [tokenizeVisits] at h
    split_ifs at h with hi
    · rcases List.mem_cons.mp h with h1 | h1
      · omega
      · cases hb : tokenizeBody A expr st with
        | error e => simp [hb] at h1
        | ok st1 =>
          simp only [hb] at h1
          exact ih _ k h1
    · simp at h

/-- From a reachable state no position before the current one is visited again, the
current one at most once more in the `None` state and at most twice otherwise, and every
later one at most twice. -/
theorem tokenizeVisits_count (A : Arith F) (expr : Str) :
    ∀ (fuel : Nat) (st : LexState F) (k : Nat), LexInv expr st →
      (tokenizeVisits A expr fuel st).count k ≤
        if k < st.i then 0
        else if k = st.i then (if st.current_token = TokenType.None then 1 else 2)
        else 2 := by
  intro fuel
  induction fuel with
  | zero => intro st k _; simp [tokenizeVisits]
  | succ fuel ih =>
    intro st k hinv
    by_cases hi : st.i < expr.length + 1
    · simp only [tokenizeVisits, hi, if_true, List.count_cons, beq_iff_eq]
      cases hb : tokenizeBody A expr st with
      | error e =>
        simp only [List.count_nil]
        split_ifs <;> omega
      | ok st1 =>
        obtain ⟨hinv2, _, hpos⟩ := lexStep A expr st st1 hinv hi hb
        have h2 := ih { st1 with i := st1.i + 1 } k hinv2
        simp only at h2 ⊢
        generalize List.count k (tokenizeVisits A expr fuel
          { tokens := st1.tokens, current_token := st1.current_token,
            token_start := st1.token_start, hadPoint := st1.hadPoint, i := st1.i + 1 }) = c
          at h2 ⊢
        rcases hpos with hp | ⟨hp, hq, hr⟩
        · by_cases hN : st.current_token = TokenType.None
          · simp only [hN, if_true]
            split_ifs at h2 ⊢ <;> omega
          · simp only [hN, if_false]
            split_ifs at h2 ⊢ <;> omega
        · simp only [hr, if_true] at h2
          simp only [hq, if_false]
          split_ifs at h2 ⊢ <;> omega
    · simp [tokenizeVisits, hi]

/-- A run of the loop that returns its tokens has visited the position of the terminator,
one past the last character. -/
theorem tokenizeVisits_sentinel (A : Arith F) (expr : Str) :
    ∀ (fuel : Nat) (st : LexState F) (toks : List (Token F)), LexInv expr st →
      st.i ≤ expr.length → tokenizeLoop A expr fuel st = .ok toks →
      expr.length ∈ tokenizeVisits A expr fuel st := by
  intro fuel
  induction fuel with
  | zero => intro st toks _ _ h; simp [tokenizeLoop] at h
  | succ fuel ih =>
    intro st toks hinv hle h
    have hi : st.i < expr.length + 1 := by omega
    simp only [tokenizeLoop, hi, if_true] at h
    simp only [tokenizeVisits, hi, if_true]
    cases hb : tokenizeBody A expr st with
    | error e => simp [hb] at h
    | ok st1 =>
      simp only [hb] at h ⊢
      obtain ⟨hinv2, _, hpos⟩ := lexStep A expr st st1 hinv hi hb
      by_cases hn : st.i = expr.length
      · rw [hn]; exact List.mem_cons_self _ _
      · refine List.mem_cons_of_mem _ (ih _ toks hinv2 ?_ h)
        simp only
        rcases hpos with hp | ⟨hp, _, _⟩ <;> omega

/-- Any fuel from `2 * (size + 1) + 1` on gives the result of `tokenize`. -/
theorem tokenizeLoop_fuel (A : Arith F) (expr : Str) (fuel : Nat)
    (h : 2 * (expr.length + 1) + 1 ≤ fuel) :
    tokenizeLoop A expr fuel
        { tokens := [], current_token := TokenType.None, token_start := 0, hadPoint := false,
          i := 0 } = tokenize A expr := by
  rw [tokenize_eq_scan,
    tokenizeLoop_eq_scan A expr fuel _ (Or.inl ⟨rfl, by simp, rfl⟩) (by simpa using h)]
  simp [modeOf, emit_nil]

/-- C19. The scan of `tokenize` terminates on every input: the loop never runs out of the
`2 * (size + 1) + 1` tests it is given, and more fuel gives the same result. From a
reachable state one iteration either advances the position, or finishes a number or an
identifier and steps back by one to read the terminating character again in the `None`
state, where every iteration advances. So no position is visited more than twice, no
position beyond `size` is visited, and a run that returns has visited position `size`. -/
theorem scan_terminates :
    (∀ {F : Type} (A : Arith F) (expr : Str), tokenize A expr ≠ .error Fault.outOfFuel) ∧
    (∀ {F : Type} (A : Arith F) (expr : Str) (fuel : Nat),
      2 * (expr.length + 1) + 1 ≤ fuel →
      tokenizeLoop A expr fuel
        { tokens := [], current_token := TokenType.None, token_start := 0, hadPoint := false,
          i := 0 } = tokenize A expr) ∧
    (∀ {F : Type} (A : Arith F) (expr : Str) (st st1 : LexState F),
      LexInv expr st → st.i < expr.length + 1 → tokenizeBody A expr st = .ok st1 →
      LexInv expr { st1 with i := st1.i + 1 } ∧
      (st.current_token = TokenType.None → st1.i + 1 = st.i + 1) ∧
      (st1.i + 1 = st.i + 1 ∨
        (st1.i + 1 = st.i ∧ st.current_token ≠ TokenType.None ∧
          st1.current_token = TokenType.None))) ∧
    (∀ {F : Type} (A : Arith F) (expr : Str) (k : Nat),
      (tokenizeVisits A expr (2 * (expr.length + 1) + 1)
        { tokens := [], current_token := TokenType.None, token_start := 0, hadPoint := false,
          i := 0 }).count k ≤ 2 ∧
      (k ∈ tokenizeVisits A expr (2 * (expr.length + 1) + 1)
        { tokens := [], current_token := TokenType.None, token_start := 0, hadPoint := false,
          i := 0 } → k ≤ expr.length)) ∧
    (∀ {F : Type} (A : Arith F) (expr : Str) (toks : List (Token F)),
      tokenize A expr = .ok toks →
      expr.length ∈ tokenizeVisits A expr (2 * (expr.length + 1) + 1)
        { tokens := [], current_token := TokenType.None, token_start := 0, hadPoint := false,
          i := 0 }) := by
  refine ⟨fun A expr => tokenize_ne_outOfFuel A expr,
    fun A expr fuel h => tokenizeLoop_fuel A expr fuel h, ?_, ?_, ?_⟩
  · intro F A expr st st1 hinv hi hb
    obtain ⟨h1, _, h3⟩ := lexStep A expr st st1 hinv hi hb
    refine ⟨h1, ?_, h3⟩
    intro hN
    rcases h3 with h | ⟨_, hq, _⟩
    · exact h
    · exact absurd hN hq
  · intro F A expr k
    constructor
    · have := tokenizeVisits_count A expr (2 * (expr.length + 1) + 1)
        { tokens := [], current_token := TokenType.None, token_start := 0, hadPoint := false,
          i := 0 } k (Or.inl ⟨rfl, by simp, rfl⟩)
      simp only at this
      split_ifs at this <;> omega
    · exact tokenizeVisits_le A expr _ _ k
  · intro F A expr toks h
    exact tokenizeVisits_sentinel A expr _ _ toks (Or.inl ⟨rfl, by simp, rfl⟩)
      (Nat.zero_le _) h

theorem scan_terminates_witness :
    tokenizeVisits sampleArith ("12+x".toList) (2 * ("12+x".toList.length + 1) + 1)
        { tokens := [], current_token := TokenType.None, token_start := 0, hadPoint := false,
          i := 0 } = [0, 1, 2, 2, 3, 4, 4] ∧
    tokenizeLoop sampleArith ("12+x".toList) 100
        { tokens := [], current_token := TokenType.None, token_start := 0, hadPoint := false,
          i := 0 } = tokenize sampleArith ("12+x".toList) :=
  ⟨rfl, scan_terminates.2.1 sampleArith ("12+x".toList) 100 (by decide)⟩

theorem numbersOf_append (xs ys : List (Token F)) :
    numbersOf (xs ++ ys) = numbersOf xs ++ numbersOf ys := by
  simp [numbersOf]

theorem numbersOf_eq_nil (xs : List (Token F)) (h : ∀ x ∈ xs, x.type ≠ TokenType.Number) :
    numbersOf xs = [] := by
  simp only [numbersOf, List.filter_eq_nil_iff, decide_eq_true_eq]
  exact h

theorem to_rpn_loop_numbers :
    ∀ (ts : List (Token F)) (st st1 : RpnState F), to_rpn_loop ts st = .ok st1 →
      (∀ x ∈ st.stack, x.type ≠ TokenType.Number) →
      numbersOf st1.result = numbersOf st.result ++ numbersOf ts ∧
        ∀ x ∈ st1.stack, x.type ≠ TokenType.Number := by
  intro ts
  induction ts with
  | nil =>
    intro st st1 h hp
    simp only [to_rpn_loop, Except.ok.injEq] at h
    subst h
    exact ⟨by simp [numbersOf], hp⟩
  | cons t ts ih =>
    intro st st1 h hp
    simp only [to_rpn_loop] at h
    cases hs : to_rpn_step st t with
    | error e => simp [hs] at h
    | ok st2 =>
      simp only [hs] at h
      obtain ⟨_, hstack, moved, hres, hmoved⟩ := to_rpn_step_shape st st2 t hs
      have hp2 : ∀ x ∈ st2.stack, x.type ≠ TokenType.Number := by
        intro x hx
        rcases hstack x hx with h1 | ⟨h1, h2⟩
        · exact hp x h1
        · rw [h1]; exact h2
      obtain ⟨e1, e2⟩ := ih st2 st1 h hp2
      refine ⟨?_, e2⟩
      have hm : numbersOf moved = [] :=
        numbersOf_eq_nil moved (fun x hx => hp x (hmoved x hx))
      rw [e1, hres, numbersOf_append, numbersOf_append, hm, List.append_nil,
        List.append_assoc]
      congr 1
      by_cases hn : t.type = TokenType.Number
      · simp [numbersOf, hn]
      · simp [numbersOf, hn]

/-- C20. Operand order is preserved by conversion: whenever `to_rpn` returns, the
subsequence of the `Number` tokens of the returned vector is the subsequence of the
`Number` tokens of the input: same tokens, same order, none lost or repeated. -/
theorem numbers_keep_their_order {F : Type} (m m1 : List (Str × Int))
    (ts r : List (Token F)) (h : to_rpn m ts = .ok (r, m1)) :
    numbersOf r = numbersOf ts := by
  simp only [to_rpn] at h
  cases hl : to_rpn_loop ts { result := [], stack := [], operator_priority := m } with
  | error e => simp [hl] at h
  | ok st =>
    simp only [hl, Except.ok.injEq, Prod.mk.injEq] at h
    obtain ⟨e1, e2⟩ := to_rpn_loop_numbers ts _ st hl (by simp)
    rw [← h.1, numbersOf_append, e1, numbersOf_eq_nil st.stack e2]
    simp [numbersOf]

theorem numbers_keep_their_order_witness :
    to_rpn (init_expr sampleArith).operator_priority
        [Token.Number (3 : ℚ), Token.Operation ['+'], Token.Number 4, Token.Operation ['*'],
          Token.Number 2] =
      .ok ([Token.Number 3, Token.Number 4, Token.Number 2, Token.Operation ['*'],
        Token.Operation ['+']], (init_expr sampleArith).operator_priority) ∧
    numbersOf [Token.Number (3 : ℚ), Token.Number 4, Token.Number 2, Token.Operation ['*'],
        Token.Operation ['+']] =
      numbersOf [Token.Number (3 : ℚ), Token.Operation ['+'], Token.Number 4,
        Token.Operation ['*'], Token.Number 2] :=
  ⟨rfl, numbers_keep_their_order (init_expr sampleArith).operator_priority
    (init_expr sampleArith).operator_priority _ _ rfl⟩

end Expr
